import Mathlib

/-!
Run-length codec: shallow embedding and verification.

Embedding of `src/src/compress.c`, `src/src/decompress.c`, `src/src/utils.c` and
`src/src/main.c`.

Conventions of the embedding.

* A byte (`char`) is a natural number; the character constants of the source are
  written by their ASCII codes: newline 10, tab 9, digit zero 48, digit nine 57,
  backslash 92, letter n 110, letter t 116.  Only equality and the digit range test
  are applied to bytes, so signedness of `char` plays no role.
* An input buffer is the list of its bytes; `u64_input_data_size` is its length.
  What lies in memory right after the buffer is a separate argument `past`,
  because both transforms read there.
* The output buffer is written strictly sequentially (`pc_output_data[u64_write_idx++]`),
  so it is represented by the list of bytes stored so far; `u64_write_idx` is the
  length of that list.  The tracked capacity `*pu64_output_data_size` is kept next
  to it, together with a flag recording whether some store fell at or beyond it.
* `realloc` is an oracle: `realloc_ok k` tells whether the `k`-th call (counted
  from 0 inside one transform call) succeeds.
* The tracked capacity and the write index are unbounded naturals: while every
  reallocation succeeds they are sizes of objects that exist, hence below `2 ^ 64`.
-/

namespace RLE

/-! ## Status codes and buffers -/

/-- Modelled from the spec: the status constants of `header_files/constants.h`, a file
that is not among the sources.  Only their names occur in the code; they are taken
as pairwise distinct values (`NullInput`, `InvalidLength`, `MemoryAllocation`,
`UnsupportedExtension` of the error taxonomy, and the I/O statuses). -/
inductive Status where
  | SUCCESS_STATUS
  | FAILURE_STATUS
  | ERROR_NULL_POINTER
  | ERROR_INVALID_LENGTH
  | ERROR_MEMORY_ALLOCATION_FAILED
  | ERROR_FILE_EXTENSION
  | ERROR_FILE_NOT_OPENED
  | ERROR_FILE_NOT_CLOSED
  | ERROR_FILE_READ_FAILED
  | ERROR_FILE_WRITE_FAILED
  | ERROR_DELETE_FILE
  deriving DecidableEq

open Status

/-- What a `char *` handed to or left by a transform designates. -/
inductive Buffer where
  /-- the null pointer -/
  | null
  /-- a block of the given size whose contents are indeterminate
      (as returned by `malloc`, or by `realloc(NULL, size)`) -/
  | fresh (size : Nat)
  /-- a block holding exactly these bytes -/
  | data (bytes : List Nat)
  deriving DecidableEq

/-- State of the local pointer `pc_output_data` inside a transform. -/
inductive Ptr where
  /-- it designates the block that holds every byte stored so far -/
  | block
  /-- it designates a block obtained from `realloc(NULL, _)` after an earlier
      failure: the bytes stored before are not in it -/
  | fresh
  /-- it is `NULL` (a `realloc` failed) -/
  | null
  deriving DecidableEq

/-- The growable output buffer as a transform sees it. -/
structure OutBuf where
  /-- bytes stored at indices `0 .. u64_write_idx - 1`, in order -/
  bytes : List Nat
  /-- tracked capacity `*pu64_output_data_size` -/
  cap : Nat
  /-- number of `realloc` calls made so far -/
  calls : Nat
  /-- state of `pc_output_data` -/
  ptr : Ptr
  /-- some store so far was made at an index `>=` the tracked capacity -/
  oob : Bool
  deriving DecidableEq

/-- The growth step shared by both transforms:
`*pu64_output_data_size += DATA_CHUNK_SIZE_BYTES; pc_output_data = realloc(...)`. -/
def OutBuf.grow (DATA_CHUNK_SIZE_BYTES : Nat) (realloc_ok : Nat → Bool) (b : OutBuf) : OutBuf :=
  { b with
    cap := b.cap + DATA_CHUNK_SIZE_BYTES
    calls := b.calls + 1
    ptr := if realloc_ok b.calls then (if b.ptr = Ptr.null then Ptr.fresh else b.ptr)
           else Ptr.null }

/-- One store `pc_output_data[u64_write_idx++] = c`; `none` when the pointer is `NULL`
(undefined behaviour). -/
def OutBuf.store (c : Nat) (b : OutBuf) : Option OutBuf :=
  if b.ptr = Ptr.null then none
  else some { b with
    bytes := b.bytes ++ [c]
    oob := b.oob || decide (b.cap ≤ b.bytes.length) }

/-- What a transform call leaves behind. -/
structure Ret where
  /-- the returned `s32` -/
  status : Status
  /-- what the local `pc_output_data` designates on return -/
  buffer : Buffer
  /-- value of `*pu64_output_data_size` on return (`none`: the handle is absent) -/
  size : Option Nat
  /-- number of `realloc` calls made -/
  reallocs : Nat
  /-- some store was made at an index `>=` the tracked capacity -/
  oob : Bool
  deriving DecidableEq

/-- The common tail of both transforms (compress.c 88-96, decompress.c 116-124):
the size handle receives the write index and the buffer is shrunk to it.  The status
is still `SUCCESS_STATUS` when this point is reached (the assignments on
compress.c:58 and decompress.c:52,106 are written `==`, comparisons without effect),
so only the outcome of this last `realloc` decides it. -/
def OutBuf.finish (realloc_ok : Nat → Bool) (b : OutBuf) : Ret :=
  { status := if realloc_ok b.calls then SUCCESS_STATUS else ERROR_MEMORY_ALLOCATION_FAILED
    buffer :=
      if realloc_ok b.calls then
        (if b.ptr = Ptr.block then Buffer.data b.bytes else Buffer.fresh b.bytes.length)
      else Buffer.null
    size := some b.bytes.length
    reallocs := b.calls + 1
    oob := b.oob }

/-- The state in which the scanning loop of a transform starts. -/
def OutBuf.init (size0 : Nat) : OutBuf :=
  { bytes := [], cap := size0, calls := 0, ptr := Ptr.block, oob := false }

/-! ## Encoder (compress.c) -/

/-- The range test of compress.c 68 and decompress.c 67, 85: the byte lies between
digit zero and digit nine. -/
def is_digit (c : Nat) : Bool := decide (48 ≤ c) && decide (c ≤ 57)

/-- Digits of the conversion `%lu`, most significant first; the first argument bounds
the number of digits produced. -/
def lu_digits : Nat → Nat → List Nat
  | 0, _ => []
  | fuel + 1, n => if n < 10 then [48 + n] else lu_digits fuel (n / 10) ++ [48 + n % 10]

/-- The text left in `ac_char_count_str` by the `snprintf` call with the conversion
`%lu` and the size `sizeof(ac_char_count_str)` (compress.c 78-79): the decimal text
of a 64-bit value has at most 20 digits, and `snprintf` keeps at most
`sizeof - 1 = 19` characters of it. -/
def snprintf_count (u64_char_count : Nat) : List Nat :=
  (lu_digits 20 u64_char_count).take 19

/-- The symbol bytes of one emission (compress.c 63-76). -/
def escape_symbol (c : Nat) : List Nat :=
  if c = 10 then [92, 110]
  else if is_digit c then [92, c]
  else [c]

/-- One emission (compress.c 63-83): symbol bytes, count text, and a NUL stored at
the new write index without advancing it. -/
def OutBuf.emit (c u64_char_count : Nat) (b : OutBuf) : OutBuf :=
  { b with
    bytes := b.bytes ++ (escape_symbol c ++ snprintf_count u64_char_count)
    oob := b.oob ||
      decide (b.cap ≤ b.bytes.length +
        (escape_symbol c ++ snprintf_count u64_char_count).length) }

/-- The scanning loop of `s32_rle_compress` (compress.c 41-87).  The list argument is
the input from index `i` on, so `pc_input_data[i + 1]` is the head of its tail, or
the byte `past` lying right after the buffer when `i` is the last index.
The counter is a `u64`. -/
def compress_loop (DATA_CHUNK_SIZE_BYTES : Nat) (realloc_ok : Nat → Bool) (past : Nat) :
    List Nat → Nat → OutBuf → OutBuf
  | [], _, b => b
  | c :: rest, u64_char_count, b =>
    if rest.headD past = c then
      compress_loop DATA_CHUNK_SIZE_BYTES realloc_ok past rest
        ((u64_char_count + 1) % 2 ^ 64) b
    else if b.cap ≤ b.bytes.length + 2 + 20 then
      if (b.grow DATA_CHUNK_SIZE_BYTES realloc_ok).ptr = Ptr.null then
        b.grow DATA_CHUNK_SIZE_BYTES realloc_ok
      else
        compress_loop DATA_CHUNK_SIZE_BYTES realloc_ok past rest 1
          ((b.grow DATA_CHUNK_SIZE_BYTES realloc_ok).emit c u64_char_count)
    else
      compress_loop DATA_CHUNK_SIZE_BYTES realloc_ok past rest 1 (b.emit c u64_char_count)

/-- The function `s32_rle_compress` (compress.c 21-102).  `u64_input_data_size` is the
length of the input list; an absent handle is `none` (for the buffer: `Buffer.null`). -/
def s32_rle_compress (DATA_CHUNK_SIZE_BYTES : Nat) (realloc_ok : Nat → Bool) (past : Nat)
    (pc_input_data : Option (List Nat)) (pc_output_data : Buffer)
    (pu64_output_data_size : Option Nat) : Ret :=
  match pc_input_data, pu64_output_data_size with
  | some input, some size0 =>
    if pc_output_data = Buffer.null then
      { status := ERROR_NULL_POINTER, buffer := pc_output_data,
        size := pu64_output_data_size, reallocs := 0, oob := false }
    else if input.length = 0 then
      { status := ERROR_INVALID_LENGTH, buffer := pc_output_data,
        size := pu64_output_data_size, reallocs := 0, oob := false }
    else
      (compress_loop DATA_CHUNK_SIZE_BYTES realloc_ok past input 1
        (OutBuf.init size0)).finish realloc_ok
  | _, _ =>
    { status := ERROR_NULL_POINTER, buffer := pc_output_data,
      size := pu64_output_data_size, reallocs := 0, oob := false }

/-! ## Decoder (decompress.c) -/

/-- The escape table of decompress.c 59-74, applied to the byte after a backslash. -/
def resolve_escape (d : Nat) : Nat :=
  if d = 110 then 10
  else if d = 116 then 9
  else if is_digit d then d
  else 92

/-- Decimal value of a string of digit bytes. -/
def decimal_value (s : List Nat) : Nat :=
  s.foldl (fun acc d => acc * 10 + (d - 48)) 0

/-- The library function `atoi` on a string made of decimal digits only, as the C
library of the target computes it: `(int) strtol(s, NULL, 10)`, where `strtol`
saturates at `LONG_MAX = 2 ^ 63 - 1` and the conversion to `int` keeps the low 32
bits in two's complement. -/
def atoi (s : List Nat) : Int :=
  if (min (decimal_value s) (2 ^ 63 - 1)) % 2 ^ 32 < 2 ^ 31 then
    (((min (decimal_value s) (2 ^ 63 - 1)) % 2 ^ 32 : Nat) : Int)
  else
    (((min (decimal_value s) (2 ^ 63 - 1)) % 2 ^ 32 : Nat) : Int) - 2 ^ 32

/-- The conversion of the `int` returned by `atoi` to the `u64` `u64_char_cnt`. -/
def to_u64 (z : Int) : Nat := (z % 2 ^ 64).toNat

/-- The inner loop `for (j = 1; j < u64_char_cnt; j++)` of decompress.c 95-113; the
numeric argument is the number of passes left.  A failed growth leaves the loop with
the pointer `NULL`. -/
def repeat_loop (DATA_CHUNK_SIZE_BYTES : Nat) (realloc_ok : Nat → Bool) (non_digit_char : Nat) :
    Nat → OutBuf → Option OutBuf
  | 0, b => some b
  | k + 1, b =>
    if b.cap = b.bytes.length then
      if (b.grow DATA_CHUNK_SIZE_BYTES realloc_ok).ptr = Ptr.null then
        some (b.grow DATA_CHUNK_SIZE_BYTES realloc_ok)
      else
        match (b.grow DATA_CHUNK_SIZE_BYTES realloc_ok).store non_digit_char with
        | none => none
        | some b1 => repeat_loop DATA_CHUNK_SIZE_BYTES realloc_ok non_digit_char k b1
    else
      match b.store non_digit_char with
      | none => none
      | some b1 => repeat_loop DATA_CHUNK_SIZE_BYTES realloc_ok non_digit_char k b1

/-- The symbol read at decompress.c 57-80: the resolved byte and the input that
follows the symbol.  The escape is taken only when a following byte exists
(`(i + 1) < u64_input_data_size`). -/
def read_symbol (c : Nat) (rest : List Nat) : Nat × List Nat :=
  if c = 92 then
    match rest with
    | d :: rest1 => (resolve_escape d, rest1)
    | [] => (c, rest)
  else (c, rest)

/-- The digits collected by the loop of decompress.c 85-88, which tests only the byte
value: it runs through the rest of the stream and on into the memory `past` that
follows it. -/
def scan_digits (rest past : List Nat) : List Nat :=
  (rest ++ past).takeWhile is_digit

/-- The body of one pass of the outer loop after the growth check (decompress.c
57-113), on the current byte `c` and the stream `rest` after it.  The result is the
buffer and the stream from the next value of `i` on.  It is `none` (undefined
behaviour) when a store goes through the null pointer, or when 20 or more digits are
collected: the staging array `ac_char_cnt_string` has 20 elements, so its index
leaves it or `atoi` finds no terminating NUL in it. -/
def decompress_body (DATA_CHUNK_SIZE_BYTES : Nat) (realloc_ok : Nat → Bool) (past : List Nat)
    (c : Nat) (rest : List Nat) (b : OutBuf) : Option (OutBuf × List Nat) :=
  match b.store (read_symbol c rest).1 with
  | none => none
  | some b1 =>
    if 20 ≤ (scan_digits (read_symbol c rest).2 past).length then none
    else
      match repeat_loop DATA_CHUNK_SIZE_BYTES realloc_ok (read_symbol c rest).1
          (to_u64 (atoi (scan_digits (read_symbol c rest).2 past)) - 1) b1 with
      | none => none
      | some b2 =>
        some (b2, (read_symbol c rest).2.drop (scan_digits (read_symbol c rest).2 past).length)

/-- The outer loop of `s32_rle_decompress` (decompress.c 41-115).  The list is the
stream from index `i` on.  Every pass consumes at least one byte, so a number of
passes equal to the stream length is never exceeded; the first argument counts the
passes left and the second clause is not reached from `s32_rle_decompress`.  The
memory after the stream is `past`, followed by a byte that is not a digit.
`ERROR_BREAK` on line 114 never leaves the loop, because `s32_ret_val` is still
`SUCCESS_STATUS` there (lines 52 and 106 compare instead of assigning). -/
def decompress_loop (DATA_CHUNK_SIZE_BYTES : Nat) (realloc_ok : Nat → Bool) (past : List Nat) :
    Nat → List Nat → OutBuf → Option OutBuf
  | _, [], b => some b
  | 0, _ :: _, _ => none
  | fuel + 1, c :: rest, b =>
    if b.cap = b.bytes.length then
      if (b.grow DATA_CHUNK_SIZE_BYTES realloc_ok).ptr = Ptr.null then
        some (b.grow DATA_CHUNK_SIZE_BYTES realloc_ok)
      else
        match decompress_body DATA_CHUNK_SIZE_BYTES realloc_ok past c rest
            (b.grow DATA_CHUNK_SIZE_BYTES realloc_ok) with
        | none => none
        | some r => decompress_loop DATA_CHUNK_SIZE_BYTES realloc_ok past fuel r.2 r.1
    else
      match decompress_body DATA_CHUNK_SIZE_BYTES realloc_ok past c rest b with
      | none => none
      | some r => decompress_loop DATA_CHUNK_SIZE_BYTES realloc_ok past fuel r.2 r.1

/-- The function `s32_rle_decompress` (decompress.c 19-130); `none` is undefined
behaviour (see `decompress_body`). -/
def s32_rle_decompress (DATA_CHUNK_SIZE_BYTES : Nat) (realloc_ok : Nat → Bool) (past : List Nat)
    (pc_input_data : Option (List Nat)) (pc_output_data : Buffer)
    (pu64_output_data_size : Option Nat) : Option Ret :=
  match pc_input_data, pu64_output_data_size with
  | some input, some size0 =>
    if pc_output_data = Buffer.null then
      some { status := ERROR_NULL_POINTER, buffer := pc_output_data,
             size := pu64_output_data_size, reallocs := 0, oob := false }
    else if input.length = 0 then
      some { status := ERROR_INVALID_LENGTH, buffer := pc_output_data,
             size := pu64_output_data_size, reallocs := 0, oob := false }
    else
      (decompress_loop DATA_CHUNK_SIZE_BYTES realloc_ok past input.length input
        (OutBuf.init size0)).map (OutBuf.finish realloc_ok)
  | _, _ =>
    some { status := ERROR_NULL_POINTER, buffer := pc_output_data,
           size := pu64_output_data_size, reallocs := 0, oob := false }

/-! ## Reference definitions for the codec

These follow the wording of the specification and are what the embedded functions
are compared with. -/

/-- The maximal runs of identical bytes of a sequence, in order, each as the pair of
its byte and its length. -/
def maximal_runs : List Nat → List (Nat × Nat)
  | [] => []
  | c :: rest =>
    match maximal_runs rest with
    | [] => [(c, 1)]
    | (d, k) :: tl => if d = c then (c, k + 1) :: tl else (c, 1) :: (d, k) :: tl

/-- The bytes a list of runs stands for. -/
def expand_runs (rs : List (Nat × Nat)) : List Nat :=
  rs.flatMap (fun r => List.replicate r.2 r.1)

/-- The decimal ASCII text of a number. -/
def decimal_text (n : Nat) : List Nat := ((Nat.digits 10 n).reverse).map (fun d => d + 48)

/-- The escaped symbol of the specification: backslash and letter n for a newline,
backslash and the digit for a decimal digit, the byte itself otherwise. -/
def spec_symbol (c : Nat) : List Nat :=
  if c = 10 then [92, 110]
  else if 48 ≤ c ∧ c ≤ 57 then [92, c]
  else [c]

/-- One token of the specification: the escaped symbol immediately followed by the
decimal text of the run length. -/
def spec_token (r : Nat × Nat) : List Nat := spec_symbol r.1 ++ decimal_text r.2

/-- The encoding the specification describes: one token per maximal run, in order. -/
def spec_encode (x : List Nat) : List Nat := (maximal_runs x).flatMap spec_token

/-- The runs the loop of `s32_rle_compress` emits, with the counter value of each;
it follows `compress_loop` and leaves the buffer out. -/
def run_tokens (past : Nat) : List Nat → Nat → List (Nat × Nat)
  | [], _ => []
  | c :: rest, cnt =>
    if rest.headD past = c then run_tokens past rest ((cnt + 1) % 2 ^ 64)
    else (c, cnt) :: run_tokens past rest 1

/-- The bytes of one emission of the loop. -/
def emitted (t : Nat × Nat) : List Nat := escape_symbol t.1 ++ snprintf_count t.2

/-- The list of runs with the length of its first run raised by `j`. -/
def add_first (j : Nat) : List (Nat × Nat) → List (Nat × Nat)
  | [] => []
  | (c, k) :: tl => (c, k + j) :: tl

/-- A token of an encoded stream: a symbol, either one literal byte or a backslash
followed by one byte, and the digits of the run length. -/
structure Token where
  /-- the symbol is a backslash followed by `byte` -/
  escaped : Bool
  /-- the literal byte, or the byte after the backslash -/
  byte : Nat
  /-- the run-length suffix -/
  digits : List Nat
  deriving DecidableEq

/-- The bytes of a token in the stream. -/
def Token.bytes (t : Token) : List Nat :=
  (if t.escaped then [92, t.byte] else [t.byte]) ++ t.digits

/-- The byte a symbol resolves to, by the escape table of the specification:
backslash and letter n give a newline, backslash and letter t a tab, backslash and a
digit that digit, backslash and any other byte a backslash; a literal is itself. -/
def Token.resolved (t : Token) : Nat :=
  if t.escaped then
    (if t.byte = 110 then 10 else if t.byte = 116 then 9
     else if 48 ≤ t.byte ∧ t.byte ≤ 57 then t.byte else 92)
  else t.byte

/-- The decimal value of the run-length suffix. -/
def Token.count (t : Token) : Nat :=
  Nat.ofDigits 10 ((t.digits.map (fun d => d - 48)).reverse)

/-- The bytes a token stands for. -/
def Token.expand (t : Token) : List Nat := List.replicate t.count t.resolved

/-- A well-formed token: a literal symbol is not a backslash, and the suffix has 1 to
19 decimal digits whose value lies between 1 and 2^31 - 1. -/
def Token.well_formed (t : Token) : Prop :=
  (t.escaped = false → t.byte ≠ 92) ∧
  (1 ≤ t.digits.length ∧ t.digits.length ≤ 19) ∧
  (∀ d ∈ t.digits, 48 ≤ d ∧ d ≤ 57) ∧
  (1 ≤ t.count ∧ t.count ≤ 2 ^ 31 - 1)

/-- The symbol of the token is a literal decimal digit. -/
def Token.digit_literal (t : Token) : Bool := !t.escaped && is_digit t.byte

/-- The byte with which the list starts, if there is one, is not a decimal digit. -/
def starts_non_digit (l : List Nat) : Prop := ∀ b, l.head? = some b → is_digit b = false

/-- Nowhere in the list do 20 decimal digits follow one another. -/
def no_long_digit_run (l : List Nat) : Prop :=
  ∀ t ∈ l.tails, (t.takeWhile is_digit).length < 20

instance (l : List Nat) : Decidable (no_long_digit_run l) := by
  unfold no_long_digit_run; infer_instance

instance (l : List Nat) : Decidable (starts_non_digit l) := by
  cases l with
  | nil => exact isTrue (fun b h => by simp at h)
  | cons a l =>
    by_cases h : is_digit a = false
    · exact isTrue (fun b hb => by simp at hb; subst hb; exact h)
    · exact isFalse (fun hf => h (hf a rfl))

/-- The token the encoder emits for a run. -/
def run_token (r : Nat × Nat) : Token :=
  { escaped := decide (r.1 = 10) || is_digit r.1
    byte := if r.1 = 10 then 110 else r.1
    digits := snprintf_count r.2 }

/-! ## File names and output paths (utils.c) -/

/-- Index of the last occurrence of `c` in the string, as `strrchr` finds it. -/
def strrchr : List Char → Char → Option Nat
  | [], _ => none
  | x :: xs, c =>
    match strrchr xs c with
    | some i => some (i + 1)
    | none => if x = c then some 0 else none

/-- The test of utils.c 340 and 377: there is no dot, or the last dot precedes the
last slash. -/
def no_extension_found (pc_last_dot pc_last_slash : Option Nat) : Bool :=
  match pc_last_dot, pc_last_slash with
  | none, _ => true
  | some dot, some slash => decide (dot < slash)
  | some _, none => false

/-- The function `get_file_basename` (utils.c 327-355): the status and the contents
of the destination buffer afterwards.  The length of the extension is held in a
`u8`. -/
def get_file_basename (pc_file_path : Option (List Char))
    (pc_file_basename : Option (List Char)) : Status × Option (List Char) :=
  match pc_file_path, pc_file_basename with
  | some path, some _ =>
    if no_extension_found (strrchr path '.') (strrchr path '/') then
      (ERROR_FILE_EXTENSION, pc_file_basename)
    else
      (SUCCESS_STATUS,
        some (path.take (path.length - (path.length - (strrchr path '.').getD 0) % 256)))
  | _, _ => (ERROR_NULL_POINTER, pc_file_basename)

/-- The function `get_file_extension` (utils.c 364-391): the status and the contents
of the destination buffer afterwards. -/
def get_file_extension (pc_file_path : Option (List Char))
    (pc_file_extension : Option (List Char)) : Status × Option (List Char) :=
  match pc_file_path, pc_file_extension with
  | some path, some _ =>
    if no_extension_found (strrchr path '.') (strrchr path '/') then
      (ERROR_FILE_EXTENSION, pc_file_extension)
    else
      (SUCCESS_STATUS, some (path.drop ((strrchr path '.').getD 0 + 1)))
  | _, _ => (ERROR_NULL_POINTER, pc_file_extension)

/-- The function `add_file_extension` (utils.c 400-416): `snprintf` with room for the
dot, the extension and the terminator. -/
def add_file_extension (pc_file_basename : Option (List Char))
    (pc_extension : Option (List Char)) : Status × Option (List Char) :=
  match pc_file_basename, pc_extension with
  | some base, some ext => (SUCCESS_STATUS, some (base ++ ('.' :: ext).take (ext.length + 1)))
  | _, _ => (ERROR_NULL_POINTER, pc_file_basename)

/-- The text of the conversion `%d` applied to the `u8` counter. -/
def format_d (u8_file_suffix_cnt : Nat) : List Char :=
  (lu_digits 3 u8_file_suffix_cnt).map Char.ofNat

/-- The text the `snprintf` call of utils.c 468 leaves (size 8, format underscore,
`%d`, dot, `%s`): at most seven characters of the formatted suffix. -/
def suffix_text (u8_file_suffix_cnt : Nat) (ext : List Char) : List Char :=
  ('_' :: (format_d u8_file_suffix_cnt ++ '.' :: ext)).take 7

/-- The loop of utils.c 466-471 on the shadow path.  The candidate tried after the
first one depends only on the counter, a `u8`, so the candidates repeat after the
first 257; the loop is run for that many tests and `none` stands for a loop that
never ends (every candidate exists).  `none` is also the result when `snprintf`
would write past the end of the shadow block of `max_out_path_len` bytes. -/
def suffix_loop (file_exists : List Char → Bool) (max_out_path_len : Nat)
    (u16_out_file_basename_len : Nat) (ext : List Char) :
    Nat → List Char → Nat → Option (List Char)
  | 0, _, _ => none
  | fuel + 1, shadow, u8_file_suffix_cnt =>
    if file_exists shadow then
      if max_out_path_len <
          u16_out_file_basename_len + ((suffix_text u8_file_suffix_cnt ext).length + 1) then
        none
      else
        suffix_loop file_exists max_out_path_len u16_out_file_basename_len ext fuel
          (shadow.take u16_out_file_basename_len ++ suffix_text u8_file_suffix_cnt ext)
          ((u8_file_suffix_cnt + 1) % 256)
    else some shadow

/-- What `*ppc_out_file_path` designates. -/
inductive PathPtr where
  /-- the null pointer -/
  | null
  /-- a block that was allocated and never written -/
  | uninit
  /-- a block holding this string -/
  | str (s : List Char)
  deriving DecidableEq

/-- The function `create_output_file` (utils.c 426-481): the status and what
`*ppc_out_file_path` designates afterwards; `none` when the call does not return a
defined result (see `suffix_loop`).  `file_exists` is `check_file_exists`, that is,
whether the file can be opened for reading; the two booleans are the outcomes of the two
`malloc` calls.  The handle `ppc_out_file_path` is present: both callers pass the
address of a local variable.  The basename length is held in a `u16`.  The last
`strncpy` copies the shadow path without a terminator over the earlier contents. -/
def create_output_file (file_exists : List Char → Bool) (malloc_ok malloc_shadow_ok : Bool)
    (pc_input_file_path : Option (List Char)) (pc_output_file_extention : Option (List Char)) :
    Option (Status × PathPtr) :=
  match pc_input_file_path, pc_output_file_extention with
  | some path, some ext =>
    if malloc_ok = false then some (ERROR_MEMORY_ALLOCATION_FAILED, PathPtr.null)
    else if malloc_shadow_ok = false then some (ERROR_MEMORY_ALLOCATION_FAILED, PathPtr.uninit)
    else
      match get_file_basename (some path) (some []) with
      | (SUCCESS_STATUS, some base) =>
        match add_file_extension (some base) (some ext) with
        | (SUCCESS_STATUS, some full) =>
          match suffix_loop file_exists (path.length + ext.length + 4)
              (base.length % 65536) ext 257 full 1 with
          | none => none
          | some shadow =>
            some (SUCCESS_STATUS, PathPtr.str (shadow ++ full.drop shadow.length))
        | (st, _) => some (st, PathPtr.str base)
      | (st, _) => some (st, PathPtr.str [])
  | _, _ => some (ERROR_NULL_POINTER, PathPtr.null)

/-! ## File operations (compress.c 110-227, decompress.c 138-239) and `main` -/

/-- Outcome of `read_file` (utils.c 120-212), taken as a whole: the bytes read, or one
of its two failures. -/
inductive ReadOutcome where
  | data (bytes : List Nat)
  | read_failed
  | alloc_failed
  deriving DecidableEq

/-- The outcomes of the steps that a file operation leaves to the C library and the
file system.  Each field is the outcome the step has if it is reached. -/
structure Env where
  /-- Modelled from the spec: the chunk size constant of `header_files/constants.h`,
      a file that is not among the sources (the fixed increment by which a buffer grows). -/
  DATA_CHUNK_SIZE_BYTES : Nat
  /-- Result of `check_file_exists` before the operation creates anything -/
  file_exists : List Char → Bool
  /-- Whether `fopen` of the input file for reading succeeds -/
  fopen_in_ok : Bool
  /-- outcome of `read_file` -/
  read : ReadOutcome
  /-- Whether `fclose` of the input file succeeds -/
  fclose_in_ok : Bool
  /-- Whether `malloc` of the output buffer of the transform succeeds -/
  malloc_ok : Bool
  /-- outcomes of the `realloc` calls inside the transform -/
  realloc_ok : Nat → Bool
  /-- the byte after the raw data read by the encoder -/
  past_byte : Nat
  /-- the bytes after the encoded data read by the decoder -/
  past_bytes : List Nat
  /-- the two `malloc` calls of `create_output_file` succeed -/
  malloc_path_ok : Bool
  malloc_shadow_ok : Bool
  /-- Whether `fopen` of the output file for writing succeeds -/
  fopen_out_ok : Bool
  /-- Whether `fwrite` writes every byte -/
  fwrite_ok : Bool
  /-- Whether `fclose` of the output file succeeds -/
  fclose_out_ok : Bool
  /-- Whether `fclose` succeeds when the clean-up closes the input, the output file -/
  cleanup_fclose_in_ok : Bool
  cleanup_fclose_out_ok : Bool
  /-- Whether `remove` succeeds -/
  remove_ok : Bool

/-- What a file operation does to the outside. -/
inductive Event where
  | fopen (path : List Char) (mode : Char)
  | read
  | fclose_in
  | fclose_out
  | fwrite (size : Nat)
  | remove (path : List Char)
  | probe (path : List Char)
  | create_output_file
  | usage
  | call_compress (file : Option (List Char))
  | call_decompress (file : Option (List Char))
  deriving DecidableEq

/-- The variables of a file operation when its do-while block is left. -/
structure Progress where
  /-- Value of `s32_ret_val` -/
  status : Status
  /-- Whether `pf_in_file` is not `NULL` -/
  pf_in_file : Bool
  /-- Whether `pf_out_file` is not `NULL` -/
  pf_out_file : Bool
  /-- Value of `pc_out_file_path` -/
  pc_out_file_path : PathPtr
  /-- Whether the output file was created by `fopen` -/
  created : Bool
  /-- what was done, in order -/
  events : List Event

/-- The function `write_file` (utils.c 223-254) on present handles. -/
def write_file (fwrite_ok : Bool) (u64_write_size : Nat) : Status :=
  if u64_write_size = 0 then ERROR_INVALID_LENGTH
  else if fwrite_ok then SUCCESS_STATUS
  else ERROR_FILE_WRITE_FAILED

/-- The function `delete_file` (utils.c 295-318) on a present name: after a successful
`remove` the status is compared with `SUCCESS_STATUS`, not assigned, and stays
`FAILURE_STATUS`. -/
def delete_file (remove_ok : Bool) : Status :=
  if remove_ok then FAILURE_STATUS else ERROR_DELETE_FILE

/-- The function `close_file` (utils.c 87-109) on an open file. -/
def close_file (fclose_ok : Bool) : Status :=
  if fclose_ok then SUCCESS_STATUS else ERROR_FILE_NOT_CLOSED

/-- The clean-up block shared by both file operations (compress.c 197-218,
decompress.c 211-230): every step that runs overwrites `s32_ret_val`.  It is `none`
when `check_file_exists` is handed a block that was never written. -/
def cleanup (env : Env) (p : Progress) : Option (Status × List Event) :=
  if p.status = SUCCESS_STATUS then some (p.status, p.events)
  else
    match p.pc_out_file_path with
    | PathPtr.uninit => none
    | PathPtr.null =>
      some
        (if p.pf_out_file then close_file env.cleanup_fclose_out_ok
         else if p.pf_in_file then close_file env.cleanup_fclose_in_ok
         else p.status,
         p.events ++ (if p.pf_in_file then [Event.fclose_in] else []) ++
           (if p.pf_out_file then [Event.fclose_out] else []))
    | PathPtr.str path =>
      if env.file_exists path || p.created then
        some (delete_file env.remove_ok,
          p.events ++ (if p.pf_in_file then [Event.fclose_in] else []) ++
            (if p.pf_out_file then [Event.fclose_out] else []) ++
            [Event.probe path, Event.remove path])
      else
        some
          (if p.pf_out_file then close_file env.cleanup_fclose_out_ok
           else if p.pf_in_file then close_file env.cleanup_fclose_in_ok
           else p.status,
           p.events ++ (if p.pf_in_file then [Event.fclose_in] else []) ++
             (if p.pf_out_file then [Event.fclose_out] else []) ++ [Event.probe path])

/-- The steps of both file operations from `create_output_file` on (compress.c
181-191, decompress.c 195-205), with the input file already closed. -/
def write_output (env : Env) (input_file_name out_ext : List Char) (size : Nat)
    (events : List Event) : Option Progress :=
  match create_output_file env.file_exists env.malloc_path_ok env.malloc_shadow_ok
      (some input_file_name) (some out_ext) with
  | none => none
  | some (SUCCESS_STATUS, PathPtr.str out) =>
    if env.fopen_out_ok = false then
      some ⟨ERROR_FILE_NOT_OPENED, false, false, PathPtr.str out, false,
        events ++ [Event.create_output_file, Event.fopen out 'w']⟩
    else if write_file env.fwrite_ok size ≠ SUCCESS_STATUS then
      some ⟨write_file env.fwrite_ok size, false, true, PathPtr.str out, true,
        events ++ [Event.create_output_file, Event.fopen out 'w', Event.fwrite size]⟩
    else if env.fclose_out_ok = false then
      some ⟨ERROR_FILE_NOT_CLOSED, false, true, PathPtr.str out, true,
        events ++ [Event.create_output_file, Event.fopen out 'w', Event.fwrite size,
          Event.fclose_out]⟩
    else
      some ⟨SUCCESS_STATUS, false, false, PathPtr.str out, true,
        events ++ [Event.create_output_file, Event.fopen out 'w', Event.fwrite size,
          Event.fclose_out]⟩
  | some (st, p) => some ⟨st, false, false, p, false, events ++ [Event.create_output_file]⟩

/-- The steps of both file operations up to the closing of the input file (compress.c
137-154, decompress.c 163-180) for the expected extension `in_ext`: either the
variables with which the block is left, or the data read.  The extension is copied
into an array of 5 characters; `none` when it does not fit. -/
def read_input (env : Env) (input_file_name in_ext : List Char) :
    Option (Progress ⊕ (List Nat × List Event)) :=
  match get_file_extension (some input_file_name) (some []) with
  | (SUCCESS_STATUS, some ext) =>
    if 4 < ext.length then none
    else if ext ≠ in_ext then
      some (Sum.inl ⟨ERROR_FILE_EXTENSION, false, false, PathPtr.null, false, []⟩)
    else if env.fopen_in_ok = false then
      some (Sum.inl ⟨ERROR_FILE_NOT_OPENED, false, false, PathPtr.null, false,
        [Event.fopen input_file_name 'r']⟩)
    else
      match env.read with
      | ReadOutcome.read_failed =>
        some (Sum.inl ⟨ERROR_FILE_READ_FAILED, true, false, PathPtr.null, false,
          [Event.fopen input_file_name 'r', Event.read]⟩)
      | ReadOutcome.alloc_failed =>
        some (Sum.inl ⟨ERROR_MEMORY_ALLOCATION_FAILED, true, false, PathPtr.null, false,
          [Event.fopen input_file_name 'r', Event.read]⟩)
      | ReadOutcome.data bytes =>
        if env.fclose_in_ok = false then
          some (Sum.inl ⟨ERROR_FILE_NOT_CLOSED, true, false, PathPtr.null, false,
            [Event.fopen input_file_name 'r', Event.read, Event.fclose_in]⟩)
        else
          some (Sum.inr (bytes, [Event.fopen input_file_name 'r', Event.read, Event.fclose_in]))
  | (st, _) => some (Sum.inl ⟨st, false, false, PathPtr.null, false, []⟩)

/-- The do-while block of `compress` (compress.c 135-195).  The transform works on
its own copy of the buffer pointer; which bytes `write_file` then finds behind the
pointer of the caller is not part of the model, only their number is. -/
def compress_steps (env : Env) (input_file_name : List Char) : Option Progress :=
  match read_input env input_file_name ['t', 'x', 't'] with
  | none => none
  | some (Sum.inl p) => some p
  | some (Sum.inr (raw, events)) =>
    if ¬ raw.length / 2 < 4294967295 then
      some ⟨ERROR_INVALID_LENGTH, false, false, PathPtr.null, false, events⟩
    else if env.malloc_ok = false then
      some ⟨ERROR_MEMORY_ALLOCATION_FAILED, false, false, PathPtr.null, false, events⟩
    else if (s32_rle_compress env.DATA_CHUNK_SIZE_BYTES env.realloc_ok env.past_byte
        (some raw) (Buffer.fresh (2 * raw.length)) (some 0)).status ≠ SUCCESS_STATUS then
      some ⟨(s32_rle_compress env.DATA_CHUNK_SIZE_BYTES env.realloc_ok env.past_byte
        (some raw) (Buffer.fresh (2 * raw.length)) (some 0)).status,
        false, false, PathPtr.null, false, events⟩
    else
      write_output env input_file_name ['r', 'l', 'e']
        ((s32_rle_compress env.DATA_CHUNK_SIZE_BYTES env.realloc_ok env.past_byte
          (some raw) (Buffer.fresh (2 * raw.length)) (some 0)).size.getD 0) events

/-- The function `compress` (compress.c 110-227): the returned status and what was
done; `none` when the call has no defined result. -/
def compress (env : Env) (input_file_name : Option (List Char)) :
    Option (Status × List Event) :=
  match input_file_name with
  | none => some (ERROR_NULL_POINTER, [])
  | some name =>
    match compress_steps env name with
    | none => none
    | some p => cleanup env p

/-- The do-while block of `decompress` (decompress.c 161-209). -/
def decompress_steps (env : Env) (input_file_name : List Char) : Option Progress :=
  match read_input env input_file_name ['r', 'l', 'e'] with
  | none => none
  | some (Sum.inl p) => some p
  | some (Sum.inr (raw, events)) =>
    if env.malloc_ok = false then
      some ⟨ERROR_MEMORY_ALLOCATION_FAILED, false, false, PathPtr.null, false, events⟩
    else
      match s32_rle_decompress env.DATA_CHUNK_SIZE_BYTES env.realloc_ok env.past_bytes
          (some raw) (Buffer.fresh (raw.length / 2)) (some (raw.length / 2)) with
      | none => none
      | some r =>
        if r.status ≠ SUCCESS_STATUS then
          some ⟨r.status, false, false, PathPtr.null, false, events⟩
        else
          write_output env input_file_name ['t', 'x', 't'] (r.size.getD 0) events

/-- The function `decompress` (decompress.c 138-239). -/
def decompress (env : Env) (input_file_name : Option (List Char)) :
    Option (Status × List Event) :=
  match input_file_name with
  | none => some (ERROR_NULL_POINTER, [])
  | some name =>
    match decompress_steps env name with
    | none => none
    | some p => cleanup env p

/-- The enumeration `tenu_operation` (utils.h 23-28). -/
inductive tenu_operation where
  | OP_NONE
  | OP_COMPRESS
  | OP_DECOMPRESS
  | OP_HELP
  deriving DecidableEq

open tenu_operation

/-- The structure `tstr_input_args` (utils.h 31-34). -/
structure tstr_input_args where
  enu_operation : tenu_operation
  pc_input_file : Option (List Char)
  deriving DecidableEq

/-- The function `parse_input_args` (utils.c 520-549); `argc` is the length of `argv`,
and the result is the structure behind `pstr_args` afterwards. -/
def parse_input_args (argv : List (List Char)) (pstr_args : Option tstr_input_args) :
    Option tstr_input_args :=
  match pstr_args with
  | none => none
  | some args =>
    if argv.length < 2 then some { args with enu_operation := OP_HELP }
    else if argv.getD 1 [] = ['-', 'h'] then some { args with enu_operation := OP_HELP }
    else if (argv.getD 1 [] = ['-', 'c'] ∨ argv.getD 1 [] = ['-', 'd']) ∧ argv.length = 3 then
      some { enu_operation := if (argv.getD 1 []).getD 1 '0' = 'c' then OP_COMPRESS
                              else OP_DECOMPRESS
             pc_input_file := argv.get? 2 }
    else some { args with enu_operation := OP_HELP }

/-- The function `main` (main.c 7-51): the exit code and what was done; `none` when
the file operation has no defined result. -/
def main (env : Env) (argv : List (List Char)) : Option (Nat × List Event) :=
  match parse_input_args argv (some ⟨OP_NONE, none⟩) with
  | none => some (1, [])
  | some str_args =>
    match str_args.enu_operation with
    | OP_HELP => some (0, [Event.usage])
    | OP_COMPRESS =>
      (compress env str_args.pc_input_file).map
        (fun r => (if r.1 ≠ SUCCESS_STATUS then 1 else 0,
          Event.call_compress str_args.pc_input_file :: r.2))
    | OP_DECOMPRESS =>
      (decompress env str_args.pc_input_file).map
        (fun r => (if r.1 ≠ SUCCESS_STATUS then 1 else 0,
          Event.call_decompress str_args.pc_input_file :: r.2))
    | OP_NONE => some (1, [])


/-! ## Reference definitions for file names and a failing environment -/

/-- The path ends in a dot followed by `ext`, and `ext` holds neither a dot nor a
slash: `ext` is the text after the last dot of the last path component. -/
def has_extension (name ext : List Char) : Prop :=
  ∃ pre, name = pre ++ '.' :: ext ∧ '.' ∉ ext ∧ '/' ∉ ext

/-- The last path component holds no dot. -/
def lacks_extension (name : List Char) : Prop :=
  '.' ∉ name ∨ ∃ pre tl, name = pre ++ '/' :: tl ∧ '.' ∉ tl

/-- The `k`-th candidate of the collision policy: `base.e` for `k = 0`, and `base_k.e`
with `k` in decimal otherwise. -/
def candidate_path (base e : List Char) (k : Nat) : List Char :=
  if k = 0 then base ++ '.' :: e else base ++ '_' :: (Nat.toDigits 10 k ++ '.' :: e)

/-- An environment in which every step succeeds except `read_file`, which cannot
allocate its buffer. -/
def read_alloc_failure_env : Env :=
  { DATA_CHUNK_SIZE_BYTES := 4096, file_exists := fun _ => false, fopen_in_ok := true,
    read := ReadOutcome.alloc_failed, fclose_in_ok := true, malloc_ok := true,
    realloc_ok := fun _ => true, past_byte := 0, past_bytes := [], malloc_path_ok := true,
    malloc_shadow_ok := true, fopen_out_ok := true, fwrite_ok := true, fclose_out_ok := true,
    cleanup_fclose_in_ok := true, cleanup_fclose_out_ok := true, remove_ok := true }

/-! ## Definitions for the capacity invariants and the size bounds -/

/-- What one pass of the decoder appends to its output and the stream it hands on,
without the buffer; `none` when 20 or more digits are collected. -/
def decode_pass (past : List Nat) (c : Nat) (rest : List Nat) : Option (List Nat × List Nat) :=
  if 20 ≤ (scan_digits (read_symbol c rest).2 past).length then none
  else
    some ((read_symbol c rest).1 ::
        List.replicate (to_u64 (atoi (scan_digits (read_symbol c rest).2 past)) - 1)
          (read_symbol c rest).1,
      (read_symbol c rest).2.drop (scan_digits (read_symbol c rest).2 past).length)

/-- The bytes the decoder loop writes, without the buffer; it follows
`decompress_loop` pass by pass, with the same bound on the number of passes, and is
`none` where a pass collects 20 or more digits. -/
def decode_ref (past : List Nat) : Nat → List Nat → Option (List Nat)
  | _, [] => some []
  | 0, _ :: _ => none
  | fuel + 1, c :: rest =>
    match decode_pass past c rest with
    | none => none
    | some r => (decode_ref past fuel r.2).map (fun out => r.1 ++ out)

/-- The output buffer is in order: the pointer designates the block with every byte
stored so far, no store fell at or beyond the tracked capacity, and the write index
does not exceed the tracked capacity. -/
def OutBuf.within (b : OutBuf) : Prop :=
  b.ptr = Ptr.block ∧ b.oob = false ∧ b.bytes.length ≤ b.cap

/-- The byte is one the encoder escapes: a newline or a decimal digit. -/
def is_special (c : Nat) : Prop := c = 10 ∨ (48 ≤ c ∧ c ≤ 57)

instance (c : Nat) : Decidable (is_special c) := by
  unfold is_special; infer_instance

/-- The indices of `ac_char_cnt_string` at which the digits collected in one pass are
stored (decompress.c 87): the index is a `u8` that starts at 0 and is advanced after
every store. -/
def staging_store_indices (digits : List Nat) : List Nat :=
  (List.range digits.length).map (fun k => k % 256)

/-! ## Definitions for the tokens of a stream as the decoder delimits them -/

/-- The token at the head of the stream `c :: rest` as the decoder delimits it: the
symbol as `read_symbol` takes it (decompress.c 57-80) and the digits collected by the
loop of decompress.c 85-88. -/
def head_token (past : List Nat) (c : Nat) (rest : List Nat) : Token :=
  if c = 92 then
    match rest with
    | d :: rest1 => { escaped := true, byte := d, digits := scan_digits rest1 past }
    | [] => { escaped := false, byte := c, digits := scan_digits [] past }
  else { escaped := false, byte := c, digits := scan_digits rest past }

/-- The tokens of a stream as the decoder delimits them, pass by pass, each new token
starting at the byte after the digits of the one before; the first argument bounds
the number of passes as in `decompress_loop`, and the result is `none` where a pass
collects 20 or more digits. -/
def stream_tokens (past : List Nat) : Nat → List Nat → Option (List Token)
  | _, [] => some []
  | 0, _ :: _ => none
  | fuel + 1, c :: rest =>
    if 20 ≤ (head_token past c rest).digits.length then none
    else
      (stream_tokens past fuel
        ((read_symbol c rest).2.drop (head_token past c rest).digits.length)).map
        (fun ts => head_token past c rest :: ts)

/-- The run count the decoder uses for a token, `u64_char_cnt = atoi(ac_char_cnt_string)`
(decompress.c 91), the staging string holding the digits of the token. -/
def Token.u64_char_cnt (t : Token) : Nat := to_u64 (atoi t.digits)

/-- The copies a token stands for when a run count of 0 is read as 1: the larger of
the run count and 1 many copies of the resolved symbol. -/
def Token.copies (t : Token) : List Nat := List.replicate (max t.u64_char_cnt 1) t.resolved

/-! ## Lemmas -/

/-- A successful growth leaves a non-null pointer as it is. -/
theorem grow_ptr_of_ok (chunk : Nat) (ok : Nat → Bool) (hok : ∀ k, ok k = true) (b : OutBuf)
    (hb : b.ptr ≠ Ptr.null) : (b.grow chunk ok).ptr = b.ptr := by
  simp [OutBuf.grow, hok, hb]

/-- While every reallocation succeeds, the scanning loop of the encoder appends the
emissions of `run_tokens` to the buffer and keeps the pointer. -/
theorem compress_loop_ok (chunk : Nat) (ok : Nat → Bool) (hok : ∀ k, ok k = true) (past : Nat) :
    ∀ (xs : List Nat) (cnt : Nat) (b : OutBuf), b.ptr ≠ Ptr.null →
      (compress_loop chunk ok past xs cnt b).bytes
          = b.bytes ++ (run_tokens past xs cnt).flatMap emitted ∧
      (compress_loop chunk ok past xs cnt b).ptr = b.ptr := by
  intro xs
  induction xs with
  | nil => intro cnt b _; simp [compress_loop, run_tokens]
  | cons c rest ih =>
    intro cnt b hb
    have hg := grow_ptr_of_ok chunk ok hok b hb
    by_cases h1 : rest.headD past = c
    · simp only [compress_loop, run_tokens, h1, if_true]
      exact ih _ b hb
    · by_cases h2 : b.cap ≤ b.bytes.length + 2 + 20
      · have hn : (b.grow chunk ok).ptr ≠ Ptr.null := by rw [hg]; exact hb
        simp only [compress_loop, run_tokens, h1, h2, hn, if_true, if_false]
        have := ih 1 ((b.grow chunk ok).emit c cnt) (by simpa [OutBuf.emit] using hn)
        rw [this.1, this.2]
        simp [OutBuf.emit, OutBuf.grow, emitted, hok, hb]
      · simp only [compress_loop, run_tokens, h1, h2, if_false]
        have := ih 1 (b.emit c cnt) (by simpa [OutBuf.emit] using hb)
        rw [this.1, this.2]
        simp [OutBuf.emit, emitted]

/-- The run list of a non-empty sequence starts with a non-empty run of its first byte. -/
theorem maximal_runs_cons_ne_nil (c : Nat) (rest : List Nat) :
    ∃ k tl, maximal_runs (c :: rest) = (c, k + 1) :: tl := by
  simp only [maximal_runs]
  cases h : maximal_runs rest with
  | nil => exact ⟨0, [], rfl⟩
  | cons t tl =>
    obtain ⟨d, k⟩ := t
    by_cases hd : d = c
    · exact ⟨k, tl, by simp [hd]⟩
    · exact ⟨0, (d, k) :: tl, by simp [hd]⟩

/-- One step of `run_tokens`. -/
theorem run_tokens_cons (past c cnt : Nat) (rest : List Nat) :
    run_tokens past (c :: rest) cnt =
      if rest.headD past = c then run_tokens past rest ((cnt + 1) % 2 ^ 64)
      else (c, cnt) :: run_tokens past rest 1 := rfl

/-- One step of `maximal_runs`. -/
theorem maximal_runs_cons (c : Nat) (rest : List Nat) :
    maximal_runs (c :: rest) =
      match maximal_runs rest with
      | [] => [(c, 1)]
      | (d, k) :: tl => if d = c then (c, k + 1) :: tl else (c, 1) :: (d, k) :: tl := rfl

/-- When the byte after the input differs from its last byte and the counter cannot
wrap, the runs the loop emits are the maximal runs, the first one lengthened by the
bytes already counted. -/
theorem run_tokens_eq (past : Nat) :
    ∀ (xs : List Nat) (cnt : Nat) (hne : xs ≠ []), past ≠ xs.getLast hne →
      cnt + xs.length < 2 ^ 64 →
      run_tokens past xs (cnt + 1) = add_first cnt (maximal_runs xs) := by
  intro xs
  induction xs with
  | nil => intro cnt hne; exact absurd rfl hne
  | cons c rest ih =>
    intro cnt hne hlast hlen
    cases rest with
    | nil =>
      have : ¬ past = c := by simpa using hlast
      simp [run_tokens, maximal_runs, add_first, this]
      omega
    | cons d rest2 =>
      have hlast2 : past ≠ (d :: rest2).getLast (by simp) := by
        simpa [List.getLast_cons] using hlast
      obtain ⟨k, tl, hk⟩ := maximal_runs_cons_ne_nil d rest2
      simp only [List.length_cons] at hlen
      by_cases hdc : d = c
      · subst hdc
        have hmod : (cnt + 1 + 1) % 2 ^ 64 = cnt + 1 + 1 := Nat.mod_eq_of_lt (by omega)
        have := ih (cnt + 1) (by simp) hlast2 (by simp only [List.length_cons]; omega)
        rw [run_tokens_cons, List.headD_cons, if_pos rfl, hmod, this, hk,
          maximal_runs_cons d (d :: rest2), hk]
        simp [add_first]
        omega
      · have := ih 0 (by simp) hlast2 (by simp only [List.length_cons]; omega)
        rw [run_tokens_cons, List.headD_cons, if_neg hdc, this, hk,
          maximal_runs_cons c (d :: rest2), hk]
        simp [add_first, hdc]
        omega

/-- Adding nothing to the first run changes nothing. -/
theorem add_first_zero (rs : List (Nat × Nat)) : add_first 0 rs = rs := by
  cases rs with
  | nil => rfl
  | cons t tl => rfl

/-- The maximal runs expand to the sequence they were taken from. -/
theorem expand_maximal_runs (xs : List Nat) : expand_runs (maximal_runs xs) = xs := by
  induction xs with
  | nil => rfl
  | cons c rest ih =>
    rw [maximal_runs_cons]
    cases h : maximal_runs rest with
    | nil =>
      rw [h] at ih
      simp [expand_runs] at ih ⊢
      exact ih
    | cons t tl =>
      obtain ⟨d, k⟩ := t
      rw [h] at ih
      by_cases hd : d = c
      · subst hd
        simp only [if_true]
        simp only [expand_runs, List.flatMap_cons] at ih ⊢
        rw [List.replicate_succ, List.cons_append, ih]
      · simp only [hd, if_false]
        simp only [expand_runs, List.flatMap_cons] at ih ⊢
        rw [ih]; rfl

/-- No maximal run is empty. -/
theorem maximal_runs_pos (xs : List Nat) : ∀ t ∈ maximal_runs xs, 1 ≤ t.2 := by
  induction xs with
  | nil => intro t ht; simp [maximal_runs] at ht
  | cons c rest ih =>
    rw [maximal_runs_cons]
    cases h : maximal_runs rest with
    | nil => intro t ht; simp at ht; subst ht; simp
    | cons t0 tl =>
      obtain ⟨d, k⟩ := t0
      rw [h] at ih
      intro t ht
      by_cases hd : d = c
      · simp only [hd, if_true, List.mem_cons] at ht
        rcases ht with rfl | ht
        · simp
        · exact ih t (List.mem_cons_of_mem _ ht)
      · simp only [hd, if_false, List.mem_cons] at ht
        rcases ht with rfl | ht
        · simp
        · exact ih t (List.mem_cons.mpr ht)

/-- Neighbouring maximal runs have different bytes. -/
theorem maximal_runs_chain (xs : List Nat) :
    List.Chain' (fun a b : Nat × Nat => a.1 ≠ b.1) (maximal_runs xs) := by
  induction xs with
  | nil => simp [maximal_runs]
  | cons c rest ih =>
    rw [maximal_runs_cons]
    cases h : maximal_runs rest with
    | nil => simp
    | cons t0 tl =>
      obtain ⟨d, k⟩ := t0
      rw [h] at ih
      by_cases hd : d = c
      · subst hd
        simp only [if_true]
        cases tl with
        | nil => simp
        | cons t1 tl1 =>
          rw [List.chain'_cons] at ih ⊢
          exact ih
      · simp only [hd, if_false]
        rw [List.chain'_cons]
        exact ⟨fun e => hd e.symm, ih⟩

/-- The expansion of a run list is as long as the sum of the run lengths. -/
theorem length_expand_runs (rs : List (Nat × Nat)) :
    (expand_runs rs).length = (rs.map Prod.snd).sum := by
  induction rs with
  | nil => rfl
  | cons t tl ih =>
    simp only [expand_runs, List.flatMap_cons, List.length_append, List.length_replicate,
      List.map_cons, List.sum_cons] at ih ⊢
    rw [ih]

/-- No run is longer than the sequence. -/
theorem maximal_runs_le (xs : List Nat) : ∀ t ∈ maximal_runs xs, t.2 ≤ xs.length := by
  intro t ht
  have h := length_expand_runs (maximal_runs xs)
  rw [expand_maximal_runs] at h
  rw [h]
  exact List.single_le_sum (by intro x _; exact Nat.zero_le x) _ (List.mem_map_of_mem _ ht)

/-- One step of `lu_digits`. -/
theorem lu_digits_succ (fuel n : Nat) :
    lu_digits (fuel + 1) n =
      if n < 10 then [48 + n] else lu_digits fuel (n / 10) ++ [48 + n % 10] := rfl

/-- With enough digits allowed, `lu_digits` is the decimal text of a positive number. -/
theorem lu_digits_eq_decimal_text :
    ∀ (fuel n : Nat), 0 < n → n < 10 ^ fuel → lu_digits fuel n = decimal_text n := by
  intro fuel
  induction fuel with
  | zero => intro n h0 h1; simp at h1; omega
  | succ f ih =>
    intro n h0 h1
    rw [lu_digits_succ]
    by_cases h : n < 10
    · rw [if_pos h]
      simp [decimal_text, Nat.digits_of_lt 10 n (by omega) h, Nat.add_comm]
    · rw [if_neg h, ih (n / 10) (by omega) (by rw [pow_succ] at h1; omega)]
      simp only [decimal_text]
      rw [Nat.digits_def' (by norm_num) h0]
      simp [Nat.add_comm]

/-- A number below `10 ^ (k + 1)` is printed with at most `k + 1` digits. -/
theorem length_lu_digits :
    ∀ (fuel k n : Nat), n < 10 ^ (k + 1) → (lu_digits fuel n).length ≤ k + 1 := by
  intro fuel
  induction fuel with
  | zero => intro k n _; simp [lu_digits]
  | succ f ih =>
    intro k n h1
    rw [lu_digits_succ]
    by_cases h : n < 10
    · simp [h]
    · rw [if_neg h]
      cases k with
      | zero => simp at h1; omega
      | succ k =>
        have := ih k (n / 10) (by rw [pow_succ] at h1; omega)
        simp only [List.length_append, List.length_singleton]
        omega

/-- At least one digit is printed. -/
theorem lu_digits_ne_nil (fuel n : Nat) : lu_digits (fuel + 1) n ≠ [] := by
  rw [lu_digits_succ]
  by_cases h : n < 10 <;> simp [h]

/-- Every byte printed is a decimal digit. -/
theorem lu_digits_all_digit :
    ∀ (fuel n : Nat), ∀ d ∈ lu_digits fuel n, is_digit d = true := by
  intro fuel
  induction fuel with
  | zero => intro n d hd; simp [lu_digits] at hd
  | succ f ih =>
    intro n d hd
    rw [lu_digits_succ] at hd
    by_cases h : n < 10
    · rw [if_pos h] at hd
      simp at hd
      subst hd
      simp [is_digit]; omega
    · rw [if_neg h] at hd
      simp only [List.mem_append, List.mem_singleton] at hd
      rcases hd with hd | hd
      · exact ih _ d hd
      · subst hd
        simp [is_digit]; omega

/-- The decimal value of a string followed by one more digit. -/
theorem decimal_value_append_singleton (l : List Nat) (d : Nat) :
    decimal_value (l ++ [d]) = decimal_value l * 10 + (d - 48) := by
  simp [decimal_value, List.foldl_append]

/-- Reading back what `lu_digits` prints gives the number. -/
theorem decimal_value_lu_digits :
    ∀ (fuel n : Nat), n < 10 ^ fuel → decimal_value (lu_digits fuel n) = n := by
  intro fuel
  induction fuel with
  | zero => intro n h1; simp at h1; subst h1; rfl
  | succ f ih =>
    intro n h1
    rw [lu_digits_succ]
    by_cases h : n < 10
    · rw [if_pos h]; simp [decimal_value]
    · rw [if_neg h, decimal_value_append_singleton, ih (n / 10) (by rw [pow_succ] at h1; omega)]
      omega

/-- Below `10 ^ 19` the count text is not truncated. -/
theorem snprintf_count_eq (n : Nat) (h : n < 10 ^ 19) : snprintf_count n = lu_digits 20 n := by
  unfold snprintf_count
  apply List.take_of_length_le
  exact length_lu_digits 20 18 n h

/-- Below `10 ^ 19` the count text of a positive counter is its decimal text. -/
theorem snprintf_count_eq_decimal_text (n : Nat) (h0 : 0 < n) (h : n < 10 ^ 19) :
    snprintf_count n = decimal_text n := by
  rw [snprintf_count_eq n h]
  exact lu_digits_eq_decimal_text 20 n h0 (lt_of_lt_of_le h (by norm_num))

/-- The value `atoi` accumulates is the number the digits denote. -/
theorem decimal_value_eq_ofDigits (s : List Nat) :
    decimal_value s = Nat.ofDigits 10 ((s.map (fun d => d - 48)).reverse) := by
  induction s using List.reverseRecOn with
  | nil => rfl
  | append_singleton l d ih =>
    rw [decimal_value_append_singleton, ih]
    simp [Nat.ofDigits_cons]
    omega

/-- Up to `2 ^ 31 - 1` the run count is the decimal value of the staged digits. -/
theorem to_u64_atoi (s : List Nat) (h : decimal_value s ≤ 2 ^ 31 - 1) :
    to_u64 (atoi s) = decimal_value s := by
  have h1 : min (decimal_value s) (2 ^ 63 - 1) = decimal_value s := by
    apply Nat.min_eq_left; omega
  have h2 : decimal_value s % 2 ^ 32 = decimal_value s := Nat.mod_eq_of_lt (by omega)
  have h3 : decimal_value s < 2 ^ 31 := by omega
  unfold atoi to_u64
  rw [h1, h2, if_pos h3]
  have : ((decimal_value s : Nat) : Int) % 2 ^ 64 = (decimal_value s : Int) := by
    apply Int.emod_eq_of_lt
    · exact Int.ofNat_nonneg _
    · have : decimal_value s < 2 ^ 64 := by omega
      exact_mod_cast this
  rw [this]
  simp

/-- A growth stores nothing. -/
theorem grow_bytes (chunk : Nat) (ok : Nat → Bool) (b : OutBuf) :
    (b.grow chunk ok).bytes = b.bytes := rfl

/-- A store through a non-null pointer appends one byte. -/
theorem store_ok (c : Nat) (b : OutBuf) (hb : b.ptr ≠ Ptr.null) :
    ∃ b1, b.store c = some b1 ∧ b1.bytes = b.bytes ++ [c] ∧ b1.ptr = b.ptr := by
  refine ⟨{ b with bytes := b.bytes ++ [c], oob := b.oob || decide (b.cap ≤ b.bytes.length) },
    by simp [OutBuf.store, hb], rfl, rfl⟩

/-- While every reallocation succeeds, `k` passes of the inner loop append `k` copies
of the symbol. -/
theorem repeat_loop_ok (chunk : Nat) (ok : Nat → Bool) (hok : ∀ k, ok k = true) (sym : Nat) :
    ∀ (k : Nat) (b : OutBuf), b.ptr ≠ Ptr.null →
      ∃ b1, repeat_loop chunk ok sym k b = some b1 ∧
        b1.bytes = b.bytes ++ List.replicate k sym ∧ b1.ptr = b.ptr := by
  intro k
  induction k with
  | zero => intro b _; exact ⟨b, rfl, by simp, rfl⟩
  | succ k ih =>
    intro b hb
    have hg := grow_ptr_of_ok chunk ok hok b hb
    have hn : (b.grow chunk ok).ptr ≠ Ptr.null := by rw [hg]; exact hb
    by_cases h : b.cap = b.bytes.length
    · obtain ⟨b1, e1, e2, e3⟩ := store_ok sym (b.grow chunk ok) hn
      obtain ⟨b2, f1, f2, f3⟩ := ih b1 (by rw [e3]; exact hn)
      refine ⟨b2, ?_, ?_, ?_⟩
      · simp only [repeat_loop, h, if_true, hn, if_false, e1]
        exact f1
      · rw [f2, e2, grow_bytes, List.replicate_succ]; simp
      · rw [f3, e3, hg]
    · obtain ⟨b1, e1, e2, e3⟩ := store_ok sym b hb
      obtain ⟨b2, f1, f2, f3⟩ := ih b1 (by rw [e3]; exact hb)
      refine ⟨b2, ?_, ?_, ?_⟩
      · simp only [repeat_loop, h, if_false, e1]
        exact f1
      · rw [f2, e2, List.replicate_succ]; simp
      · rw [f3, e3]

/-- The leading digits of a digit string followed by a list that starts with no digit
are that string. -/
theorem takeWhile_digits_append (ds l : List Nat) (hds : ∀ d ∈ ds, is_digit d = true)
    (hl : starts_non_digit l) : (ds ++ l).takeWhile is_digit = ds := by
  induction ds with
  | nil =>
    cases l with
    | nil => rfl
    | cons a l =>
      have := hl a rfl
      simp [List.takeWhile, this]
  | cons d ds ih =>
    have hd := hds d (List.mem_cons_self _ _)
    rw [List.cons_append, List.takeWhile_cons, hd, if_pos rfl,
      ih (fun x hx => hds x (List.mem_cons_of_mem _ hx))]

/-- The digit scan after a symbol collects exactly the suffix of the token when no
digit follows it. -/
theorem scan_digits_token (ds rest past : List Nat) (hds : ∀ d ∈ ds, is_digit d = true)
    (h : starts_non_digit (rest ++ past)) : scan_digits (ds ++ rest) past = ds := by
  unfold scan_digits
  rw [List.append_assoc]
  exact takeWhile_digits_append ds _ hds h

/-- The escape table of the specification is the one of the decoder. -/
theorem Token.resolved_eq (t : Token) :
    t.resolved = if t.escaped then resolve_escape t.byte else t.byte := by
  unfold Token.resolved resolve_escape is_digit
  by_cases h : t.escaped = true <;> simp [h]

/-- On a stream that starts with a well-formed token, the decoder reads the symbol of
that token. -/
theorem read_symbol_token (t : Token) (rest : List Nat) (hw : t.well_formed) :
    ∃ c tl, t.bytes ++ rest = c :: tl ∧ read_symbol c tl = (t.resolved, t.digits ++ rest) := by
  rw [Token.resolved_eq]
  by_cases h : t.escaped = true
  · refine ⟨92, t.byte :: (t.digits ++ rest), by simp [Token.bytes, h], by simp [read_symbol, h]⟩
  · have h' : t.escaped = false := by simpa using h
    refine ⟨t.byte, t.digits ++ rest, by simp [Token.bytes, h'], ?_⟩
    simp [read_symbol, hw.1 h', h']

/-- One pass of the decoder on a well-formed token followed by no digit appends the
expansion of the token and hands on the rest of the stream. -/
theorem decompress_body_token (chunk : Nat) (ok : Nat → Bool) (hok : ∀ k, ok k = true)
    (past : List Nat) (t : Token) (rest : List Nat) (hw : t.well_formed)
    (hnext : starts_non_digit (rest ++ past)) (c : Nat) (tl : List Nat)
    (hc : t.bytes ++ rest = c :: tl) (b : OutBuf) (hb : b.ptr ≠ Ptr.null) :
    ∃ b1, decompress_body chunk ok past c tl b = some (b1, rest) ∧
      b1.bytes = b.bytes ++ t.expand ∧ b1.ptr = b.ptr := by
  obtain ⟨c', tl', hc', hrs⟩ := read_symbol_token t rest hw
  rw [hc] at hc'
  obtain ⟨rfl, rfl⟩ := List.cons.inj hc'
  have hds : ∀ d ∈ t.digits, is_digit d = true := by
    intro d hd
    have := hw.2.2.1 d hd
    simp [is_digit, this.1, this.2]
  have hscan := scan_digits_token t.digits rest past hds hnext
  have hcount : decimal_value t.digits = t.count := decimal_value_eq_ofDigits _
  have hu : to_u64 (atoi t.digits) = t.count := by
    rw [to_u64_atoi _ (by rw [hcount]; exact hw.2.2.2.2), hcount]
  obtain ⟨b1, e1, e2, e3⟩ := store_ok t.resolved b hb
  obtain ⟨b2, f1, f2, f3⟩ := repeat_loop_ok chunk ok hok t.resolved (t.count - 1) b1
    (by rw [e3]; exact hb)
  refine ⟨b2, ?_, ?_, ?_⟩
  · have hlt : ¬ 20 ≤ t.digits.length := by have := hw.2.1.2; omega
    simp only [decompress_body, hrs, e1, hscan, hlt, if_false, hu, f1]
    simp
  · rw [f2, e2, List.append_assoc]
    congr 1
    have : t.count = (t.count - 1) + 1 := by have := hw.2.2.2.1; omega
    rw [Token.expand]
    conv_rhs => rw [this, List.replicate_succ]
    rfl
  · rw [f3, e3]

/-- The loop ends when the stream is exhausted. -/
theorem decompress_loop_nil (chunk : Nat) (ok : Nat → Bool) (past : List Nat) (fuel : Nat)
    (b : OutBuf) : decompress_loop chunk ok past fuel [] b = some b := by
  cases fuel <;> rfl

/-- One pass of `decompress_loop`. -/
theorem decompress_loop_cons (chunk : Nat) (ok : Nat → Bool) (past : List Nat) (fuel c : Nat)
    (rest : List Nat) (b : OutBuf) :
    decompress_loop chunk ok past (fuel + 1) (c :: rest) b =
      if b.cap = b.bytes.length then
        if (b.grow chunk ok).ptr = Ptr.null then some (b.grow chunk ok)
        else
          match decompress_body chunk ok past c rest (b.grow chunk ok) with
          | none => none
          | some r => decompress_loop chunk ok past fuel r.2 r.1
      else
        match decompress_body chunk ok past c rest b with
        | none => none
        | some r => decompress_loop chunk ok past fuel r.2 r.1 := rfl

/-- A token stream whose first symbol is not a literal digit starts with no digit. -/
theorem starts_non_digit_tokens (ts : List Token) (past : List Nat)
    (hlit : ∀ t ∈ ts, t.digit_literal = false) (hpast : starts_non_digit past) :
    starts_non_digit (ts.flatMap Token.bytes ++ past) := by
  cases ts with
  | nil => simpa using hpast
  | cons t ts =>
    have h := hlit t (List.mem_cons_self _ _)
    intro b hb
    by_cases he : t.escaped = true
    · simp [Token.bytes, he] at hb
      subst hb; rfl
    · have he' : t.escaped = false := by simpa using he
      simp [Token.bytes, he'] at hb
      subst hb
      simpa [Token.digit_literal, he'] using h

/-- While every reallocation succeeds, the decoder loop on a stream of well-formed
tokens appends their expansions, with one pass per token. -/
theorem decompress_loop_tokens (chunk : Nat) (ok : Nat → Bool) (hok : ∀ k, ok k = true)
    (past : List Nat) (hpast : starts_non_digit past) :
    ∀ (ts : List Token) (fuel : Nat) (b : OutBuf),
      (∀ t ∈ ts, t.well_formed) → (∀ t ∈ ts.tail, t.digit_literal = false) →
      b.ptr ≠ Ptr.null → ts.length ≤ fuel →
      ∃ b1, decompress_loop chunk ok past fuel (ts.flatMap Token.bytes) b = some b1 ∧
        b1.bytes = b.bytes ++ ts.flatMap Token.expand ∧ b1.ptr = b.ptr := by
  intro ts
  induction ts with
  | nil =>
    intro fuel b _ _ _ _
    exact ⟨b, decompress_loop_nil _ _ _ _ _, by simp, rfl⟩
  | cons t ts ih =>
    intro fuel b hwf hlit hb hfuel
    cases fuel with
    | zero => simp at hfuel
    | succ f =>
      have hw := hwf t (List.mem_cons_self _ _)
      have hnext : starts_non_digit (ts.flatMap Token.bytes ++ past) :=
        starts_non_digit_tokens ts past (by simpa using hlit) hpast
      obtain ⟨c, tl, hc, -⟩ := read_symbol_token t (ts.flatMap Token.bytes) hw
      have hg := grow_ptr_of_ok chunk ok hok b hb
      have hn : (b.grow chunk ok).ptr ≠ Ptr.null := by rw [hg]; exact hb
      have hwf' : ∀ t ∈ ts, t.well_formed := fun x hx => hwf x (List.mem_cons_of_mem _ hx)
      have hlit' : ∀ t ∈ ts.tail, t.digit_literal = false :=
        fun x hx => hlit x (by simpa using List.mem_of_mem_tail hx)
      have hf : ts.length ≤ f := by simpa using hfuel
      rw [List.flatMap_cons, hc, decompress_loop_cons]
      by_cases h : b.cap = b.bytes.length
      · obtain ⟨b1, e1, e2, e3⟩ := decompress_body_token chunk ok hok past t _ hw hnext c tl hc
          (b.grow chunk ok) hn
        obtain ⟨b2, f1, f2, f3⟩ := ih f b1 hwf' hlit' (by rw [e3]; exact hn) hf
        refine ⟨b2, ?_, ?_, ?_⟩
        · rw [if_pos h, if_neg hn, e1]; exact f1
        · rw [f2, e2, grow_bytes, List.flatMap_cons, List.append_assoc]
        · rw [f3, e3, hg]
      · obtain ⟨b1, e1, e2, e3⟩ := decompress_body_token chunk ok hok past t _ hw hnext c tl hc
          b hb
        obtain ⟨b2, f1, f2, f3⟩ := ih f b1 hwf' hlit' (by rw [e3]; exact hb) hf
        refine ⟨b2, ?_, ?_, ?_⟩
        · rw [if_neg h, e1]; exact f1
        · rw [f2, e2, List.flatMap_cons, List.append_assoc]
        · rw [f3, e3]

/-- A token has at least one byte. -/
theorem Token.bytes_length_pos (t : Token) : 1 ≤ t.bytes.length := by
  unfold Token.bytes
  by_cases h : t.escaped = true <;> simp [h]

/-- A token stream has at least as many bytes as tokens. -/
theorem length_le_flatMap_bytes (ts : List Token) :
    ts.length ≤ (ts.flatMap Token.bytes).length := by
  induction ts with
  | nil => simp
  | cons t ts ih =>
    have := Token.bytes_length_pos t
    simp only [List.flatMap_cons, List.length_append, List.length_cons]
    omega

/-- The expansion of a token list is as long as the sum of the counts. -/
theorem length_flatMap_expand (ts : List Token) :
    (ts.flatMap Token.expand).length = (ts.map Token.count).sum := by
  induction ts with
  | nil => rfl
  | cons t ts ih =>
    simp only [List.flatMap_cons, List.length_append, List.map_cons, List.sum_cons, ih,
      Token.expand, List.length_replicate]

/-- A non-empty token list gives a non-empty stream. -/
theorem flatMap_bytes_ne_nil (ts : List Token) (h : ts ≠ []) :
    (ts.flatMap Token.bytes).length ≠ 0 := by
  have := length_le_flatMap_bytes ts
  have : 0 < ts.length := List.length_pos.mpr h
  omega

/-- The decoder on a stream of well-formed tokens in which no token after the first
has a literal digit as its symbol. -/
theorem s32_rle_decompress_tokens (chunk : Nat) (ok : Nat → Bool) (past : List Nat)
    (ts : List Token) (buf : Buffer) (size0 : Nat)
    (hok : ∀ k, ok k = true) (hbuf : buf ≠ Buffer.null) (hne : ts ≠ [])
    (hwf : ∀ t ∈ ts, t.well_formed) (hlit : ∀ t ∈ ts.tail, t.digit_literal = false)
    (hpast : starts_non_digit past) :
    ∃ r, s32_rle_decompress chunk ok past (some (ts.flatMap Token.bytes)) buf (some size0)
          = some r ∧
      r.status = SUCCESS_STATUS ∧
      r.buffer = Buffer.data (ts.flatMap Token.expand) ∧
      r.size = some ((ts.map Token.count).sum) := by
  obtain ⟨b1, e1, e2, e3⟩ := decompress_loop_tokens chunk ok hok past hpast ts
    (ts.flatMap Token.bytes).length (OutBuf.init size0) hwf hlit (by simp [OutBuf.init])
    (length_le_flatMap_bytes ts)
  have hbytes : b1.bytes = ts.flatMap Token.expand := by simpa [OutBuf.init] using e2
  have hptr : b1.ptr = Ptr.block := by simpa [OutBuf.init] using e3
  refine ⟨b1.finish ok, ?_, ?_, ?_, ?_⟩
  · simp only [s32_rle_decompress, hbuf, if_false, flatMap_bytes_ne_nil ts hne, e1, Option.map]
  · simp [OutBuf.finish, hok]
  · simp [OutBuf.finish, hok, hptr, hbytes]
  · show some b1.bytes.length = _
    rw [hbytes, length_flatMap_expand]

/-- The symbol bytes of the encoder are the escaped symbol of the specification. -/
theorem escape_symbol_eq_spec (c : Nat) : escape_symbol c = spec_symbol c := by
  unfold escape_symbol spec_symbol is_digit
  by_cases h1 : c = 10
  · simp [h1]
  · by_cases h2 : 48 ≤ c ∧ c ≤ 57
    · simp [h2.1, h2.2]
    · simp only [h1, if_false, h2]
      have : (decide (48 ≤ c) && decide (c ≤ 57)) = false := by
        simpa using fun h => by omega
      simp [this]

/-- Two functions that agree on the members of a list give the same concatenation. -/
theorem flatMap_congr_mem {α β : Type} (l : List α) (f g : α → List β)
    (h : ∀ a ∈ l, f a = g a) : l.flatMap f = l.flatMap g := by
  induction l with
  | nil => rfl
  | cons a l ih =>
    rw [List.flatMap_cons, List.flatMap_cons, h a (List.mem_cons_self _ _),
      ih (fun x hx => h x (List.mem_cons_of_mem _ hx))]

/-- On inputs shorter than `10 ^ 19` the emissions for the maximal runs are the tokens
of the specification. -/
theorem emitted_eq_spec_token (x : List Nat) (hlen : x.length < 10 ^ 19) :
    (maximal_runs x).flatMap emitted = spec_encode x := by
  apply flatMap_congr_mem
  intro t ht
  have h1 := maximal_runs_pos x t ht
  have h2 := maximal_runs_le x t ht
  rw [emitted, spec_token, escape_symbol_eq_spec,
    snprintf_count_eq_decimal_text t.2 (by omega) (by omega)]

/-- The scanning loop of the encoder appends the reference encoding. -/
theorem compress_loop_spec (chunk : Nat) (ok : Nat → Bool) (hok : ∀ k, ok k = true)
    (past : Nat) (x : List Nat) (hne : x ≠ []) (hpast : past ≠ x.getLast hne)
    (hlen : x.length < 10 ^ 19) (b : OutBuf) (hb : b.ptr ≠ Ptr.null) :
    (compress_loop chunk ok past x 1 b).bytes = b.bytes ++ spec_encode x ∧
    (compress_loop chunk ok past x 1 b).ptr = b.ptr := by
  have h := compress_loop_ok chunk ok hok past x 1 b hb
  have ht := run_tokens_eq past x 0 hne hpast (by
    have : (10 : Nat) ^ 19 < 2 ^ 64 := by norm_num
    omega)
  rw [add_first_zero] at ht
  simp only [Nat.zero_add] at ht
  rw [ht, emitted_eq_spec_token x hlen] at h
  exact h

/-- The encoder against the reference encoding. -/
theorem s32_rle_compress_spec (chunk : Nat) (ok : Nat → Bool) (past : Nat) (x : List Nat)
    (buf : Buffer) (size0 : Nat) (hok : ∀ k, ok k = true) (hbuf : buf ≠ Buffer.null)
    (hne : x ≠ []) (hpast : past ≠ x.getLast hne) (hlen : x.length < 10 ^ 19) :
    (s32_rle_compress chunk ok past (some x) buf (some size0)).status = SUCCESS_STATUS ∧
    (s32_rle_compress chunk ok past (some x) buf (some size0)).buffer
      = Buffer.data (spec_encode x) ∧
    (s32_rle_compress chunk ok past (some x) buf (some size0)).size
      = some (spec_encode x).length := by
  have h := compress_loop_spec chunk ok hok past x hne hpast hlen (OutBuf.init size0)
    (by simp [OutBuf.init])
  have hl : x.length ≠ 0 := fun e => hne (List.length_eq_zero.mp e)
  have hbytes : (compress_loop chunk ok past x 1 (OutBuf.init size0)).bytes = spec_encode x := by
    simpa [OutBuf.init] using h.1
  have hptr : (compress_loop chunk ok past x 1 (OutBuf.init size0)).ptr = Ptr.block := by
    simpa [OutBuf.init] using h.2
  simp only [s32_rle_compress, hbuf, hl, if_false]
  refine ⟨?_, ?_, ?_⟩
  · simp [OutBuf.finish, hok]
  · simp [OutBuf.finish, hok, hptr, hbytes]
  · show some _ = _
    rw [hbytes]

/-- What follows the symbol is a suffix of what follows the current byte. -/
theorem read_symbol_suffix (c : Nat) (tl : List Nat) : (read_symbol c tl).2 <:+ tl := by
  unfold read_symbol
  by_cases h : c = 92
  · cases tl with
    | nil => simp [h]
    | cons d r => simp [h]
  · simp [h]

/-- A suffix of a list without 20 digits in a row has none either. -/
theorem no_long_digit_run_suffix (l m : List Nat) (h : no_long_digit_run l) (hs : m <:+ l) :
    no_long_digit_run m := by
  intro t ht
  exact h t ((List.mem_tails _ _).mpr (((List.mem_tails _ _).mp ht).trans hs))

/-- Suffixes are kept by appending the same list on the right. -/
theorem suffix_append_right (a b p : List Nat) (h : a <:+ b) : a ++ p <:+ b ++ p := by
  obtain ⟨pre, rfl⟩ := h
  exact ⟨pre, by simp⟩

/-- While every reallocation succeeds and 20 digits never follow one another, one
pass of the decoder has a defined result. -/
theorem decompress_body_total (chunk : Nat) (ok : Nat → Bool) (hok : ∀ k, ok k = true)
    (past : List Nat) (c : Nat) (tl : List Nat) (b : OutBuf)
    (hrun : no_long_digit_run (c :: tl ++ past)) (hb : b.ptr ≠ Ptr.null) :
    ∃ b1 rest2, decompress_body chunk ok past c tl b = some (b1, rest2) ∧
      b1.ptr = b.ptr ∧ rest2 <:+ tl := by
  obtain ⟨b1, e1, -, e3⟩ := store_ok (read_symbol c tl).1 b hb
  have hsuf : (read_symbol c tl).2 ++ past <:+ c :: tl ++ past :=
    suffix_append_right _ _ _ ((read_symbol_suffix c tl).trans (List.suffix_cons _ _))
  have hlt : ¬ 20 ≤ (scan_digits (read_symbol c tl).2 past).length := by
    have := hrun _ ((List.mem_tails _ _).mpr hsuf)
    unfold scan_digits
    omega
  obtain ⟨b2, f1, -, f3⟩ := repeat_loop_ok chunk ok hok (read_symbol c tl).1
    (to_u64 (atoi (scan_digits (read_symbol c tl).2 past)) - 1) b1 (by rw [e3]; exact hb)
  refine ⟨b2, _, ?_, by rw [f3, e3],
    (List.drop_suffix (scan_digits (read_symbol c tl).2 past).length _).trans
      (read_symbol_suffix c tl)⟩
  simp only [decompress_body, e1, hlt, if_false, f1]

/-- While every reallocation succeeds and 20 digits never follow one another, the
decoder loop runs to the end of the stream. -/
theorem decompress_loop_total (chunk : Nat) (ok : Nat → Bool) (hok : ∀ k, ok k = true)
    (past : List Nat) :
    ∀ (fuel : Nat) (rest : List Nat) (b : OutBuf), rest.length ≤ fuel →
      no_long_digit_run (rest ++ past) → b.ptr ≠ Ptr.null →
      ∃ b1, decompress_loop chunk ok past fuel rest b = some b1 ∧ b1.ptr = b.ptr := by
  intro fuel
  induction fuel with
  | zero =>
    intro rest b hlen _ _
    have : rest = [] := List.length_eq_zero.mp (by omega)
    subst this
    exact ⟨b, rfl, rfl⟩
  | succ f ih =>
    intro rest b hlen hrun hb
    cases rest with
    | nil => exact ⟨b, rfl, rfl⟩
    | cons c tl =>
      have hg := grow_ptr_of_ok chunk ok hok b hb
      have hn : (b.grow chunk ok).ptr ≠ Ptr.null := by rw [hg]; exact hb
      have hnext : ∀ rest2, rest2 <:+ tl → rest2.length ≤ f ∧ no_long_digit_run (rest2 ++ past) := by
        intro rest2 hs
        refine ⟨?_, no_long_digit_run_suffix _ _ hrun
          (suffix_append_right _ _ _ (hs.trans (List.suffix_cons _ _)))⟩
        have := hs.length_le
        simp only [List.length_cons] at hlen
        omega
      rw [decompress_loop_cons]
      by_cases h : b.cap = b.bytes.length
      · obtain ⟨b1, rest2, e1, e2, e3⟩ := decompress_body_total chunk ok hok past c tl
          (b.grow chunk ok) hrun hn
        obtain ⟨b2, f1, f2⟩ := ih rest2 b1 (hnext rest2 e3).1 (hnext rest2 e3).2
          (by rw [e2]; exact hn)
        exact ⟨b2, by rw [if_pos h, if_neg hn, e1]; exact f1, by rw [f2, e2, hg]⟩
      · obtain ⟨b1, rest2, e1, e2, e3⟩ := decompress_body_total chunk ok hok past c tl
          b hrun hb
        obtain ⟨b2, f1, f2⟩ := ih rest2 b1 (hnext rest2 e3).1 (hnext rest2 e3).2
          (by rw [e2]; exact hb)
        exact ⟨b2, by rw [if_neg h, e1]; exact f1, by rw [f2, e2]⟩

/-- The decoder returns `SUCCESS_STATUS` on every non-empty stream without 20 digits
in a row, while every reallocation succeeds. -/
theorem s32_rle_decompress_total (chunk : Nat) (ok : Nat → Bool) (past : List Nat) (x : List Nat)
    (buf : Buffer) (size0 : Nat) (hok : ∀ k, ok k = true) (hbuf : buf ≠ Buffer.null)
    (hne : x ≠ []) (hrun : no_long_digit_run (x ++ past)) :
    ∃ r, s32_rle_decompress chunk ok past (some x) buf (some size0) = some r ∧
      r.status = SUCCESS_STATUS := by
  obtain ⟨b1, e1, -⟩ := decompress_loop_total chunk ok hok past x.length x (OutBuf.init size0)
    (le_refl _) hrun (by simp [OutBuf.init])
  have hl : x.length ≠ 0 := fun e => hne (List.length_eq_zero.mp e)
  refine ⟨b1.finish ok, ?_, by simp [OutBuf.finish, hok]⟩
  simp only [s32_rle_decompress, hbuf, if_false, hl, e1, Option.map]

/-- The stream handed on by one pass of the decoder is a suffix of the stream after
the current byte: every pass consumes at least one byte. -/
theorem decompress_body_suffix (chunk : Nat) (ok : Nat → Bool) (past : List Nat) (c : Nat)
    (tl : List Nat) (b : OutBuf) (r : OutBuf × List Nat)
    (h : decompress_body chunk ok past c tl b = some r) : r.2 <:+ tl := by
  unfold decompress_body at h
  split at h
  · exact absurd h (by simp)
  · split at h
    · exact absurd h (by simp)
    · split at h
      · exact absurd h (by simp)
      · simp only [Option.some.injEq] at h
        subst h
        exact (List.drop_suffix _ _).trans (read_symbol_suffix c tl)

/-- The number of passes allowed to `decompress_loop` by `s32_rle_decompress`, the
length of the stream, is never used up: one more pass allowed changes nothing. -/
theorem decompress_loop_fuel_stable (chunk : Nat) (ok : Nat → Bool) (past : List Nat) :
    ∀ (fuel : Nat) (rest : List Nat) (b : OutBuf), rest.length ≤ fuel →
      decompress_loop chunk ok past (fuel + 1) rest b = decompress_loop chunk ok past fuel rest b := by
  intro fuel
  induction fuel with
  | zero =>
    intro rest b h
    have : rest = [] := List.length_eq_zero.mp (by omega)
    subst this
    rfl
  | succ f ih =>
    intro rest b h
    cases rest with
    | nil => rfl
    | cons c tl =>
      have hlen : ∀ (b0 : OutBuf) (r : OutBuf × List Nat),
          decompress_body chunk ok past c tl b0 = some r → r.2.length ≤ f := by
        intro b0 r hb
        have hs := (decompress_body_suffix chunk ok past c tl b0 r hb).length_le
        simp only [List.length_cons] at h
        omega
      rw [decompress_loop_cons, decompress_loop_cons]
      by_cases h1 : b.cap = b.bytes.length
      · rw [if_pos h1, if_pos h1]
        by_cases h2 : (b.grow chunk ok).ptr = Ptr.null
        · rw [if_pos h2, if_pos h2]
        · rw [if_neg h2, if_neg h2]
          cases hb : decompress_body chunk ok past c tl (b.grow chunk ok) with
          | none => rfl
          | some r => exact ih r.2 r.1 (hlen _ r hb)
      · rw [if_neg h1, if_neg h1]
        cases hb : decompress_body chunk ok past c tl b with
        | none => rfl
        | some r => exact ih r.2 r.1 (hlen _ r hb)

/-- The bytes of the token of a run are the emission of the encoder for it. -/
theorem run_token_bytes (r : Nat × Nat) : (run_token r).bytes = emitted r := by
  unfold run_token Token.bytes emitted escape_symbol
  by_cases h1 : r.1 = 10
  · simp [h1]
  · by_cases h2 : is_digit r.1 = true
    · simp [h1, h2]
    · simp [h1, h2]

/-- The token of a run resolves to the byte of the run. -/
theorem run_token_resolved (r : Nat × Nat) : (run_token r).resolved = r.1 := by
  unfold run_token Token.resolved
  by_cases h1 : r.1 = 10
  · simp [h1]
  · by_cases h2 : is_digit r.1 = true
    · have h3 : 48 ≤ r.1 ∧ r.1 ≤ 57 := by simpa [is_digit] using h2
      have h4 : r.1 ≠ 110 := by omega
      have h5 : r.1 ≠ 116 := by omega
      simp [h1, h2, h3, h4, h5]
    · simp [h1, h2]

/-- The token of a run shorter than `10 ^ 19` counts the length of the run. -/
theorem run_token_count (r : Nat × Nat) (h : r.2 < 10 ^ 19) : (run_token r).count = r.2 := by
  unfold Token.count
  rw [← decimal_value_eq_ofDigits]
  show decimal_value (snprintf_count r.2) = r.2
  rw [snprintf_count_eq r.2 h]
  exact decimal_value_lu_digits 20 r.2 (lt_of_lt_of_le h (by norm_num))

/-- The symbol of the token of a run is never a literal digit. -/
theorem run_token_digit_literal (r : Nat × Nat) : (run_token r).digit_literal = false := by
  unfold run_token Token.digit_literal
  by_cases h1 : r.1 = 10
  · simp [h1]
  · by_cases h2 : is_digit r.1 = true
    · simp [h1, h2]
    · simp [h1, h2]

/-- The token of a run of a byte other than the backslash, of length at most
`2 ^ 31 - 1`, is well formed. -/
theorem run_token_well_formed (r : Nat × Nat) (hb : r.1 ≠ 92) (h1 : 1 ≤ r.2)
    (h2 : r.2 ≤ 2 ^ 31 - 1) : (run_token r).well_formed := by
  have hlt : r.2 < 10 ^ 19 := lt_of_le_of_lt h2 (by norm_num)
  refine ⟨?_, ⟨?_, ?_⟩, ?_, ?_⟩
  · intro he
    have : (run_token r).byte = r.1 := by
      unfold run_token at he ⊢
      by_cases h : r.1 = 10
      · simp [h] at he
      · simp [h]
    rw [this]; exact hb
  · show 1 ≤ (snprintf_count r.2).length
    rw [snprintf_count_eq r.2 hlt]
    exact Nat.one_le_iff_ne_zero.mpr (fun e => lu_digits_ne_nil 19 r.2 (List.length_eq_zero.mp e))
  · show (snprintf_count r.2).length ≤ 19
    rw [snprintf_count_eq r.2 hlt]
    exact length_lu_digits 20 18 r.2 hlt
  · intro d hd
    have hd' : d ∈ lu_digits 20 r.2 := by
      have : d ∈ snprintf_count r.2 := hd
      rw [snprintf_count_eq r.2 hlt] at this
      exact this
    simpa [is_digit] using lu_digits_all_digit 20 r.2 d hd'
  · rw [run_token_count r hlt]; exact ⟨h1, h2⟩

/-- The byte of every maximal run occurs in the sequence. -/
theorem maximal_runs_mem (x : List Nat) : ∀ t ∈ maximal_runs x, t.1 ∈ x := by
  intro t ht
  have h := expand_maximal_runs x
  have h1 := maximal_runs_pos x t ht
  have : t.1 ∈ expand_runs (maximal_runs x) := by
    unfold expand_runs
    rw [List.mem_flatMap]
    refine ⟨t, ht, ?_⟩
    rw [List.mem_replicate]
    exact ⟨by omega, rfl⟩
  rwa [h] at this

/-- A non-empty sequence has a run. -/
theorem maximal_runs_ne_nil (x : List Nat) (h : x ≠ []) : maximal_runs x ≠ [] := by
  cases x with
  | nil => exact absurd rfl h
  | cons c rest =>
    obtain ⟨k, tl, e⟩ := maximal_runs_cons_ne_nil c rest
    rw [e]; simp

/-- Round trip: for every non-empty input of at most `2 ^ 31 - 1` bytes that holds no
backslash, the decoder applied to the output of the encoder returns the input, while
every reallocation succeeds, the byte after the input differs from its last byte and
no digit follows the encoded stream. -/
theorem roundtrip_no_backslash (chunk1 chunk2 : Nat) (ok1 ok2 : Nat → Bool) (past1 : Nat)
    (past2 : List Nat) (x : List Nat) (buf1 buf2 : Buffer) (size1 size2 : Nat)
    (hok1 : ∀ k, ok1 k = true) (hok2 : ∀ k, ok2 k = true)
    (hbuf1 : buf1 ≠ Buffer.null) (hbuf2 : buf2 ≠ Buffer.null)
    (hne : x ≠ []) (hlen : x.length ≤ 2 ^ 31 - 1) (hbs : ∀ c ∈ x, c ≠ 92)
    (hpast1 : past1 ≠ x.getLast hne) (hpast2 : starts_non_digit past2) :
    ∃ enc r,
      (s32_rle_compress chunk1 ok1 past1 (some x) buf1 (some size1)).status = SUCCESS_STATUS ∧
      (s32_rle_compress chunk1 ok1 past1 (some x) buf1 (some size1)).buffer = Buffer.data enc ∧
      s32_rle_decompress chunk2 ok2 past2 (some enc) buf2 (some size2) = some r ∧
      r.status = SUCCESS_STATUS ∧ r.buffer = Buffer.data x ∧ r.size = some x.length := by
  have hlt : x.length < 10 ^ 19 := lt_of_le_of_lt hlen (by norm_num)
  obtain ⟨c1, c2, -⟩ := s32_rle_compress_spec chunk1 ok1 past1 x buf1 size1 hok1 hbuf1 hne hpast1 hlt
  have henc : spec_encode x = ((maximal_runs x).map run_token).flatMap Token.bytes := by
    rw [← emitted_eq_spec_token x hlt, List.flatMap_map]
    exact flatMap_congr_mem _ _ _ (fun t _ => (run_token_bytes t).symm)
  have hwf : ∀ t ∈ (maximal_runs x).map run_token, t.well_formed := by
    intro t ht
    obtain ⟨r, hr, rfl⟩ := List.mem_map.mp ht
    have := maximal_runs_le x r hr
    exact run_token_well_formed r (hbs _ (maximal_runs_mem x r hr)) (maximal_runs_pos x r hr)
      (by omega)
  have hlit : ∀ t ∈ ((maximal_runs x).map run_token).tail, t.digit_literal = false := by
    intro t ht
    obtain ⟨r, -, rfl⟩ := List.mem_map.mp (List.mem_of_mem_tail ht)
    exact run_token_digit_literal r
  obtain ⟨r, d1, d2, d3, d4⟩ := s32_rle_decompress_tokens chunk2 ok2 past2
    ((maximal_runs x).map run_token) buf2 size2 hok2 hbuf2
    (by simpa using maximal_runs_ne_nil x hne) hwf hlit hpast2
  have hexp : ((maximal_runs x).map run_token).flatMap Token.expand = x := by
    rw [List.flatMap_map]
    have : (maximal_runs x).flatMap (fun r => (run_token r).expand)
        = (maximal_runs x).flatMap (fun r => List.replicate r.2 r.1) := by
      apply flatMap_congr_mem
      intro t ht
      have := maximal_runs_le x t ht
      rw [Token.expand, run_token_resolved, run_token_count t (by omega)]
    rw [this]
    exact expand_maximal_runs x
  refine ⟨spec_encode x, r, c1, c2, ?_, d2, ?_, ?_⟩
  · rw [henc]; exact d1
  · rw [d3, hexp]
  · rw [d4, ← length_flatMap_expand, hexp]

/-- One step of `strrchr`. -/
theorem strrchr_cons (x c : Char) (xs : List Char) :
    strrchr (x :: xs) c =
      match strrchr xs c with
      | some i => some (i + 1)
      | none => if x = c then some 0 else none := rfl

/-- A character that does not occur is not found. -/
theorem strrchr_eq_none (s : List Char) (c : Char) (h : c ∉ s) : strrchr s c = none := by
  induction s with
  | nil => rfl
  | cons x xs ih =>
    rw [List.mem_cons, not_or] at h
    rw [strrchr_cons, ih h.2]
    simp [Ne.symm h.1]

/-- The index found lies inside the string. -/
theorem strrchr_lt (s : List Char) (c : Char) : ∀ i, strrchr s c = some i → i < s.length := by
  induction s with
  | nil => intro i h; simp [strrchr] at h
  | cons x xs ih =>
    intro i h
    rw [strrchr_cons] at h
    cases hx : strrchr xs c with
    | some j =>
      rw [hx] at h
      have := ih j hx
      simp at h
      simp only [List.length_cons]
      omega
    | none =>
      rw [hx] at h
      by_cases hc : x = c
      · simp [hc] at h; subst h; simp
      · simp [hc] at h

/-- The last occurrence in a concatenation. -/
theorem strrchr_append (a b : List Char) (c : Char) :
    strrchr (a ++ b) c =
      match strrchr b c with
      | some i => some (a.length + i)
      | none => strrchr a c := by
  induction a with
  | nil => cases h : strrchr b c <;> simp [h, strrchr]
  | cons x xs ih =>
    rw [List.cons_append, strrchr_cons, ih]
    cases h : strrchr b c with
    | some i => simp only [List.length_cons]; congr 1; omega
    | none => simp only; rw [strrchr_cons]

/-- The last occurrence of a character followed only by other characters. -/
theorem strrchr_last (pre ext : List Char) (c : Char) (h : c ∉ ext) :
    strrchr (pre ++ c :: ext) c = some pre.length := by
  rw [strrchr_append, strrchr_cons, strrchr_eq_none ext c h]
  simp

/-- Characters that do not occur from some point on are looked for before it. -/
theorem strrchr_before (pre ext : List Char) (c d : Char) (h : d ∉ ext) (hcd : c ≠ d) :
    strrchr (pre ++ c :: ext) d = strrchr pre d := by
  rw [strrchr_append, strrchr_cons, strrchr_eq_none ext d h]
  simp [hcd]

/-- A path that ends in a dot and an extension passes the test of `get_file_extension`. -/
theorem no_extension_found_of_has (pre ext : List Char) (h1 : '.' ∉ ext) (h2 : '/' ∉ ext) :
    no_extension_found (strrchr (pre ++ '.' :: ext) '.') (strrchr (pre ++ '.' :: ext) '/')
      = false := by
  rw [strrchr_last pre ext '.' h1, strrchr_before pre ext '.' '/' h2 (by decide)]
  cases h : strrchr pre '/' with
  | none => rfl
  | some j =>
    have := strrchr_lt pre '/' j h
    simp [no_extension_found]
    omega

/-- A path whose last component has no dot fails the test of `get_file_extension`. -/
theorem no_extension_found_of_lacks (name : List Char) (h : lacks_extension name) :
    no_extension_found (strrchr name '.') (strrchr name '/') = true := by
  rcases h with h | ⟨pre, tl, rfl, h⟩
  · rw [strrchr_eq_none name '.' h]; rfl
  · rw [strrchr_before pre tl '/' '.' h (by decide)]
    cases hd : strrchr pre '.' with
    | none => rfl
    | some i =>
      have hi := strrchr_lt pre '.' i hd
      rw [strrchr_append]
      cases hs : strrchr ('/' :: tl) '/' with
      | none =>
        rw [strrchr_cons] at hs
        cases h2 : strrchr tl '/' <;> simp [h2] at hs
      | some j =>
        simp [no_extension_found]
        omega

/-- The extension of a path that has one. -/
theorem get_file_extension_of_has (pre ext buf : List Char) (h1 : '.' ∉ ext) (h2 : '/' ∉ ext) :
    get_file_extension (some (pre ++ '.' :: ext)) (some buf) = (SUCCESS_STATUS, some ext) := by
  simp only [get_file_extension]
  rw [no_extension_found_of_has pre ext h1 h2, strrchr_last pre ext '.' h1]
  simp

/-- A path without extension is refused. -/
theorem get_file_extension_of_lacks (name buf : List Char) (h : lacks_extension name) :
    get_file_extension (some name) (some buf) = (ERROR_FILE_EXTENSION, some buf) := by
  simp only [get_file_extension, no_extension_found_of_lacks name h]
  simp

/-- A name without extension, or with an extension of at most 4 characters that is not
the expected one, leaves the operation before any file is touched. -/
theorem read_input_rejects (env : Env) (name in_ext : List Char)
    (h : lacks_extension name ∨
      ∃ ext, has_extension name ext ∧ ext.length ≤ 4 ∧ ext ≠ in_ext) :
    read_input env name in_ext
      = some (Sum.inl ⟨ERROR_FILE_EXTENSION, false, false, PathPtr.null, false, []⟩) := by
  rcases h with h | ⟨ext, ⟨pre, rfl, h1, h2⟩, hlen, hne⟩
  · simp only [read_input, get_file_extension_of_lacks name [] h]
  · have : ¬ 4 < ext.length := by omega
    simp only [read_input, get_file_extension_of_has pre ext [] h1 h2, this, if_false]
    simp [hne]

/-- Below 100 the text of `%d` is the decimal text, of at most two digits. -/
theorem format_d_small : ∀ k < 100, format_d k = Nat.toDigits 10 k ∧ (Nat.toDigits 10 k).length ≤ 2 := by
  decide

/-- Below 100, with an extension of three characters, the suffix is not truncated. -/
theorem suffix_text_small (k : Nat) (hk : k < 100) (e : List Char) (he : e.length = 3) :
    suffix_text k e = '_' :: (Nat.toDigits 10 k ++ '.' :: e) := by
  obtain ⟨h1, h2⟩ := format_d_small k hk
  unfold suffix_text
  rw [h1]
  apply List.take_of_length_le
  simp only [List.length_cons, List.length_append, he]
  omega

/-- The shadow path written over candidate `j` is candidate `j + 1`. -/
theorem candidate_path_succ (base e : List Char) (j : Nat) (hj : j + 1 < 100)
    (he : e.length = 3) :
    (candidate_path base e j).take base.length ++ suffix_text (j + 1) e
      = candidate_path base e (j + 1) := by
  rw [suffix_text_small (j + 1) hj e he]
  have : (candidate_path base e j).take base.length = base := by
    unfold candidate_path
    by_cases h : j = 0
    · simp [h]
    · simp [h]
  rw [this]
  simp [candidate_path]

/-- The loop over the candidates stops at the first one that does not exist. -/
theorem suffix_loop_finds (fs : List Char → Bool) (maxlen : Nat) (base e : List Char)
    (he : e.length = 3) (hmax : base.length + 8 ≤ maxlen) (k : Nat) (hk : k ≤ 99)
    (hfree : fs (candidate_path base e k) = false) :
    ∀ (n j fuel : Nat), k = j + n → n < fuel →
      (∀ i, j ≤ i → i < k → fs (candidate_path base e i) = true) →
      suffix_loop fs maxlen base.length e fuel (candidate_path base e j) (j + 1)
        = some (candidate_path base e k) := by
  intro n
  induction n with
  | zero =>
    intro j fuel hkj hfuel _
    obtain ⟨f, rfl⟩ : ∃ f, fuel = f + 1 := ⟨fuel - 1, by omega⟩
    have : j = k := by omega
    subst this
    simp [suffix_loop, hfree]
  | succ n ih =>
    intro j fuel hkj hfuel hex
    obtain ⟨f, rfl⟩ : ∃ f, fuel = f + 1 := ⟨fuel - 1, by omega⟩
    have hj : fs (candidate_path base e j) = true := hex j (le_refl _) (by omega)
    have hlen : (suffix_text (j + 1) e).length ≤ 7 := by
      unfold suffix_text
      exact List.length_take_le _ _
    have hov : ¬ maxlen < base.length + ((suffix_text (j + 1) e).length + 1) := by omega
    have hmod : (j + 1 + 1) % 256 = j + 1 + 1 := Nat.mod_eq_of_lt (by omega)
    rw [suffix_loop, if_pos hj, if_neg hov, hmod, candidate_path_succ base e j (by omega) he]
    exact ih (j + 1) f (by omega) (by omega) (fun i h1 h2 => hex i (by omega) h2)

/-- The basename of a path that has an extension shorter than 255 characters. -/
theorem get_file_basename_of_has (base ext buf : List Char) (h1 : '.' ∉ ext) (h2 : '/' ∉ ext)
    (h3 : ext.length < 255) :
    get_file_basename (some (base ++ '.' :: ext)) (some buf) = (SUCCESS_STATUS, some base) := by
  simp only [get_file_basename]
  rw [no_extension_found_of_has base ext h1 h2, strrchr_last base ext '.' h1]
  have : (base ++ '.' :: ext).length - base.length = ext.length + 1 := by simp
  simp only [Option.getD_some, this, Nat.mod_eq_of_lt (show ext.length + 1 < 256 by omega)]
  simp

/-- No candidate is shorter than the first one. -/
theorem candidate_path_length (base e : List Char) (k : Nat) :
    (base ++ '.' :: e).length ≤ (candidate_path base e k).length := by
  unfold candidate_path
  by_cases h : k = 0
  · simp [h]
  · simp only [h, if_false, List.length_append, List.length_cons]
    omega

/-- The output path is the first candidate that does not exist, for up to 99
existing candidates. -/
theorem create_output_file_policy (fs : List Char → Bool) (base ext_in e : List Char) (k : Nat)
    (he : e = ['r', 'l', 'e'] ∨ e = ['t', 'x', 't'])
    (h1 : '.' ∉ ext_in) (h2 : '/' ∉ ext_in) (h3 : ext_in.length < 255)
    (hb : base.length < 65536) (hk : k ≤ 99)
    (hex : ∀ j < k, fs (candidate_path base e j) = true)
    (hfree : fs (candidate_path base e k) = false) :
    create_output_file fs true true (some (base ++ '.' :: ext_in)) (some e)
      = some (SUCCESS_STATUS, PathPtr.str (candidate_path base e k)) := by
  have hlen : e.length = 3 := by rcases he with rfl | rfl <;> rfl
  have hloop := suffix_loop_finds fs ((base ++ '.' :: ext_in).length + e.length + 4) base e hlen
    (by simp only [List.length_append, List.length_cons]; omega) k hk hfree k 0 257 (by omega)
    (by omega) (fun i _ hi => hex i hi)
  have hc0 : candidate_path base e 0 = base ++ '.' :: e := by simp [candidate_path]
  rw [hc0] at hloop
  have hadd : add_file_extension (some base) (some e) = (SUCCESS_STATUS, some (base ++ '.' :: e)) := by
    simp [add_file_extension]
  simp only [create_output_file, get_file_basename_of_has base ext_in [] h1 h2 h3, hadd,
    Nat.mod_eq_of_lt hb, hloop]
  have hdrop : (base ++ '.' :: e).drop (candidate_path base e k).length = [] :=
    List.drop_eq_nil_of_le (candidate_path_length base e k)
  simp [hdrop]

/-! ## The claims -/

/-- C1 (round-trip law), evaluated on the one-byte input that holds a backslash, with
the buffers `compress` and `decompress` pass.  The encoder emits the backslash
unescaped, followed by the count 1; the decoder takes these two bytes for the escape
pair of the literal digit one, finds no count after it, and returns the single byte
49: the round trip does not give back the byte 92. -/
theorem backslash_round_trip_fails :
    s32_rle_compress 4096 (fun _ => true) 0 (some [92]) (Buffer.fresh 2) (some 0)
      = ⟨SUCCESS_STATUS, Buffer.data [92, 49], some 2, 2, false⟩ ∧
    s32_rle_decompress 4096 (fun _ => true) [] (some [92, 49]) (Buffer.fresh 1) (some 1)
      = some ⟨SUCCESS_STATUS, Buffer.data [49], some 1, 1, false⟩ := by
  decide

/-- C2 (encoder reference).  For every non-empty input `x` shorter than `10 ^ 19`
bytes (the only caller, `compress`, admits fewer than `2 ^ 33`), with the output
buffer present, every reallocation succeeding and the byte after the input different
from its last byte, `s32_rle_compress` returns `SUCCESS_STATUS`, leaves in its buffer
the concatenation over the maximal runs of `x` of the escaped symbol followed by the
decimal text of the run length, and reports the length of that concatenation.  The
runs are the maximal ones: they expand to `x`, none is empty, and neighbouring runs
have different bytes. -/
theorem encoder_reference (DATA_CHUNK_SIZE_BYTES : Nat) (realloc_ok : Nat → Bool) (past : Nat)
    (x : List Nat) (pc_output_data : Buffer) (size0 : Nat)
    (hrealloc : ∀ k, realloc_ok k = true) (hbuf : pc_output_data ≠ Buffer.null)
    (hne : x ≠ []) (hpast : past ≠ x.getLast hne) (hlen : x.length < 10 ^ 19) :
    (s32_rle_compress DATA_CHUNK_SIZE_BYTES realloc_ok past (some x) pc_output_data
        (some size0)).status = SUCCESS_STATUS ∧
    (s32_rle_compress DATA_CHUNK_SIZE_BYTES realloc_ok past (some x) pc_output_data
        (some size0)).buffer = Buffer.data (spec_encode x) ∧
    (s32_rle_compress DATA_CHUNK_SIZE_BYTES realloc_ok past (some x) pc_output_data
        (some size0)).size = some (spec_encode x).length ∧
    expand_runs (maximal_runs x) = x ∧
    (∀ t ∈ maximal_runs x, 1 ≤ t.2) ∧
    List.Chain' (fun a b : Nat × Nat => a.1 ≠ b.1) (maximal_runs x) := by
  obtain ⟨h1, h2, h3⟩ := s32_rle_compress_spec DATA_CHUNK_SIZE_BYTES realloc_ok past x
    pc_output_data size0 hrealloc hbuf hne hpast hlen
  exact ⟨h1, h2, h3, expand_maximal_runs x, maximal_runs_pos x, maximal_runs_chain x⟩

/-- C2, instance: the encoder reference applied to the nine bytes `aaabbbccc`. -/
theorem encoder_reference_witness :
    (∀ k, (fun _ : Nat => true) k = true) ∧ Buffer.fresh 18 ≠ Buffer.null ∧
    (0 : Nat) ≠ [97, 97, 97, 98, 98, 98, 99, 99, 99].getLast (by decide) ∧
    [97, 97, 97, 98, 98, 98, 99, 99, 99].length < 10 ^ 19 ∧
    ((s32_rle_compress 4096 (fun _ => true) 0 (some [97, 97, 97, 98, 98, 98, 99, 99, 99])
        (Buffer.fresh 18) (some 0)).status = SUCCESS_STATUS ∧
    (s32_rle_compress 4096 (fun _ => true) 0 (some [97, 97, 97, 98, 98, 98, 99, 99, 99])
        (Buffer.fresh 18) (some 0)).buffer
      = Buffer.data (spec_encode [97, 97, 97, 98, 98, 98, 99, 99, 99]) ∧
    (s32_rle_compress 4096 (fun _ => true) 0 (some [97, 97, 97, 98, 98, 98, 99, 99, 99])
        (Buffer.fresh 18) (some 0)).size
      = some (spec_encode [97, 97, 97, 98, 98, 98, 99, 99, 99]).length ∧
    expand_runs (maximal_runs [97, 97, 97, 98, 98, 98, 99, 99, 99])
      = [97, 97, 97, 98, 98, 98, 99, 99, 99] ∧
    (∀ t ∈ maximal_runs [97, 97, 97, 98, 98, 98, 99, 99, 99], 1 ≤ t.2) ∧
    List.Chain' (fun a b : Nat × Nat => a.1 ≠ b.1)
      (maximal_runs [97, 97, 97, 98, 98, 98, 99, 99, 99])) :=
  ⟨fun _ => rfl, by decide, by decide, by decide,
    encoder_reference 4096 (fun _ => true) 0 [97, 97, 97, 98, 98, 98, 99, 99, 99]
      (Buffer.fresh 18) 0 (fun _ => rfl) (by decide) (by decide) (by decide) (by decide)⟩

/-- The run decomposition of `N + 1` copies of one byte is the single run of length
`N + 1`: such an input yields exactly one token, with the decimal suffix `N + 1`. -/
theorem maximal_runs_replicate (c : Nat) (N : Nat) :
    maximal_runs (List.replicate (N + 1) c) = [(c, N + 1)] := by
  induction N with
  | zero => rfl
  | succ n ih =>
    rw [List.replicate_succ, maximal_runs_cons, ih]
    simp

/-- Run-length correctness: a run of `N + 1` copies of a byte that is neither a newline
nor a digit is encoded as exactly one token, the byte followed by the decimal text of
`N + 1`. -/
theorem s32_rle_compress_single_run (DATA_CHUNK_SIZE_BYTES : Nat) (realloc_ok : Nat → Bool)
    (past c N : Nat) (pc_output_data : Buffer) (size0 : Nat)
    (hrealloc : ∀ k, realloc_ok k = true) (hbuf : pc_output_data ≠ Buffer.null)
    (hpast : past ≠ c) (hlen : N + 1 < 10 ^ 19) (hnl : c ≠ 10)
    (hdig : ¬ (48 ≤ c ∧ c ≤ 57)) :
    (s32_rle_compress DATA_CHUNK_SIZE_BYTES realloc_ok past (some (List.replicate (N + 1) c))
        pc_output_data (some size0)).buffer = Buffer.data (c :: decimal_text (N + 1)) := by
  have hne : List.replicate (N + 1) c ≠ [] := by simp
  have hlast : (List.replicate (N + 1) c).getLast hne = c := by
    simp [List.getLast_replicate]
  have h := (s32_rle_compress_spec DATA_CHUNK_SIZE_BYTES realloc_ok past
    (List.replicate (N + 1) c) pc_output_data size0 hrealloc hbuf hne
    (by rw [hlast]; exact hpast) (by simpa using hlen)).2.1
  rw [h, spec_encode, maximal_runs_replicate]
  simp [spec_token, spec_symbol, hnl, hdig]

/-- The reference encoding of `aaabbbccc` is `a3b3c3`, and of `555` the escaped digit
followed by 3. -/
theorem spec_encode_examples :
    spec_encode [97, 97, 97, 98, 98, 98, 99, 99, 99] = [97, 51, 98, 51, 99, 51] ∧
    spec_encode [53, 53, 53] = [92, 53, 51] ∧
    spec_encode [10, 10] = [92, 110, 50] ∧
    spec_encode [120] = [120, 49] := by
  simp [spec_encode, maximal_runs, spec_token, spec_symbol, decimal_text]

/-- The encoder on the scenarios of the specification. -/
theorem s32_rle_compress_examples :
    (s32_rle_compress 4096 (fun _ => true) 0 (some [97, 97, 97, 98, 98, 98, 99, 99, 99])
        (Buffer.fresh 18) (some 0))
      = ⟨SUCCESS_STATUS, Buffer.data [97, 51, 98, 51, 99, 51], some 6, 2, false⟩ ∧
    (s32_rle_compress 4096 (fun _ => true) 0 (some [53, 53, 53]) (Buffer.fresh 6) (some 0))
      = ⟨SUCCESS_STATUS, Buffer.data [92, 53, 51], some 3, 2, false⟩ ∧
    (s32_rle_compress 4096 (fun _ => true) 0 (some [10, 10]) (Buffer.fresh 4) (some 0))
      = ⟨SUCCESS_STATUS, Buffer.data [92, 110, 50], some 3, 2, false⟩ := by
  decide

/-- C3 (decoder reference), amended.  For every non-empty stream that is a
concatenation of well-formed tokens in which the literal symbol of every token after
the first is not a decimal digit, with the output buffer present, every reallocation
succeeding and no digit right after the stream, `s32_rle_decompress` returns
`SUCCESS_STATUS`, leaves in its buffer the concatenation, in token order, of the
counted copies of the resolved symbols, and reports the total of the counts. -/
theorem decoder_reference (DATA_CHUNK_SIZE_BYTES : Nat) (realloc_ok : Nat → Bool)
    (past : List Nat) (ts : List Token) (pc_output_data : Buffer) (size0 : Nat)
    (hrealloc : ∀ k, realloc_ok k = true) (hbuf : pc_output_data ≠ Buffer.null)
    (hne : ts ≠ []) (hwf : ∀ t ∈ ts, t.well_formed)
    (hlit : ∀ t ∈ ts.tail, t.digit_literal = false) (hpast : starts_non_digit past) :
    ∃ r, s32_rle_decompress DATA_CHUNK_SIZE_BYTES realloc_ok past
          (some (ts.flatMap Token.bytes)) pc_output_data (some size0) = some r ∧
      r.status = SUCCESS_STATUS ∧
      r.buffer = Buffer.data (ts.flatMap Token.expand) ∧
      r.size = some ((ts.map Token.count).sum) :=
  s32_rle_decompress_tokens DATA_CHUNK_SIZE_BYTES realloc_ok past ts pc_output_data size0
    hrealloc hbuf hne hwf hlit hpast

/-- C3, instance: the amended decoder reference applied to the stream of the two tokens `a3` and
backslash, letter n, `2`. -/
theorem decoder_reference_witness :
    (∀ k, (fun _ : Nat => true) k = true) ∧ Buffer.fresh 2 ≠ Buffer.null ∧
    ([⟨false, 97, [51]⟩, ⟨true, 110, [50]⟩] : List Token) ≠ [] ∧
    (∀ t ∈ ([⟨false, 97, [51]⟩, ⟨true, 110, [50]⟩] : List Token), t.well_formed) ∧
    (∀ t ∈ ([⟨false, 97, [51]⟩, ⟨true, 110, [50]⟩] : List Token).tail,
      t.digit_literal = false) ∧
    starts_non_digit [] ∧
    (∃ r, s32_rle_decompress 4096 (fun _ => true) []
          (some (([⟨false, 97, [51]⟩, ⟨true, 110, [50]⟩] : List Token).flatMap Token.bytes))
          (Buffer.fresh 2) (some 2) = some r ∧
      r.status = SUCCESS_STATUS ∧
      r.buffer = Buffer.data
        (([⟨false, 97, [51]⟩, ⟨true, 110, [50]⟩] : List Token).flatMap Token.expand) ∧
      r.size = some
        ((([⟨false, 97, [51]⟩, ⟨true, 110, [50]⟩] : List Token).map Token.count).sum)) :=
  ⟨fun _ => rfl, by decide, by decide,
    by simp [Token.well_formed, Token.count],
    by simp [Token.digit_literal],
    by decide,
    decoder_reference 4096 (fun _ => true) [] [⟨false, 97, [51]⟩, ⟨true, 110, [50]⟩]
      (Buffer.fresh 2) 2 (fun _ => rfl) (by decide) (by decide)
      (by simp [Token.well_formed, Token.count]) (by simp [Token.digit_literal]) (by decide)⟩

/-- C3 as stated fails: the tokens `a1` and `01` are well formed in the sense of the
claim (the literal symbol of the second is the digit zero, which is not a backslash),
their concatenation is the stream `a101`, and the decoder, reading `101` as one
count, returns 101 copies of the letter a instead of the two bytes `a0`. -/
theorem decoder_reference_counterexample :
    (Token.mk false 97 [49]).well_formed ∧ (Token.mk false 48 [49]).well_formed ∧
    ([⟨false, 97, [49]⟩, ⟨false, 48, [49]⟩] : List Token).flatMap Token.bytes
      = [97, 49, 48, 49] ∧
    ([⟨false, 97, [49]⟩, ⟨false, 48, [49]⟩] : List Token).flatMap Token.expand = [97, 48] ∧
    s32_rle_decompress 4096 (fun _ => true) [] (some [97, 49, 48, 49]) (Buffer.fresh 2) (some 2)
      = some ⟨SUCCESS_STATUS, Buffer.data (List.replicate 101 97), some 101, 2, false⟩ ∧
    Buffer.data (List.replicate 101 97) ≠ Buffer.data [97, 48] := by
  refine ⟨by simp [Token.well_formed, Token.count], by simp [Token.well_formed, Token.count],
    by decide, by simp [Token.expand, Token.count, Token.resolved], by decide, by decide⟩

/-- C4 (zero-length rejection).  With the input, the output buffer and the size handle
present and the input empty, both transforms return `ERROR_INVALID_LENGTH`, call
`realloc` not once, and leave the output buffer and the size variable as they were. -/
theorem zero_length_rejected (DATA_CHUNK_SIZE_BYTES : Nat) (realloc_ok : Nat → Bool)
    (past : Nat) (past_bytes : List Nat) (pc_output_data : Buffer) (size0 : Nat)
    (hbuf : pc_output_data ≠ Buffer.null) :
    s32_rle_compress DATA_CHUNK_SIZE_BYTES realloc_ok past (some []) pc_output_data (some size0)
      = ⟨ERROR_INVALID_LENGTH, pc_output_data, some size0, 0, false⟩ ∧
    s32_rle_decompress DATA_CHUNK_SIZE_BYTES realloc_ok past_bytes (some []) pc_output_data
        (some size0)
      = some ⟨ERROR_INVALID_LENGTH, pc_output_data, some size0, 0, false⟩ := by
  simp [s32_rle_compress, s32_rle_decompress, hbuf]

/-- C4, instance: the zero-length rejection applied to a buffer that holds three bytes, with every
reallocation set to fail. -/
theorem zero_length_rejected_witness :
    Buffer.data [1, 2, 3] ≠ Buffer.null ∧
    (s32_rle_compress 4096 (fun _ => false) 0 (some []) (Buffer.data [1, 2, 3]) (some 3)
      = ⟨ERROR_INVALID_LENGTH, Buffer.data [1, 2, 3], some 3, 0, false⟩ ∧
    s32_rle_decompress 4096 (fun _ => false) [] (some []) (Buffer.data [1, 2, 3]) (some 3)
      = some ⟨ERROR_INVALID_LENGTH, Buffer.data [1, 2, 3], some 3, 0, false⟩) :=
  ⟨by decide, zero_length_rejected 4096 (fun _ => false) 0 [] (Buffer.data [1, 2, 3]) 3
    (by decide)⟩

/-- C5 (allocation failure is fatal), evaluated where one `realloc`, a growth, fails and
the later shrink succeeds.  The encoder on the one byte `a` (first growth fails), the
encoder on the two bytes `ab` with a chunk of 24 bytes (second growth fails, after
the token `a1` was written), the decoder on the stream `a2` (growth in the inner
loop) and on the stream `a` with no capacity (growth in the outer loop) all return
`SUCCESS_STATUS`: the status is compared with `ERROR_MEMORY_ALLOCATION_FAILED` where
it should be assigned. -/
theorem growth_failure_returns_success :
    s32_rle_compress 4096 (fun k => decide (k ≠ 0)) 0 (some [97]) (Buffer.fresh 2) (some 0)
      = ⟨SUCCESS_STATUS, Buffer.fresh 0, some 0, 2, false⟩ ∧
    s32_rle_compress 24 (fun k => decide (k ≠ 1)) 0 (some [97, 98]) (Buffer.fresh 4) (some 0)
      = ⟨SUCCESS_STATUS, Buffer.fresh 2, some 2, 3, false⟩ ∧
    s32_rle_decompress 4096 (fun k => decide (k ≠ 0)) [] (some [97, 50]) (Buffer.fresh 1)
        (some 1)
      = some ⟨SUCCESS_STATUS, Buffer.fresh 1, some 1, 2, false⟩ ∧
    s32_rle_decompress 4096 (fun k => decide (k ≠ 0)) [] (some [97]) (Buffer.fresh 0) (some 0)
      = some ⟨SUCCESS_STATUS, Buffer.fresh 0, some 0, 2, false⟩ := by
  decide

/-- C6 as stated fails: on the one-byte stream `a` and on the stream `a3b`, in which a
symbol is followed by no digit, the decoder returns `SUCCESS_STATUS`; the symbol
without a count is written once. -/
theorem malformed_input_counterexample :
    s32_rle_decompress 4096 (fun _ => true) [] (some [97]) (Buffer.fresh 0) (some 0)
      = some ⟨SUCCESS_STATUS, Buffer.data [97], some 1, 2, false⟩ ∧
    s32_rle_decompress 4096 (fun _ => true) [] (some [97, 51, 98]) (Buffer.fresh 1) (some 1)
      = some ⟨SUCCESS_STATUS, Buffer.data [97, 97, 97, 98], some 4, 2, false⟩ := by
  decide

/-- C6, amended.  The decoder has no check for malformed input: for every non-empty
stream, whether or not each symbol is followed by a digit, `s32_rle_decompress`
returns, and returns `SUCCESS_STATUS`, provided the output buffer is present, every
reallocation succeeds, and nowhere in the stream and the memory read after it do 20
decimal digits follow one another (they would overrun the staging array). -/
theorem malformed_input_not_rejected (DATA_CHUNK_SIZE_BYTES : Nat) (realloc_ok : Nat → Bool)
    (past : List Nat) (x : List Nat) (pc_output_data : Buffer) (size0 : Nat)
    (hrealloc : ∀ k, realloc_ok k = true) (hbuf : pc_output_data ≠ Buffer.null)
    (hne : x ≠ []) (hrun : no_long_digit_run (x ++ past)) :
    ∃ r, s32_rle_decompress DATA_CHUNK_SIZE_BYTES realloc_ok past (some x) pc_output_data
          (some size0) = some r ∧
      r.status = SUCCESS_STATUS :=
  s32_rle_decompress_total DATA_CHUNK_SIZE_BYTES realloc_ok past x pc_output_data size0
    hrealloc hbuf hne hrun

/-- C6, instance: the amended statement on malformed input applied to the stream `a3b`. -/
theorem malformed_input_not_rejected_witness :
    (∀ k, (fun _ : Nat => true) k = true) ∧ Buffer.fresh 1 ≠ Buffer.null ∧
    ([97, 51, 98] : List Nat) ≠ [] ∧ no_long_digit_run ([97, 51, 98] ++ []) ∧
    (∃ r, s32_rle_decompress 4096 (fun _ => true) [] (some [97, 51, 98]) (Buffer.fresh 1)
          (some 1) = some r ∧
      r.status = SUCCESS_STATUS) :=
  ⟨fun _ => rfl, by decide, by decide, by decide,
    malformed_input_not_rejected 4096 (fun _ => true) [] [97, 51, 98] (Buffer.fresh 1) 1
      (fun _ => rfl) (by decide) (by decide) (by decide)⟩

/-- C7 (failures are reported), evaluated where the file `a.txt` opens and closes but
`read_file` cannot allocate its buffer.  The clean-up closes the input file and stores
the status of that `close_file` call in `s32_ret_val`, so `compress` returns
`SUCCESS_STATUS` and `main` exits with code 0 although a step failed. -/
theorem read_failure_exits_zero :
    read_alloc_failure_env.read = ReadOutcome.alloc_failed ∧
    compress read_alloc_failure_env (some ['a', '.', 't', 'x', 't'])
      = some (SUCCESS_STATUS,
          [Event.fopen ['a', '.', 't', 'x', 't'] 'r', Event.read, Event.fclose_in]) ∧
    main read_alloc_failure_env [['r', 'l', 'e'], ['-', 'c'], ['a', '.', 't', 'x', 't']]
      = some (0, [Event.call_compress (some ['a', '.', 't', 'x', 't']),
          Event.fopen ['a', '.', 't', 'x', 't'] 'r', Event.read, Event.fclose_in]) := by
  decide

/-- C8 (extension contract).  For every file name whose last path component has no
dot, or whose extension has at most 4 characters and is not the expected one (`txt`
for `compress`, `rle` for `decompress`), the operation returns `ERROR_FILE_EXTENSION`
and does nothing to any file. -/
theorem extension_contract (env : Env) (name : List Char) (decompressing : Bool)
    (h : lacks_extension name ∨
      ∃ ext, has_extension name ext ∧ ext.length ≤ 4 ∧
        ext ≠ (if decompressing then ['r', 'l', 'e'] else ['t', 'x', 't'])) :
    (if decompressing then decompress env (some name) else compress env (some name))
      = some (ERROR_FILE_EXTENSION, []) := by
  cases decompressing with
  | true =>
    simp only [if_true] at h ⊢
    simp only [decompress, decompress_steps, read_input_rejects env name _ h]
    simp [cleanup]
  | false =>
    simp only [Bool.false_eq_true, if_false] at h ⊢
    simp only [compress, compress_steps, read_input_rejects env name _ h]
    simp [cleanup]

/-- C8, instance: the extension contract applied to `compress` on the name `a.rle`. -/
theorem extension_contract_witness :
    (lacks_extension ['a', '.', 'r', 'l', 'e'] ∨
      ∃ ext, has_extension ['a', '.', 'r', 'l', 'e'] ext ∧ ext.length ≤ 4 ∧
        ext ≠ (if false then ['r', 'l', 'e'] else ['t', 'x', 't'])) ∧
    (if false then decompress read_alloc_failure_env (some ['a', '.', 'r', 'l', 'e'])
      else compress read_alloc_failure_env (some ['a', '.', 'r', 'l', 'e']))
      = some (ERROR_FILE_EXTENSION, []) :=
  ⟨Or.inr ⟨['r', 'l', 'e'], ⟨['a'], rfl, by decide, by decide⟩, by decide, by decide⟩,
    extension_contract read_alloc_failure_env ['a', '.', 'r', 'l', 'e'] false
      (Or.inr ⟨['r', 'l', 'e'], ⟨['a'], rfl, by decide, by decide⟩, by decide, by decide⟩)⟩

/-- The collision policy while the suffix has at most two digits.  For every input
path `base.ext_in` whose base is shorter than 65536 characters and whose extension
holds no dot, no slash and fewer than 255 characters, every output extension `rle` or
`txt` and every `k` up to 99: when both allocations succeed, the candidates
`0 .. k - 1` exist and candidate `k` does not, `create_output_file` returns
`SUCCESS_STATUS` with candidate `k` as the output path. -/
theorem output_path_policy (file_exists : List Char → Bool) (base ext_in e : List Char)
    (k : Nat) (he : e = ['r', 'l', 'e'] ∨ e = ['t', 'x', 't'])
    (hdot : '.' ∉ ext_in) (hslash : '/' ∉ ext_in) (hext : ext_in.length < 255)
    (hbase : base.length < 65536) (hk : k ≤ 99)
    (hexist : ∀ j < k, file_exists (candidate_path base e j) = true)
    (hfree : file_exists (candidate_path base e k) = false) :
    create_output_file file_exists true true (some (base ++ '.' :: ext_in)) (some e)
      = some (SUCCESS_STATUS, PathPtr.str (candidate_path base e k)) :=
  create_output_file_policy file_exists base ext_in e k he hdot hslash hext hbase hk hexist
    hfree

/-- The collision policy for suffixes of at most two digits applied to the input
`a.txt`, with `a.rle` existing and `a_1.rle` not: the output path is `a_1.rle`. -/
theorem output_path_policy_witness :
    ((['r', 'l', 'e'] : List Char) = ['r', 'l', 'e'] ∨
      (['r', 'l', 'e'] : List Char) = ['t', 'x', 't']) ∧
    '.' ∉ ['t', 'x', 't'] ∧ '/' ∉ ['t', 'x', 't'] ∧
    (['t', 'x', 't'] : List Char).length < 255 ∧ (['a'] : List Char).length < 65536 ∧
    1 ≤ 99 ∧
    (∀ j < 1, (fun p : List Char => decide (p = ['a', '.', 'r', 'l', 'e']))
        (candidate_path ['a'] ['r', 'l', 'e'] j) = true) ∧
    (fun p : List Char => decide (p = ['a', '.', 'r', 'l', 'e']))
        (candidate_path ['a'] ['r', 'l', 'e'] 1) = false ∧
    create_output_file (fun p : List Char => decide (p = ['a', '.', 'r', 'l', 'e'])) true true
        (some (['a'] ++ '.' :: ['t', 'x', 't'])) (some ['r', 'l', 'e'])
      = some (SUCCESS_STATUS, PathPtr.str (candidate_path ['a'] ['r', 'l', 'e'] 1)) :=
  ⟨Or.inl rfl, by decide, by decide, by decide, by decide, by decide, by decide, by decide,
    output_path_policy (fun p : List Char => decide (p = ['a', '.', 'r', 'l', 'e']))
      ['a'] ['t', 'x', 't'] ['r', 'l', 'e'] 1 (Or.inl rfl) (by decide) (by decide) (by decide)
      (by decide) (by decide) (by decide) (by decide)⟩

set_option maxRecDepth 100000 in
/-- C9 (output path collision policy), evaluated at `k = 100`: for the input `a.txt`,
with `a.rle`, `a_1.rle`, .., `a_99.rle` existing and `a_100.rle` not,
`create_output_file` returns `SUCCESS_STATUS` with the path `a_100.rl`, not the
candidate `a_100.rle`.  The call `snprintf(.., 8, ..)` of utils.c 468 has room for
seven characters of the suffix `_100.rle`, although the counter is a `u8` and the
buffer is sized for a suffix of three digits. -/
theorem three_digit_suffix_truncated :
    (∀ j < 100, (fun p : List Char =>
        decide (p ≠ "a_100.rle".toList ∧ p ≠ "a_100.rl".toList))
        (candidate_path "a".toList "rle".toList j) = true) ∧
    (fun p : List Char => decide (p ≠ "a_100.rle".toList ∧ p ≠ "a_100.rl".toList))
        (candidate_path "a".toList "rle".toList 100) = false ∧
    create_output_file
        (fun p : List Char => decide (p ≠ "a_100.rle".toList ∧ p ≠ "a_100.rl".toList))
        true true (some "a.txt".toList) (some "rle".toList)
      = some (SUCCESS_STATUS, PathPtr.str "a_100.rl".toList) ∧
    PathPtr.str "a_100.rl".toList
      ≠ PathPtr.str (candidate_path "a".toList "rle".toList 100) := by
  decide

/-- With a basename of one character, an extension of three and every path of at most
eight characters existing, the loop over the candidates finds no free one, however
many tests it is allowed: every shadow path it builds has at most eight characters. -/
theorem suffix_loop_never_ends (file_exists : List Char → Bool) (ext : List Char)
    (hfs : ∀ p : List Char, p.length ≤ 8 → file_exists p = true) :
    ∀ (fuel : Nat) (shadow : List Char) (cnt : Nat), shadow.length ≤ 8 →
      suffix_loop file_exists 12 1 ext fuel shadow cnt = none := by
  intro fuel
  induction fuel with
  | zero => intro shadow cnt _; rfl
  | succ f ih =>
    intro shadow cnt hlen
    have htext : (suffix_text cnt ext).length ≤ 7 := by
      unfold suffix_text
      exact List.length_take_le _ _
    have hov : ¬ 12 < 1 + ((suffix_text cnt ext).length + 1) := by omega
    rw [suffix_loop, if_pos (hfs shadow hlen), if_neg hov]
    apply ih
    have : (shadow.take 1).length ≤ 1 := List.length_take_le _ _
    simp only [List.length_append]
    omega

set_option maxRecDepth 100000 in
/-- The suffix counter is a `u8`: with `a.rle`, `a_1.rle`, .., `a_255.rle` existing and
`a_256.rle` not (and every truncated name existing), the counter wraps to 0, no
candidate is ever free, and `create_output_file` does not return
(`suffix_loop_never_ends` shows that no number of tests is enough). -/
theorem suffix_counter_wraps :
    (∀ j < 256, (fun p : List Char => decide (p ≠ "a_256.rle".toList))
        (candidate_path "a".toList "rle".toList j) = true) ∧
    (fun p : List Char => decide (p ≠ "a_256.rle".toList))
        (candidate_path "a".toList "rle".toList 256) = false ∧
    create_output_file (fun p : List Char => decide (p ≠ "a_256.rle".toList)) true true
        (some "a.txt".toList) (some "rle".toList) = none := by
  decide

/-- C10 (CLI surface).  `parse_input_args` selects `OP_COMPRESS` with the file
`argv[2]` exactly when there are three arguments and `argv[1]` is `-c`, `OP_DECOMPRESS`
with the file `argv[2]` exactly when there are three arguments and `argv[1]` is `-d`,
and `OP_HELP` for every other argument vector; `main` calls `compress`, `decompress`
accordingly, and in the third case only prints the usage and exits with code 0. -/
theorem cli_surface (env : Env) (argv : List (List Char)) (init : tstr_input_args) :
    parse_input_args argv (some init) =
      some (if argv.length = 3 ∧ argv.get? 1 = some ['-', 'c'] then
              ⟨OP_COMPRESS, argv.get? 2⟩
            else if argv.length = 3 ∧ argv.get? 1 = some ['-', 'd'] then
              ⟨OP_DECOMPRESS, argv.get? 2⟩
            else ⟨OP_HELP, init.pc_input_file⟩) ∧
    main env argv =
      (if argv.length = 3 ∧ argv.get? 1 = some ['-', 'c'] then
        (compress env (argv.get? 2)).map
          (fun r => (if r.1 ≠ SUCCESS_STATUS then 1 else 0,
            Event.call_compress (argv.get? 2) :: r.2))
      else if argv.length = 3 ∧ argv.get? 1 = some ['-', 'd'] then
        (decompress env (argv.get? 2)).map
          (fun r => (if r.1 ≠ SUCCESS_STATUS then 1 else 0,
            Event.call_decompress (argv.get? 2) :: r.2))
      else some (0, [Event.usage])) := by
  rcases argv with _ | ⟨a0, _ | ⟨a1, _ | ⟨a2, _ | ⟨a3, r⟩⟩⟩⟩
  · simp [parse_input_args, main]
  · simp [parse_input_args, main]
  · simp [parse_input_args, main]
  · by_cases hh : a1 = ['-', 'h']
    · simp [parse_input_args, main, hh]
    · by_cases hc : a1 = ['-', 'c']
      · subst hc
        constructor
        · simp [parse_input_args]
        · simp [main, parse_input_args]
      · by_cases hd : a1 = ['-', 'd']
        · subst hd
          constructor
          · simp [parse_input_args]
          · simp [main, parse_input_args]
        · simp [parse_input_args, main, hh, hc, hd]
  · simp [parse_input_args, main]

/-- The invocations named by the specification: no argument, `-h`, an unknown flag,
and `-c` or `-d` with a missing or an extra argument all select `OP_HELP`. -/
theorem cli_help_examples :
    parse_input_args [['r']] (some ⟨OP_NONE, none⟩) = some ⟨OP_HELP, none⟩ ∧
    parse_input_args [['r'], ['-', 'h']] (some ⟨OP_NONE, none⟩) = some ⟨OP_HELP, none⟩ ∧
    parse_input_args [['r'], ['-', 'x'], ['f']] (some ⟨OP_NONE, none⟩)
      = some ⟨OP_HELP, none⟩ ∧
    parse_input_args [['r'], ['-', 'c']] (some ⟨OP_NONE, none⟩) = some ⟨OP_HELP, none⟩ ∧
    parse_input_args [['r'], ['-', 'd'], ['f'], ['g']] (some ⟨OP_NONE, none⟩)
      = some ⟨OP_HELP, none⟩ ∧
    parse_input_args [['r'], ['-', 'c'], ['f']] (some ⟨OP_NONE, none⟩)
      = some ⟨OP_COMPRESS, some ['f']⟩ ∧
    parse_input_args [['r'], ['-', 'd'], ['f']] (some ⟨OP_NONE, none⟩)
      = some ⟨OP_DECOMPRESS, some ['f']⟩ := by
  decide

/-! ## The claims, continued

Lemmas for the claims C11 to C20 come first, each claim follows the lemmas it needs. -/

/-- A symbol is emitted in at most two bytes. -/
theorem escape_symbol_length_le (c : Nat) : (escape_symbol c).length ≤ 2 := by
  unfold escape_symbol
  split
  · simp
  · split <;> simp

/-- The count text has at most 19 digits. -/
theorem snprintf_count_length_le (n : Nat) : (snprintf_count n).length ≤ 19 := by
  unfold snprintf_count
  exact List.length_take_le _ _

/-- A successful growth of a buffer in order keeps pointer, flag and bytes and adds
the chunk to the tracked capacity. -/
theorem grow_within (chunk : Nat) (ok : Nat → Bool) (hok : ∀ k, ok k = true) (b : OutBuf)
    (hb : b.within) :
    (b.grow chunk ok).ptr = Ptr.block ∧ (b.grow chunk ok).oob = false ∧
    (b.grow chunk ok).bytes = b.bytes ∧ (b.grow chunk ok).cap = b.cap + chunk := by
  obtain ⟨h1, h2, -⟩ := hb
  simp [OutBuf.grow, hok, h1, h2]

/-- With a chunk of at least 22 bytes and every reallocation succeeding, the
scanning loop of the encoder keeps the buffer in order. -/
theorem compress_loop_within (chunk : Nat) (ok : Nat → Bool) (hok : ∀ k, ok k = true)
    (hchunk : 22 ≤ chunk) (past : Nat) :
    ∀ (xs : List Nat) (cnt : Nat) (b : OutBuf), b.within →
      (compress_loop chunk ok past xs cnt b).within := by
  intro xs
  induction xs with
  | nil => intro cnt b hb; exact hb
  | cons c rest ih =>
    intro cnt b hb
    have hs := escape_symbol_length_le c
    have hd := snprintf_count_length_le cnt
    obtain ⟨g1, g2, g3, g4⟩ := grow_within chunk ok hok b hb
    rw [compress_loop]
    by_cases h1 : rest.headD past = c
    · rw [if_pos h1]; exact ih _ b hb
    · rw [if_neg h1]
      by_cases h2 : b.cap ≤ b.bytes.length + 2 + 20
      · have hn : (b.grow chunk ok).ptr ≠ Ptr.null := by rw [g1]; decide
        rw [if_pos h2, if_neg hn]
        apply ih
        refine ⟨by simp [OutBuf.emit, g1], ?_, ?_⟩
        · simp only [OutBuf.emit, g2, g3, g4, Bool.false_or, decide_eq_false_iff_not,
            List.length_append]
          have := hb.2.2
          omega
        · simp only [OutBuf.emit, g3, g4, List.length_append]
          have := hb.2.2
          omega
      · rw [if_neg h2]
        apply ih
        refine ⟨by simp [OutBuf.emit, hb.1], ?_, ?_⟩
        · simp only [OutBuf.emit, hb.2.1, Bool.false_or, decide_eq_false_iff_not,
            List.length_append]
          omega
        · simp only [OutBuf.emit, List.length_append]
          omega

/-- A store below the tracked capacity keeps the buffer in order. -/
theorem store_within (c : Nat) (b : OutBuf) (hb : b.within) (hlt : b.bytes.length < b.cap) :
    ∃ b1, b.store c = some b1 ∧ b1.bytes = b.bytes ++ [c] ∧ b1.within := by
  obtain ⟨h1, h2, -⟩ := hb
  refine ⟨{ b with bytes := b.bytes ++ [c], oob := b.oob || decide (b.cap ≤ b.bytes.length) },
    by simp [OutBuf.store, h1], rfl, h1, ?_, ?_⟩
  · simp only [h2, Bool.false_or, decide_eq_false_iff_not]
    omega
  · simp only [List.length_append, List.length_singleton]
    omega

/-- With a chunk of at least 1 byte and every reallocation succeeding, the inner
loop of the decoder appends its copies and keeps the buffer in order. -/
theorem repeat_loop_within (chunk : Nat) (ok : Nat → Bool) (hok : ∀ k, ok k = true)
    (hchunk : 1 ≤ chunk) (sym : Nat) :
    ∀ (k : Nat) (b : OutBuf), b.within →
      ∃ b1, repeat_loop chunk ok sym k b = some b1 ∧
        b1.bytes = b.bytes ++ List.replicate k sym ∧ b1.within := by
  intro k
  induction k with
  | zero => intro b hb; exact ⟨b, rfl, by simp, hb⟩
  | succ k ih =>
    intro b hb
    obtain ⟨g1, g2, g3, g4⟩ := grow_within chunk ok hok b hb
    rw [repeat_loop]
    by_cases h : b.cap = b.bytes.length
    · have hn : (b.grow chunk ok).ptr ≠ Ptr.null := by rw [g1]; decide
      have hw : (b.grow chunk ok).within := ⟨g1, g2, by rw [g3, g4]; omega⟩
      obtain ⟨b1, e1, e2, e3⟩ := store_within sym (b.grow chunk ok) hw (by rw [g3, g4]; omega)
      obtain ⟨b2, f1, f2, f3⟩ := ih b1 e3
      refine ⟨b2, ?_, ?_, f3⟩
      · rw [if_pos h, if_neg hn, e1]; exact f1
      · rw [f2, e2, g3, List.replicate_succ]; simp
    · have hlt : b.bytes.length < b.cap := by have := hb.2.2; omega
      obtain ⟨b1, e1, e2, e3⟩ := store_within sym b hb hlt
      obtain ⟨b2, f1, f2, f3⟩ := ih b1 e3
      refine ⟨b2, ?_, ?_, f3⟩
      · rw [if_neg h, e1]; exact f1
      · rw [f2, e2, List.replicate_succ]; simp

/-- One pass of the decoder against `decode_pass`. -/
theorem decompress_body_ref (chunk : Nat) (ok : Nat → Bool) (hok : ∀ k, ok k = true)
    (hchunk : 1 ≤ chunk) (past : List Nat) (c : Nat) (rest : List Nat) (b : OutBuf)
    (hb : b.within) (hlt : b.bytes.length < b.cap) :
    (decode_pass past c rest = none ∧ decompress_body chunk ok past c rest b = none) ∨
    (∃ r b1, decode_pass past c rest = some r ∧
      decompress_body chunk ok past c rest b = some (b1, r.2) ∧
      b1.bytes = b.bytes ++ r.1 ∧ b1.within) := by
  obtain ⟨b1, e1, e2, e3⟩ := store_within (read_symbol c rest).1 b hb hlt
  by_cases h : 20 ≤ (scan_digits (read_symbol c rest).2 past).length
  · left
    exact ⟨by simp [decode_pass, h], by simp [decompress_body, e1, h]⟩
  · right
    obtain ⟨b2, f1, f2, f3⟩ := repeat_loop_within chunk ok hok hchunk (read_symbol c rest).1
      (to_u64 (atoi (scan_digits (read_symbol c rest).2 past)) - 1) b1 e3
    refine ⟨((read_symbol c rest).1 ::
        List.replicate (to_u64 (atoi (scan_digits (read_symbol c rest).2 past)) - 1)
          (read_symbol c rest).1,
      (read_symbol c rest).2.drop (scan_digits (read_symbol c rest).2 past).length), b2,
      by simp only [decode_pass, h, if_false], ?_, ?_, f3⟩
    · simp only [decompress_body, e1, h, if_false, f1]
    · rw [f2, e2]; simp

/-- One pass of `decode_ref`. -/
theorem decode_ref_cons (past : List Nat) (fuel c : Nat) (rest : List Nat) :
    decode_ref past (fuel + 1) (c :: rest) =
      match decode_pass past c rest with
      | none => none
      | some r => (decode_ref past fuel r.2).map (fun out => r.1 ++ out) := rfl

/-- The decoder loop against `decode_ref`: both are undefined together, and otherwise
the loop appends the bytes of the reference and keeps the buffer in order. -/
theorem decompress_loop_ref (chunk : Nat) (ok : Nat → Bool) (hok : ∀ k, ok k = true)
    (hchunk : 1 ≤ chunk) (past : List Nat) :
    ∀ (fuel : Nat) (rest : List Nat) (b : OutBuf), b.within →
      (decode_ref past fuel rest = none ∧ decompress_loop chunk ok past fuel rest b = none) ∨
      (∃ out b1, decode_ref past fuel rest = some out ∧
        decompress_loop chunk ok past fuel rest b = some b1 ∧
        b1.bytes = b.bytes ++ out ∧ b1.within) := by
  intro fuel
  induction fuel with
  | zero =>
    intro rest b hb
    cases rest with
    | nil => right; exact ⟨[], b, rfl, rfl, by simp, hb⟩
    | cons c tl => left; exact ⟨rfl, rfl⟩
  | succ f ih =>
    intro rest b hb
    cases rest with
    | nil => right; exact ⟨[], b, rfl, rfl, by simp, hb⟩
    | cons c tl =>
      obtain ⟨g1, g2, g3, g4⟩ := grow_within chunk ok hok b hb
      have step : ∀ b0 : OutBuf, b0.within → b0.bytes = b.bytes → b0.bytes.length < b0.cap →
          (decode_ref past (f + 1) (c :: tl) = none ∧
            (match decompress_body chunk ok past c tl b0 with
              | none => none
              | some r => decompress_loop chunk ok past f r.2 r.1) = none) ∨
          (∃ out b1, decode_ref past (f + 1) (c :: tl) = some out ∧
            (match decompress_body chunk ok past c tl b0 with
              | none => none
              | some r => decompress_loop chunk ok past f r.2 r.1) = some b1 ∧
            b1.bytes = b.bytes ++ out ∧ b1.within) := by
        intro b0 hw hbytes hlt
        rcases decompress_body_ref chunk ok hok hchunk past c tl b0 hw hlt with
          ⟨d1, d2⟩ | ⟨r, b1, d1, d2, d3, d4⟩
        · left
          rw [decode_ref_cons, d1, d2]
          exact ⟨rfl, rfl⟩
        · rcases ih r.2 b1 d4 with ⟨k1, k2⟩ | ⟨out, b2, k1, k2, k3, k4⟩
          · left
            rw [decode_ref_cons, d1, d2]
            simp only [k1, k2, Option.map_none']
            exact ⟨trivial, trivial⟩
          · right
            refine ⟨r.1 ++ out, b2, ?_, ?_, ?_, k4⟩
            · rw [decode_ref_cons, d1]
              simp only [k1, Option.map_some']
            · rw [d2]; exact k2
            · rw [k3, d3, hbytes, List.append_assoc]
      rw [decompress_loop_cons]
      by_cases h : b.cap = b.bytes.length
      · have hn : (b.grow chunk ok).ptr ≠ Ptr.null := by rw [g1]; decide
        rw [if_pos h, if_neg hn]
        exact step (b.grow chunk ok) ⟨g1, g2, by rw [g3, g4]; omega⟩ g3 (by rw [g3, g4]; omega)
      · rw [if_neg h]
        exact step b hb rfl (by have := hb.2.2; omega)

/-- The decoder against `decode_ref`, for every initial capacity and every chunk of
at least 1 byte. -/
theorem s32_rle_decompress_ref (chunk : Nat) (ok : Nat → Bool) (past : List Nat) (x : List Nat)
    (buf : Buffer) (size0 : Nat) (hok : ∀ k, ok k = true) (hchunk : 1 ≤ chunk)
    (hbuf : buf ≠ Buffer.null) (hne : x ≠ []) :
    (s32_rle_decompress chunk ok past (some x) buf (some size0)).map
        (fun r => (r.status, r.buffer, r.size, r.oob))
      = (decode_ref past x.length x).map
        (fun out => (SUCCESS_STATUS, Buffer.data out, some out.length, false)) := by
  have hl : x.length ≠ 0 := fun e => hne (List.length_eq_zero.mp e)
  have hinit : (OutBuf.init size0).within := ⟨rfl, rfl, by simp [OutBuf.init]⟩
  simp only [s32_rle_decompress, hbuf, if_false, hl]
  rcases decompress_loop_ref chunk ok hok hchunk past x.length x (OutBuf.init size0) hinit with
    ⟨k1, k2⟩ | ⟨out, b1, k1, k2, k3, k4⟩
  · rw [k1, k2]; rfl
  · rw [k1, k2]
    have hbytes : b1.bytes = out := by simpa [OutBuf.init] using k3
    simp [OutBuf.finish, hok, k4.1, k4.2.1, hbytes]

/-- Whatever the reallocations do, the scanning loop of the encoder appends a prefix
of the emissions of `run_tokens`. -/
theorem compress_loop_initial (chunk : Nat) (ok : Nat → Bool) (past : Nat) :
    ∀ (xs : List Nat) (cnt : Nat) (b : OutBuf),
      ∃ p, (compress_loop chunk ok past xs cnt b).bytes = b.bytes ++ p ∧
        p <+: (run_tokens past xs cnt).flatMap emitted := by
  intro xs
  induction xs with
  | nil => intro cnt b; exact ⟨[], by simp [compress_loop], List.nil_prefix⟩
  | cons c rest ih =>
    intro cnt b
    rw [compress_loop, run_tokens_cons]
    by_cases h1 : rest.headD past = c
    · rw [if_pos h1, if_pos h1]; exact ih _ b
    · rw [if_neg h1, if_neg h1]
      have emit_case : ∀ b0 : OutBuf, b0.bytes = b.bytes →
          ∃ p, (compress_loop chunk ok past rest 1 (b0.emit c cnt)).bytes = b.bytes ++ p ∧
            p <+: ((c, cnt) :: run_tokens past rest 1).flatMap emitted := by
        intro b0 hb0
        obtain ⟨p, e1, e2⟩ := ih 1 (b0.emit c cnt)
        refine ⟨emitted (c, cnt) ++ p, ?_, ?_⟩
        · rw [e1]; simp [OutBuf.emit, emitted, hb0]
        · rw [List.flatMap_cons]
          exact (List.prefix_append_right_inj _).mpr e2
      by_cases h2 : b.cap ≤ b.bytes.length + 2 + 20
      · rw [if_pos h2]
        by_cases h3 : (b.grow chunk ok).ptr = Ptr.null
        · rw [if_pos h3]
          exact ⟨[], by simp [OutBuf.grow], List.nil_prefix⟩
        · rw [if_neg h3]
          exact emit_case (b.grow chunk ok) rfl
      · rw [if_neg h2]
        exact emit_case b rfl

/-- When the byte after the input equals its last byte, the loop emits the maximal
runs without the last one. -/
theorem run_tokens_eq_dropLast (past : Nat) :
    ∀ (xs : List Nat) (cnt : Nat) (hne : xs ≠ []), past = xs.getLast hne →
      cnt + xs.length < 2 ^ 64 →
      run_tokens past xs (cnt + 1) = (add_first cnt (maximal_runs xs)).dropLast := by
  intro xs
  induction xs with
  | nil => intro cnt hne; exact absurd rfl hne
  | cons c rest ih =>
    intro cnt hne hlast hlen
    cases rest with
    | nil =>
      have : past = c := by simpa using hlast
      simp [run_tokens, maximal_runs, add_first, this]
    | cons d rest2 =>
      have hlast2 : past = (d :: rest2).getLast (by simp) := by
        simpa [List.getLast_cons] using hlast
      obtain ⟨k, tl, hk⟩ := maximal_runs_cons_ne_nil d rest2
      simp only [List.length_cons] at hlen
      by_cases hdc : d = c
      · subst hdc
        have hmod : (cnt + 1 + 1) % 2 ^ 64 = cnt + 1 + 1 := Nat.mod_eq_of_lt (by omega)
        have := ih (cnt + 1) (by simp) hlast2 (by simp only [List.length_cons]; omega)
        rw [run_tokens_cons, List.headD_cons, if_pos rfl, hmod, this, hk,
          maximal_runs_cons d (d :: rest2), hk]
        simp only [add_first, if_true]
        congr 3
        omega
      · have := ih 0 (by simp) hlast2 (by simp only [List.length_cons]; omega)
        rw [run_tokens_cons, List.headD_cons, if_neg hdc, this, hk,
          maximal_runs_cons c (d :: rest2), hk]
        simp only [add_first, hdc, if_false, List.dropLast_cons₂]
        congr 2
        omega

/-- The runs the loop emits are a prefix of the maximal runs. -/
theorem run_tokens_initial (past : Nat) (x : List Nat) (hne : x ≠ []) (hlen : x.length < 2 ^ 64) :
    run_tokens past x 1 <+: maximal_runs x := by
  by_cases h : past = x.getLast hne
  · have := run_tokens_eq_dropLast past x 0 hne h (by omega)
    rw [add_first_zero] at this
    simp only [Nat.zero_add] at this
    rw [this]
    exact List.dropLast_prefix _
  · have := run_tokens_eq past x 0 hne h (by omega)
    rw [add_first_zero] at this
    simp only [Nat.zero_add] at this
    rw [this]

/-- Concatenation keeps prefixes. -/
theorem flatMap_initial {α β : Type} (f : α → List β) (l m : List α) (h : l <+: m) :
    l.flatMap f <+: m.flatMap f := by
  obtain ⟨t, rfl⟩ := h
  rw [List.flatMap_append]
  exact List.prefix_append _ _

/-- Whatever the reallocations and the byte after the input do, the encoder reports
at most the length of the emissions for the maximal runs. -/
theorem s32_rle_compress_size_le (chunk : Nat) (ok : Nat → Bool) (past : Nat) (x : List Nat)
    (buf : Buffer) (size0 : Nat) (hbuf : buf ≠ Buffer.null) (hne : x ≠ [])
    (hlen : x.length < 2 ^ 64) :
    ∃ n, (s32_rle_compress chunk ok past (some x) buf (some size0)).size = some n ∧
      n ≤ ((maximal_runs x).flatMap emitted).length := by
  have hl : x.length ≠ 0 := fun e => hne (List.length_eq_zero.mp e)
  obtain ⟨p, e1, e2⟩ := compress_loop_initial chunk ok past x 1 (OutBuf.init size0)
  refine ⟨(compress_loop chunk ok past x 1 (OutBuf.init size0)).bytes.length, ?_, ?_⟩
  · simp only [s32_rle_compress, hbuf, if_false, hl]
    rfl
  · rw [e1]
    have : p <+: (maximal_runs x).flatMap emitted :=
      e2.trans (flatMap_initial emitted _ _ (run_tokens_initial past x hne hlen))
    simpa [OutBuf.init] using this.length_le

/-- A newline or a digit is emitted in two bytes, any other byte in one. -/
theorem escape_symbol_length (c : Nat) :
    (escape_symbol c).length = if is_special c then 2 else 1 := by
  unfold escape_symbol is_special is_digit
  by_cases h1 : c = 10
  · simp [h1]
  · by_cases h2 : 48 ≤ c ∧ c ≤ 57
    · simp [h1, h2.1, h2.2]
    · have : (decide (48 ≤ c) && decide (c ≤ 57)) = false := by
        simpa using fun h => by omega
      simp [h1, h2, this]

/-- A counter of at most 9 is printed with one digit. -/
theorem snprintf_count_length_small (n : Nat) (hn : n ≤ 9) : (snprintf_count n).length = 1 := by
  have : lu_digits 20 n = [48 + n] := by
    rw [lu_digits_succ, if_pos (by omega)]
  simp [snprintf_count, this]

/-- An emission for a run of at most 9 bytes, of at least 2 when the byte is a
newline or a digit, is at most twice as long as the run. -/
theorem emitted_length_le_two (t : Nat × Nat) (h1 : 1 ≤ t.2) (h9 : t.2 ≤ 9)
    (hsp : is_special t.1 → 2 ≤ t.2) : (emitted t).length ≤ 2 * t.2 := by
  have hs := escape_symbol_length t.1
  have hd := snprintf_count_length_small t.2 h9
  simp only [emitted, List.length_append]
  by_cases h : is_special t.1
  · have := hsp h
    rw [if_pos h] at hs
    omega
  · rw [if_neg h] at hs
    omega

/-- A bound on every piece bounds the concatenation. -/
theorem length_flatMap_le (l : List (Nat × Nat)) (f : Nat × Nat → List Nat) (m : Nat)
    (h : ∀ t ∈ l, (f t).length ≤ m * t.2) :
    (l.flatMap f).length ≤ m * (l.map Prod.snd).sum := by
  induction l with
  | nil => simp
  | cons t tl ih =>
    have h1 := h t (List.mem_cons_self _ _)
    have h2 := ih (fun x hx => h x (List.mem_cons_of_mem _ hx))
    simp only [List.flatMap_cons, List.length_append, List.map_cons, List.sum_cons, Nat.mul_add]
    omega

/-- The lengths of the maximal runs add up to the length of the sequence. -/
theorem sum_maximal_runs (x : List Nat) : ((maximal_runs x).map Prod.snd).sum = x.length := by
  rw [← length_expand_runs, expand_maximal_runs]

/-- A path without extension has no basename. -/
theorem get_file_basename_of_lacks (name buf : List Char) (h : lacks_extension name) :
    get_file_basename (some name) (some buf) = (ERROR_FILE_EXTENSION, some buf) := by
  simp only [get_file_basename, no_extension_found_of_lacks name h]
  simp

/-- The reference decoder is defined on every non-empty stream in which 20 digits
never follow one another. -/
theorem decode_ref_defined (past x : List Nat) (hne : x ≠ [])
    (hrun : no_long_digit_run (x ++ past)) : ∃ out, decode_ref past x.length x = some out := by
  obtain ⟨r, hr, -⟩ := s32_rle_decompress_total 1 (fun _ => true) past x (Buffer.fresh 0) 0
    (fun _ => rfl) (by decide) hne hrun
  have h := s32_rle_decompress_ref 1 (fun _ => true) past x (Buffer.fresh 0) 0 (fun _ => rfl)
    (le_refl _) (by decide) hne
  rw [hr] at h
  cases hd : decode_ref past x.length x with
  | none => rw [hd] at h; simp at h
  | some out => exact ⟨out, rfl⟩

/-- C11 (basename and extension split the path), amended.  For every path that ends
in a dot followed by an extension of fewer than 255 characters without dot or slash,
`get_file_basename` and `get_file_extension` return `SUCCESS_STATUS`, the basename is
the path before that dot and the extension the text after it; for every path whose
last component holds no dot both return `ERROR_FILE_EXTENSION` and leave their buffer
as it was. -/
theorem basename_extension_split (base ext path buf_base buf_ext : List Char)
    (hdot : '.' ∉ ext) (hslash : '/' ∉ ext) (hlen : ext.length < 255)
    (hlacks : lacks_extension path) :
    get_file_basename (some (base ++ '.' :: ext)) (some buf_base)
      = (SUCCESS_STATUS, some base) ∧
    get_file_extension (some (base ++ '.' :: ext)) (some buf_ext)
      = (SUCCESS_STATUS, some ext) ∧
    get_file_basename (some path) (some buf_base) = (ERROR_FILE_EXTENSION, some buf_base) ∧
    get_file_extension (some path) (some buf_ext) = (ERROR_FILE_EXTENSION, some buf_ext) :=
  ⟨get_file_basename_of_has base ext buf_base hdot hslash hlen,
    get_file_extension_of_has base ext buf_ext hdot hslash,
    get_file_basename_of_lacks path buf_base hlacks,
    get_file_extension_of_lacks path buf_ext hlacks⟩

/-- C11, instance: the amended statement applied to the paths `d.x/a.txt` and `d.x/a`. -/
theorem basename_extension_split_witness :
    '.' ∉ ['t', 'x', 't'] ∧ '/' ∉ ['t', 'x', 't'] ∧ (['t', 'x', 't'] : List Char).length < 255 ∧
    lacks_extension ['d', '.', 'x', '/', 'a'] ∧
    (get_file_basename (some (['d', '.', 'x', '/', 'a'] ++ '.' :: ['t', 'x', 't'])) (some [])
      = (SUCCESS_STATUS, some ['d', '.', 'x', '/', 'a']) ∧
    get_file_extension (some (['d', '.', 'x', '/', 'a'] ++ '.' :: ['t', 'x', 't'])) (some [])
      = (SUCCESS_STATUS, some ['t', 'x', 't']) ∧
    get_file_basename (some ['d', '.', 'x', '/', 'a']) (some [])
      = (ERROR_FILE_EXTENSION, some []) ∧
    get_file_extension (some ['d', '.', 'x', '/', 'a']) (some [])
      = (ERROR_FILE_EXTENSION, some [])) :=
  ⟨by decide, by decide, by decide, Or.inr ⟨['d', '.', 'x'], ['a'], rfl, by decide⟩,
    basename_extension_split ['d', '.', 'x', '/', 'a'] ['t', 'x', 't'] ['d', '.', 'x', '/', 'a']
      [] [] (by decide) (by decide) (by decide)
      (Or.inr ⟨['d', '.', 'x'], ['a'], rfl, by decide⟩)⟩

set_option maxRecDepth 100000 in
/-- C11 as stated fails on the path made of the letter a, a dot and 255 letters x: the
length of the extension with its dot, 256, is stored in a `u8` and becomes 0, so
`get_file_basename` returns the whole path as the basename, while
`get_file_extension` returns the 255 letters. -/
theorem basename_extension_split_counterexample :
    '.' ∉ List.replicate 255 'x' ∧ '/' ∉ List.replicate 255 'x' ∧
    get_file_basename (some (['a'] ++ '.' :: List.replicate 255 'x')) (some [])
      = (SUCCESS_STATUS, some (['a'] ++ '.' :: List.replicate 255 'x')) ∧
    get_file_extension (some (['a'] ++ '.' :: List.replicate 255 'x')) (some [])
      = (SUCCESS_STATUS, some (List.replicate 255 'x')) ∧
    (['a'] ++ '.' :: List.replicate 255 'x') ≠ ['a'] := by
  decide

/-- C12 (worst-case output size), amended.  For every non-empty input of length `n`
(a `u64`) in which every run of identical bytes has length at most 9 and every run
of newlines or of one digit has length at least 2, the size `s32_rle_compress`
reports is at most `2 * n`, whatever the reallocations and the byte after the input
do. -/
theorem worst_case_size (DATA_CHUNK_SIZE_BYTES : Nat) (realloc_ok : Nat → Bool) (past : Nat)
    (x : List Nat) (pc_output_data : Buffer) (size0 : Nat)
    (hbuf : pc_output_data ≠ Buffer.null) (hne : x ≠ []) (hlen : x.length < 2 ^ 64)
    (h9 : ∀ t ∈ maximal_runs x, t.2 ≤ 9)
    (hsp : ∀ t ∈ maximal_runs x, is_special t.1 → 2 ≤ t.2) :
    ∃ n, (s32_rle_compress DATA_CHUNK_SIZE_BYTES realloc_ok past (some x) pc_output_data
        (some size0)).size = some n ∧ n ≤ 2 * x.length := by
  obtain ⟨n, h1, h2⟩ := s32_rle_compress_size_le DATA_CHUNK_SIZE_BYTES realloc_ok past x
    pc_output_data size0 hbuf hne hlen
  refine ⟨n, h1, h2.trans ?_⟩
  have := length_flatMap_le (maximal_runs x) emitted 2
    (fun t ht => emitted_length_le_two t (maximal_runs_pos x t ht) (h9 t ht) (hsp t ht))
  rwa [sum_maximal_runs] at this

/-- C12, instance: the amended statement applied to the input `aa55`. -/
theorem worst_case_size_witness :
    Buffer.fresh 8 ≠ Buffer.null ∧ ([97, 97, 53, 53] : List Nat) ≠ [] ∧
    ([97, 97, 53, 53] : List Nat).length < 2 ^ 64 ∧
    (∀ t ∈ maximal_runs [97, 97, 53, 53], t.2 ≤ 9) ∧
    (∀ t ∈ maximal_runs [97, 97, 53, 53], is_special t.1 → 2 ≤ t.2) ∧
    (∃ n, (s32_rle_compress 4096 (fun _ => true) 0 (some [97, 97, 53, 53]) (Buffer.fresh 8)
        (some 0)).size = some n ∧ n ≤ 2 * ([97, 97, 53, 53] : List Nat).length) :=
  ⟨by decide, by decide, by decide, by decide, by decide,
    worst_case_size 4096 (fun _ => true) 0 [97, 97, 53, 53] (Buffer.fresh 8) 0 (by decide)
      (by decide) (by decide) (by decide) (by decide)⟩

/-- C12 as stated fails on the one-byte input that holds the digit 5: its only run has
length 1, the encoder emits the three bytes backslash, 5, 1, and 3 exceeds `2 * 1`,
the size of the buffer `compress` allocates. -/
theorem worst_case_size_counterexample :
    (∀ t ∈ maximal_runs [53], t.2 ≤ 9) ∧
    s32_rle_compress 4096 (fun _ => true) 0 (some [53]) (Buffer.fresh 2) (some 0)
      = ⟨SUCCESS_STATUS, Buffer.data [92, 53, 49], some 3, 2, false⟩ ∧
    ¬ 3 ≤ 2 * ([53] : List Nat).length := by
  decide

/-- C13 (no read past the end in the encoder), evaluated on the two bytes `ab`.  The
comparison of the last byte with `pc_input_data[i + 1]` reads the byte after the
buffer: when that byte is another `b` the final run is counted on and never emitted
(output `a1`), when it is anything else the output is `a1b1`. -/
theorem encoder_reads_past_end :
    s32_rle_compress 4096 (fun _ => true) 98 (some [97, 98]) (Buffer.fresh 4) (some 0)
      = ⟨SUCCESS_STATUS, Buffer.data [97, 49], some 2, 2, false⟩ ∧
    s32_rle_compress 4096 (fun _ => true) 0 (some [97, 98]) (Buffer.fresh 4) (some 0)
      = ⟨SUCCESS_STATUS, Buffer.data [97, 49, 98, 49], some 4, 2, false⟩ := by
  decide

/-- C14 (digit scanning is bounded by the stream), evaluated on the stream `a2`.  The
digit loop tests only the byte value: when the byte after the stream is the digit 3
it is collected too and 23 copies are written, when no digit follows the stream 2
copies are written. -/
theorem digit_scan_reads_past_end :
    s32_rle_decompress 4096 (fun _ => true) [51] (some [97, 50]) (Buffer.fresh 1) (some 1)
      = some ⟨SUCCESS_STATUS, Buffer.data (List.replicate 23 97), some 23, 2, false⟩ ∧
    s32_rle_decompress 4096 (fun _ => true) [] (some [97, 50]) (Buffer.fresh 1) (some 1)
      = some ⟨SUCCESS_STATUS, Buffer.data [97, 97], some 2, 2, false⟩ ∧
    scan_digits [50] [51] = [50, 51] := by
  decide

/-- C15 (staging buffer bound), evaluated on the stream made of the letter a followed
by 21 digits 1.  All 21 digits are collected, the last one is stored at index 20 of
the 20-element array `ac_char_cnt_string`, and the call has no defined result. -/
theorem staging_index_reaches_20 :
    scan_digits (List.replicate 21 49) [] = List.replicate 21 49 ∧
    20 ∈ staging_store_indices (scan_digits (List.replicate 21 49) []) ∧
    s32_rle_decompress 4096 (fun _ => true) [] (some (97 :: List.replicate 21 49))
      (Buffer.fresh 11) (some 11) = none := by
  decide

/-- C16 (unsigned run count), evaluated on the suffixes `4294967297` and `2147483648`,
both of 10 digits.  The count is obtained through `atoi`, an `int`: the first suffix
gives the count 1, so the stream `a4294967297` decodes to a single letter a, and the
second gives the count `2 ^ 64 - 2 ^ 31`. -/
theorem run_count_goes_through_int :
    decimal_value [52, 50, 57, 52, 57, 54, 55, 50, 57, 55] = 4294967297 ∧
    to_u64 (atoi [52, 50, 57, 52, 57, 54, 55, 50, 57, 55]) = 1 ∧
    s32_rle_decompress 4096 (fun _ => true) []
        (some [97, 52, 50, 57, 52, 57, 54, 55, 50, 57, 55]) (Buffer.fresh 5) (some 5)
      = some ⟨SUCCESS_STATUS, Buffer.data [97], some 1, 1, false⟩ ∧
    decimal_value [50, 49, 52, 55, 52, 56, 51, 54, 52, 56] = 2147483648 ∧
    to_u64 (atoi [50, 49, 52, 55, 52, 56, 51, 54, 52, 56]) = 2 ^ 64 - 2 ^ 31 := by
  decide

/-- C17 (room for one emission in the encoder).  For every non-empty input, every
initial tracked capacity and every chunk size of at least 22, while every
reallocation succeeds, no emission stores a byte (symbol, count digits or the closing
NUL) at an index that is not below the tracked capacity, and when the loop is left
the tracked capacity is at least the write index. -/
theorem encoder_room_for_emission (DATA_CHUNK_SIZE_BYTES : Nat) (realloc_ok : Nat → Bool)
    (past : Nat) (x : List Nat) (pc_output_data : Buffer) (size0 : Nat)
    (hrealloc : ∀ k, realloc_ok k = true) (hchunk : 22 ≤ DATA_CHUNK_SIZE_BYTES)
    (hbuf : pc_output_data ≠ Buffer.null) (hne : x ≠ []) :
    (s32_rle_compress DATA_CHUNK_SIZE_BYTES realloc_ok past (some x) pc_output_data
        (some size0)).oob = false ∧
    (compress_loop DATA_CHUNK_SIZE_BYTES realloc_ok past x 1 (OutBuf.init size0)).oob = false ∧
    (compress_loop DATA_CHUNK_SIZE_BYTES realloc_ok past x 1 (OutBuf.init size0)).bytes.length
      ≤ (compress_loop DATA_CHUNK_SIZE_BYTES realloc_ok past x 1 (OutBuf.init size0)).cap := by
  have hl : x.length ≠ 0 := fun e => hne (List.length_eq_zero.mp e)
  obtain ⟨-, h2, h3⟩ := compress_loop_within DATA_CHUNK_SIZE_BYTES realloc_ok hrealloc hchunk
    past x 1 (OutBuf.init size0) ⟨rfl, rfl, by simp [OutBuf.init]⟩
  refine ⟨?_, h2, h3⟩
  simp only [s32_rle_compress, hbuf, hl, if_false]
  exact h2

/-- C17, instance: the statement applied to the input `aaabbbccc` with the chunk size
22 and the initial tracked capacity 0. -/
theorem encoder_room_for_emission_witness :
    (∀ k, (fun _ : Nat => true) k = true) ∧ 22 ≤ 22 ∧ Buffer.fresh 18 ≠ Buffer.null ∧
    ([97, 97, 97, 98, 98, 98, 99, 99, 99] : List Nat) ≠ [] ∧
    ((s32_rle_compress 22 (fun _ => true) 0 (some [97, 97, 97, 98, 98, 98, 99, 99, 99])
        (Buffer.fresh 18) (some 0)).oob = false ∧
    (compress_loop 22 (fun _ => true) 0 [97, 97, 97, 98, 98, 98, 99, 99, 99] 1
        (OutBuf.init 0)).oob = false ∧
    (compress_loop 22 (fun _ => true) 0 [97, 97, 97, 98, 98, 98, 99, 99, 99] 1
        (OutBuf.init 0)).bytes.length
      ≤ (compress_loop 22 (fun _ => true) 0 [97, 97, 97, 98, 98, 98, 99, 99, 99] 1
        (OutBuf.init 0)).cap) :=
  ⟨fun _ => rfl, by decide, by decide, by decide,
    encoder_room_for_emission 22 (fun _ => true) 0 [97, 97, 97, 98, 98, 98, 99, 99, 99]
      (Buffer.fresh 18) 0 (fun _ => rfl) (by decide) (by decide) (by decide)⟩

/-- C18 (decoder capacity invariant).  For every non-empty stream, every initial
tracked capacity and every chunk size of at least 1, while every reallocation
succeeds: the call has a defined result exactly when the buffer-free reference
`decode_ref` has one (no pass collects 20 digits), and then it returns
`SUCCESS_STATUS`, no store was made at an index that is not below the tracked
capacity, the reported size is the number of bytes written, and the bytes are those
of the reference, which mentions neither the capacity nor the chunk size; a second
run with another capacity and chunk size gives the same status, bytes and size.
When the loop is left the write index is at most the tracked capacity. -/
theorem decoder_capacity_invariant (DATA_CHUNK_SIZE_BYTES chunk2 : Nat)
    (realloc_ok : Nat → Bool) (past : List Nat) (x : List Nat) (pc_output_data : Buffer)
    (size0 size2 : Nat) (hrealloc : ∀ k, realloc_ok k = true)
    (hchunk : 1 ≤ DATA_CHUNK_SIZE_BYTES) (hchunk2 : 1 ≤ chunk2)
    (hbuf : pc_output_data ≠ Buffer.null) (hne : x ≠ []) :
    (s32_rle_decompress DATA_CHUNK_SIZE_BYTES realloc_ok past (some x) pc_output_data
        (some size0)).map (fun r => (r.status, r.buffer, r.size, r.oob))
      = (decode_ref past x.length x).map
        (fun out => (SUCCESS_STATUS, Buffer.data out, some out.length, false)) ∧
    (s32_rle_decompress DATA_CHUNK_SIZE_BYTES realloc_ok past (some x) pc_output_data
        (some size0)).map (fun r => (r.status, r.buffer, r.size, r.oob))
      = (s32_rle_decompress chunk2 realloc_ok past (some x) pc_output_data
        (some size2)).map (fun r => (r.status, r.buffer, r.size, r.oob)) ∧
    (∀ b, decompress_loop DATA_CHUNK_SIZE_BYTES realloc_ok past x.length x (OutBuf.init size0)
        = some b → b.oob = false ∧ b.bytes.length ≤ b.cap) := by
  have h1 := s32_rle_decompress_ref DATA_CHUNK_SIZE_BYTES realloc_ok past x pc_output_data
    size0 hrealloc hchunk hbuf hne
  have h2 := s32_rle_decompress_ref chunk2 realloc_ok past x pc_output_data
    size2 hrealloc hchunk2 hbuf hne
  refine ⟨h1, h1.trans h2.symm, ?_⟩
  intro b hb
  rcases decompress_loop_ref DATA_CHUNK_SIZE_BYTES realloc_ok hrealloc hchunk past x.length x
    (OutBuf.init size0) ⟨rfl, rfl, by simp [OutBuf.init]⟩ with ⟨-, k2⟩ | ⟨out, b1, -, k2, -, k4⟩
  · rw [k2] at hb; exact absurd hb (by simp)
  · rw [k2] at hb
    obtain rfl := Option.some.inj hb
    exact ⟨k4.2.1, k4.2.2⟩

/-- C18, instance: the statement applied to the stream `a3b3c3` with chunk sizes 1 and
4096 and initial capacities 0 and 3; the reference gives the nine bytes `aaabbbccc`. -/
theorem decoder_capacity_invariant_witness :
    (∀ k, (fun _ : Nat => true) k = true) ∧ 1 ≤ 1 ∧ 1 ≤ 4096 ∧ Buffer.fresh 3 ≠ Buffer.null ∧
    ([97, 51, 98, 51, 99, 51] : List Nat) ≠ [] ∧
    decode_ref [] 6 [97, 51, 98, 51, 99, 51] = some [97, 97, 97, 98, 98, 98, 99, 99, 99] ∧
    ((s32_rle_decompress 1 (fun _ => true) [] (some [97, 51, 98, 51, 99, 51]) (Buffer.fresh 3)
        (some 0)).map (fun r => (r.status, r.buffer, r.size, r.oob))
      = (decode_ref [] ([97, 51, 98, 51, 99, 51] : List Nat).length
          [97, 51, 98, 51, 99, 51]).map
        (fun out => (SUCCESS_STATUS, Buffer.data out, some out.length, false)) ∧
    (s32_rle_decompress 1 (fun _ => true) [] (some [97, 51, 98, 51, 99, 51]) (Buffer.fresh 3)
        (some 0)).map (fun r => (r.status, r.buffer, r.size, r.oob))
      = (s32_rle_decompress 4096 (fun _ => true) [] (some [97, 51, 98, 51, 99, 51])
        (Buffer.fresh 3) (some 3)).map (fun r => (r.status, r.buffer, r.size, r.oob)) ∧
    (∀ b, decompress_loop 1 (fun _ => true) [] ([97, 51, 98, 51, 99, 51] : List Nat).length
        [97, 51, 98, 51, 99, 51] (OutBuf.init 0)
        = some b → b.oob = false ∧ b.bytes.length ≤ b.cap)) :=
  ⟨fun _ => rfl, by decide, by decide, by decide, by decide, by decide,
    decoder_capacity_invariant 1 4096 (fun _ => true) [] [97, 51, 98, 51, 99, 51]
      (Buffer.fresh 3) 0 3 (fun _ => rfl) (by decide) (by decide) (by decide) (by decide)⟩

/-- C19 (round trip on backslash-free input).  For every non-empty input of at most
`2 ^ 31 - 1` bytes that holds no backslash, with both output buffers present, every
reallocation succeeding, the byte after the input different from its last byte and no
digit right after the encoded stream: the encoder returns `SUCCESS_STATUS`, and the
decoder applied to the bytes the encoder produced returns `SUCCESS_STATUS` with
exactly the input and its length. -/
theorem round_trip_without_backslash (chunk_enc chunk_dec : Nat)
    (realloc_enc realloc_dec : Nat → Bool) (past_enc : Nat) (past_dec : List Nat)
    (x : List Nat) (buf_enc buf_dec : Buffer) (size_enc size_dec : Nat)
    (henc : ∀ k, realloc_enc k = true) (hdec : ∀ k, realloc_dec k = true)
    (hbuf_enc : buf_enc ≠ Buffer.null) (hbuf_dec : buf_dec ≠ Buffer.null)
    (hne : x ≠ []) (hlen : x.length ≤ 2 ^ 31 - 1) (hbs : ∀ c ∈ x, c ≠ 92)
    (hpast_enc : past_enc ≠ x.getLast hne) (hpast_dec : starts_non_digit past_dec) :
    ∃ enc r,
      (s32_rle_compress chunk_enc realloc_enc past_enc (some x) buf_enc
        (some size_enc)).status = SUCCESS_STATUS ∧
      (s32_rle_compress chunk_enc realloc_enc past_enc (some x) buf_enc
        (some size_enc)).buffer = Buffer.data enc ∧
      s32_rle_decompress chunk_dec realloc_dec past_dec (some enc) buf_dec (some size_dec)
        = some r ∧
      r.status = SUCCESS_STATUS ∧ r.buffer = Buffer.data x ∧ r.size = some x.length :=
  roundtrip_no_backslash chunk_enc chunk_dec realloc_enc realloc_dec past_enc past_dec x
    buf_enc buf_dec size_enc size_dec henc hdec hbuf_enc hbuf_dec hne hlen hbs hpast_enc
    hpast_dec

/-- C19, instance: the round trip applied to the five bytes `5`, `5`, newline, tab and
NUL. -/
theorem round_trip_without_backslash_witness :
    (∀ k, (fun _ : Nat => true) k = true) ∧ (∀ k, (fun _ : Nat => true) k = true) ∧
    Buffer.fresh 10 ≠ Buffer.null ∧ Buffer.fresh 4 ≠ Buffer.null ∧
    ([53, 53, 10, 9, 0] : List Nat).length ≤ 2 ^ 31 - 1 ∧
    (∀ c ∈ ([53, 53, 10, 9, 0] : List Nat), c ≠ 92) ∧
    (7 : Nat) ≠ ([53, 53, 10, 9, 0] : List Nat).getLast (by decide) ∧
    starts_non_digit [] ∧
    (∃ enc r,
      (s32_rle_compress 4096 (fun _ => true) 7 (some [53, 53, 10, 9, 0]) (Buffer.fresh 10)
        (some 0)).status = SUCCESS_STATUS ∧
      (s32_rle_compress 4096 (fun _ => true) 7 (some [53, 53, 10, 9, 0]) (Buffer.fresh 10)
        (some 0)).buffer = Buffer.data enc ∧
      s32_rle_decompress 4096 (fun _ => true) [] (some enc) (Buffer.fresh 4) (some 4)
        = some r ∧
      r.status = SUCCESS_STATUS ∧ r.buffer = Buffer.data [53, 53, 10, 9, 0] ∧
      r.size = some ([53, 53, 10, 9, 0] : List Nat).length) :=
  ⟨fun _ => rfl, fun _ => rfl, by decide, by decide, by decide, by decide, by decide,
    by decide,
    round_trip_without_backslash 4096 4096 (fun _ => true) (fun _ => true) 7 []
      [53, 53, 10, 9, 0] (Buffer.fresh 10) (Buffer.fresh 4) 0 4 (fun _ => rfl) (fun _ => rfl)
      (by decide) (by decide) (by decide) (by decide) (by decide) (by decide) (by decide)⟩

/-- The encoder on the input made of a newline and the digit 7: six bytes, three times
the length of the input. -/
theorem s32_rle_compress_tight_example :
    s32_rle_compress 4096 (fun _ => true) 0 (some [10, 55]) (Buffer.fresh 4) (some 0)
      = ⟨SUCCESS_STATUS, Buffer.data [92, 110, 49, 92, 55, 49], some 6, 2, false⟩ := by
  decide

/-! ## The claims, concluded

Lemmas on the tokens the decoder delimits, then the last claim. -/

/-- The symbol of the head token resolves to the byte `read_symbol` returns. -/
theorem head_token_resolved (past : List Nat) (c : Nat) (rest : List Nat) :
    (head_token past c rest).resolved = (read_symbol c rest).1 := by
  rw [Token.resolved_eq]
  unfold head_token read_symbol
  by_cases h : c = 92
  · cases rest with
    | nil => simp [h]
    | cons d r => simp [h]
  · simp [h]

/-- The digits of the head token are those the digit loop collects. -/
theorem head_token_digits (past : List Nat) (c : Nat) (rest : List Nat) :
    (head_token past c rest).digits = scan_digits (read_symbol c rest).2 past := by
  unfold head_token read_symbol
  by_cases h : c = 92
  · cases rest with
    | nil => simp [h]
    | cons d r => simp [h]
  · simp [h]

/-- The bytes of the head token are the bytes of its symbol, which open the stream,
followed by its digits. -/
theorem head_token_bytes (past : List Nat) (c : Nat) (rest : List Nat) :
    ∃ sym, c :: rest = sym ++ (read_symbol c rest).2 ∧
      (head_token past c rest).bytes = sym ++ (head_token past c rest).digits := by
  unfold head_token read_symbol Token.bytes
  by_cases h : c = 92
  · cases rest with
    | nil => exact ⟨[92], by simp [h], by simp [h]⟩
    | cons d r => exact ⟨[92, d], by simp [h], by simp [h]⟩
  · exact ⟨[c], by simp [h], by simp [h]⟩

/-- The copies of a token are its resolved symbol followed by one copy less than the
run count. -/
theorem Token.copies_eq (t : Token) :
    t.copies = t.resolved :: List.replicate (t.u64_char_cnt - 1) t.resolved := by
  unfold Token.copies
  have h : max t.u64_char_cnt 1 = (t.u64_char_cnt - 1) + 1 := by omega
  rw [h, List.replicate_succ]

/-- One pass of the reference decoder in terms of the head token. -/
theorem decode_pass_head_token (past : List Nat) (c : Nat) (rest : List Nat) :
    decode_pass past c rest =
      if 20 ≤ (head_token past c rest).digits.length then none
      else some ((head_token past c rest).copies,
        (read_symbol c rest).2.drop (head_token past c rest).digits.length) := by
  rw [Token.copies_eq, head_token_resolved]
  unfold Token.u64_char_cnt
  rw [head_token_digits]
  rfl

/-- The reference decoder writes, token by token, the copies of the tokens the
decoder delimits. -/
theorem decode_ref_stream_tokens (past : List Nat) :
    ∀ (fuel : Nat) (s : List Nat),
      decode_ref past fuel s
        = (stream_tokens past fuel s).map (fun ts => ts.flatMap Token.copies) := by
  intro fuel
  induction fuel with
  | zero =>
    intro s
    cases s with
    | nil => rfl
    | cons c rest => rfl
  | succ f ih =>
    intro s
    cases s with
    | nil => rfl
    | cons c rest =>
      rw [decode_ref_cons, decode_pass_head_token]
      unfold stream_tokens
      by_cases h : 20 ≤ (head_token past c rest).digits.length
      · simp [h]
      · simp only [h, if_false]
        rw [ih]
        cases stream_tokens past f
          ((read_symbol c rest).2.drop (head_token past c rest).digits.length) with
        | none => rfl
        | some ts => simp

/-- One pass of `stream_tokens`. -/
theorem stream_tokens_cons (past : List Nat) (fuel c : Nat) (rest : List Nat) :
    stream_tokens past (fuel + 1) (c :: rest) =
      if 20 ≤ (head_token past c rest).digits.length then none
      else
        (stream_tokens past fuel
          ((read_symbol c rest).2.drop (head_token past c rest).digits.length)).map
          (fun ts => head_token past c rest :: ts) := rfl

/-- The digits collected on a stream are a part of the stream followed by digits of
the memory after it, and what is collected in that memory is collected only when the
stream is exhausted. -/
theorem scan_digits_split (s past : List Nat) :
    ∃ p, p <+: scan_digits [] past ∧
      scan_digits s past ++ s.drop (scan_digits s past).length = s ++ p ∧
      (p ≠ [] → s.drop (scan_digits s past).length = []) := by
  unfold scan_digits
  induction s with
  | nil => exact ⟨past.takeWhile is_digit, by simp, by simp, by simp⟩
  | cons a s ih =>
    by_cases ha : is_digit a = true
    · obtain ⟨p, h1, h2, h3⟩ := ih
      refine ⟨p, h1, ?_, ?_⟩
      · simp only [List.cons_append, List.takeWhile_cons, ha, if_true, List.length_cons,
          List.drop_succ_cons]
        rw [h2]
      · intro hp
        simp only [List.cons_append, List.takeWhile_cons, ha, if_true, List.length_cons,
          List.drop_succ_cons]
        exact h3 hp
    · refine ⟨[], List.nil_prefix, ?_, by simp⟩
      simp [List.takeWhile_cons, ha]

/-- The tokens the decoder delimits, laid end to end, are the stream followed by the
digits it read in the memory after the stream. -/
theorem stream_tokens_bytes (past : List Nat) :
    ∀ (fuel : Nat) (s : List Nat) (ts : List Token), stream_tokens past fuel s = some ts →
      ∃ p, p <+: scan_digits [] past ∧ ts.flatMap Token.bytes = s ++ p := by
  intro fuel
  induction fuel with
  | zero =>
    intro s ts h
    cases s with
    | nil =>
      obtain rfl : [] = ts := Option.some.inj h
      exact ⟨[], List.nil_prefix, rfl⟩
    | cons c rest => exact absurd h (by simp [stream_tokens])
  | succ f ih =>
    intro s ts h
    cases s with
    | nil =>
      obtain rfl : [] = ts := Option.some.inj h
      exact ⟨[], List.nil_prefix, rfl⟩
    | cons c rest =>
      rw [stream_tokens_cons] at h
      by_cases h20 : 20 ≤ (head_token past c rest).digits.length
      · rw [if_pos h20] at h; exact absurd h (by simp)
      · rw [if_neg h20] at h
        cases hts : stream_tokens past f
            ((read_symbol c rest).2.drop (head_token past c rest).digits.length) with
        | none => rw [hts] at h; exact absurd h (by simp)
        | some ts1 =>
          rw [hts] at h
          obtain rfl : head_token past c rest :: ts1 = ts := Option.some.inj h
          obtain ⟨sym, e1, e2⟩ := head_token_bytes past c rest
          obtain ⟨p1, f1, f2⟩ := ih _ ts1 hts
          obtain ⟨p, g1, g2, g3⟩ := scan_digits_split (read_symbol c rest).2 past
          rw [← head_token_digits past c rest] at g2 g3
          by_cases hp : p = []
          · refine ⟨p1, f1, ?_⟩
            rw [List.flatMap_cons, e2, f2, e1]
            subst hp
            simp only [List.append_nil] at g2
            rw [List.append_assoc, ← List.append_assoc (head_token past c rest).digits, g2]
            simp
          · have hd := g3 hp
            rw [hd] at hts g2
            have : ts1 = [] := by
              cases f <;> simpa [stream_tokens] using hts.symm
            subst this
            refine ⟨p, g1, ?_⟩
            rw [List.flatMap_cons, e2, e1]
            simp only [List.append_nil] at g2
            rw [g2]
            simp

/-- A non-empty stream has at least one token. -/
theorem stream_tokens_ne_nil (past : List Nat) (fuel : Nat) (s : List Nat) (ts : List Token)
    (hne : s ≠ []) (h : stream_tokens past fuel s = some ts) : ts ≠ [] := by
  cases s with
  | nil => exact absurd rfl hne
  | cons c rest =>
    cases fuel with
    | zero => exact absurd h (by simp [stream_tokens])
    | succ f =>
      rw [stream_tokens_cons] at h
      by_cases h20 : 20 ≤ (head_token past c rest).digits.length
      · rw [if_pos h20] at h; exact absurd h (by simp)
      · rw [if_neg h20] at h
        cases hts : stream_tokens past f
            ((read_symbol c rest).2.drop (head_token past c rest).digits.length) with
        | none => rw [hts] at h; exact absurd h (by simp)
        | some ts1 =>
          rw [hts] at h
          obtain rfl : head_token past c rest :: ts1 = ts := Option.some.inj h
          exact List.cons_ne_nil _ _

/-- Every token the decoder delimits has fewer than 20 digits in its suffix, all of
them decimal digits. -/
theorem stream_tokens_digits (past : List Nat) :
    ∀ (fuel : Nat) (s : List Nat) (ts : List Token), stream_tokens past fuel s = some ts →
      ∀ t ∈ ts, t.digits.length < 20 ∧ ∀ d ∈ t.digits, is_digit d = true := by
  intro fuel
  induction fuel with
  | zero =>
    intro s ts h
    cases s with
    | nil =>
      obtain rfl : [] = ts := Option.some.inj h
      intro t ht; exact absurd ht (List.not_mem_nil _)
    | cons c rest => exact absurd h (by simp [stream_tokens])
  | succ f ih =>
    intro s ts h
    cases s with
    | nil =>
      obtain rfl : [] = ts := Option.some.inj h
      intro t ht; exact absurd ht (List.not_mem_nil _)
    | cons c rest =>
      rw [stream_tokens_cons] at h
      by_cases h20 : 20 ≤ (head_token past c rest).digits.length
      · rw [if_pos h20] at h; exact absurd h (by simp)
      · rw [if_neg h20] at h
        cases hts : stream_tokens past f
            ((read_symbol c rest).2.drop (head_token past c rest).digits.length) with
        | none => rw [hts] at h; exact absurd h (by simp)
        | some ts1 =>
          rw [hts] at h
          obtain rfl : head_token past c rest :: ts1 = ts := Option.some.inj h
          intro t ht
          rcases List.mem_cons.mp ht with rfl | ht1
          · refine ⟨by omega, ?_⟩
            intro d hd
            rw [head_token_digits] at hd
            unfold scan_digits at hd
            exact List.mem_takeWhile_imp hd
          · exact ih _ ts1 hts t ht1

/-- The count of a token is the decimal value of its digits. -/
theorem Token.count_eq_decimal_value (t : Token) : t.count = decimal_value t.digits := by
  unfold Token.count
  rw [decimal_value_eq_ofDigits]

/-- Up to `2 ^ 31 - 1` the run count the decoder uses is the decimal value of the
suffix. -/
theorem Token.u64_char_cnt_eq_count (t : Token) (h : t.count ≤ 2 ^ 31 - 1) :
    t.u64_char_cnt = t.count := by
  rw [Token.count_eq_decimal_value] at h ⊢
  exact to_u64_atoi t.digits h

/-- A token without digits, or whose digits have the value 0, stands for one copy of
its resolved symbol. -/
theorem Token.copies_of_zero (t : Token) (h : t.digits = [] ∨ t.count = 0) :
    t.copies = [t.resolved] := by
  have h0 : t.count = 0 := by
    rcases h with h | h
    · unfold Token.count; rw [h]; rfl
    · exact h
  have h1 : t.u64_char_cnt = 0 := by
    rw [Token.u64_char_cnt_eq_count t (by rw [h0]; decide), h0]
  unfold Token.copies
  rw [h1]
  rfl

/-- The number of bytes written for a list of tokens. -/
theorem length_flatMap_copies (ts : List Token) :
    (ts.flatMap Token.copies).length = (ts.map (fun t => max t.u64_char_cnt 1)).sum := by
  induction ts with
  | nil => rfl
  | cons t ts ih =>
    rw [List.flatMap_cons, List.length_append, ih, List.map_cons, List.sum_cons]
    simp [Token.copies]

/-- Every token contributes at least one byte. -/
theorem length_le_sum_copies (ts : List Token) :
    ts.length ≤ (ts.map (fun t => max t.u64_char_cnt 1)).sum := by
  induction ts with
  | nil => simp
  | cons t ts ih =>
    rw [List.map_cons, List.sum_cons, List.length_cons]
    have : 1 ≤ max t.u64_char_cnt 1 := le_max_right _ _
    omega

/-- The tokens are defined on every non-empty stream in which 20 digits never follow
one another. -/
theorem stream_tokens_defined (past x : List Nat) (hne : x ≠ [])
    (hrun : no_long_digit_run (x ++ past)) : ∃ ts, stream_tokens past x.length x = some ts := by
  obtain ⟨out, hout⟩ := decode_ref_defined past x hne hrun
  rw [decode_ref_stream_tokens] at hout
  cases h : stream_tokens past x.length x with
  | none => rw [h] at hout; simp at hout
  | some ts => exact ⟨ts, rfl⟩

/-- The decoder against the tokens it delimits. -/
theorem s32_rle_decompress_stream_tokens (chunk : Nat) (ok : Nat → Bool) (past : List Nat)
    (x : List Nat) (buf : Buffer) (size0 : Nat) (hok : ∀ k, ok k = true) (hchunk : 1 ≤ chunk)
    (hbuf : buf ≠ Buffer.null) (hne : x ≠ []) :
    (s32_rle_decompress chunk ok past (some x) buf (some size0)).map
        (fun r => (r.status, r.buffer, r.size, r.oob))
      = (stream_tokens past x.length x).map (fun ts =>
          (SUCCESS_STATUS, Buffer.data (ts.flatMap Token.copies),
            some ((ts.map (fun t => max t.u64_char_cnt 1)).sum), false)) := by
  rw [s32_rle_decompress_ref chunk ok past x buf size0 hok hchunk hbuf hne,
    decode_ref_stream_tokens]
  cases stream_tokens past x.length x with
  | none => rfl
  | some ts =>
    simp only [Option.map_some']
    rw [length_flatMap_copies]

/-- The decoder on the tokens it delimits.  For every non-empty stream, every
initial capacity and every chunk of at least 1 byte, with the output buffer present
and every reallocation succeeding: the decoder returns `SUCCESS_STATUS` and leaves,
token by token in the order of the stream, the larger of the run count and 1 many
copies of the resolved symbol, and reports the sum of those numbers as the size; the
call has a defined result exactly when the tokens are defined.  The tokens are those
the decoder delimits: there is at least one, each has fewer than 20 digits, and laid
end to end they are the stream followed by the digits read in the memory after it,
so each token starts at the byte after the digits of the one before.  A token whose
suffix is absent or has the decimal value 0 stands for exactly one copy of its
resolved symbol; up to `2 ^ 31 - 1` the run count is the decimal value of the suffix,
so that where no suffix exceeds it the size is the sum over the tokens of the larger
of that value and 1.  The tokens are defined whenever 20 digits never follow one
another in the stream and the memory read after it, and every call that returns
leaves at least one byte. -/
theorem missing_count_one_copy (DATA_CHUNK_SIZE_BYTES : Nat) (realloc_ok : Nat → Bool)
    (past : List Nat) (x : List Nat) (pc_output_data : Buffer) (size0 : Nat)
    (hrealloc : ∀ k, realloc_ok k = true) (hchunk : 1 ≤ DATA_CHUNK_SIZE_BYTES)
    (hbuf : pc_output_data ≠ Buffer.null) (hne : x ≠ []) :
    (s32_rle_decompress DATA_CHUNK_SIZE_BYTES realloc_ok past (some x) pc_output_data
        (some size0)).map (fun r => (r.status, r.buffer, r.size, r.oob))
      = (stream_tokens past x.length x).map (fun ts =>
          (SUCCESS_STATUS, Buffer.data (ts.flatMap Token.copies),
            some ((ts.map (fun t => max t.u64_char_cnt 1)).sum), false)) ∧
    (∀ ts, stream_tokens past x.length x = some ts →
      ts ≠ [] ∧
      (∃ p, p <+: scan_digits [] past ∧ ts.flatMap Token.bytes = x ++ p) ∧
      (∀ t ∈ ts, t.digits.length < 20 ∧ ∀ d ∈ t.digits, is_digit d = true) ∧
      (∀ t ∈ ts, t.digits = [] ∨ t.count = 0 → t.copies = [t.resolved]) ∧
      (∀ t ∈ ts, t.count ≤ 2 ^ 31 - 1 → t.u64_char_cnt = t.count) ∧
      ((∀ t ∈ ts, t.count ≤ 2 ^ 31 - 1) →
        (ts.map (fun t => max t.u64_char_cnt 1)).sum
          = (ts.map (fun t => max t.count 1)).sum) ∧
      1 ≤ (ts.map (fun t => max t.u64_char_cnt 1)).sum) ∧
    (no_long_digit_run (x ++ past) → ∃ ts, stream_tokens past x.length x = some ts) ∧
    (∀ r, s32_rle_decompress DATA_CHUNK_SIZE_BYTES realloc_ok past (some x) pc_output_data
        (some size0) = some r →
      r.status = SUCCESS_STATUS ∧
      ∃ out, r.buffer = Buffer.data out ∧ r.size = some out.length ∧ 1 ≤ out.length) := by
  have hmain := s32_rle_decompress_stream_tokens DATA_CHUNK_SIZE_BYTES realloc_ok past x
    pc_output_data size0 hrealloc hchunk hbuf hne
  have hsum : ∀ ts, stream_tokens past x.length x = some ts →
      1 ≤ (ts.map (fun t => max t.u64_char_cnt 1)).sum := by
    intro ts hts
    have h1 := stream_tokens_ne_nil past x.length x ts hne hts
    have h2 := length_le_sum_copies ts
    have h3 : 1 ≤ ts.length := List.length_pos.mpr h1
    omega
  refine ⟨hmain, ?_, stream_tokens_defined past x hne, ?_⟩
  · intro ts hts
    refine ⟨stream_tokens_ne_nil past x.length x ts hne hts,
      stream_tokens_bytes past x.length x ts hts,
      stream_tokens_digits past x.length x ts hts,
      fun t _ h => Token.copies_of_zero t h,
      fun t _ h => Token.u64_char_cnt_eq_count t h, ?_,
      hsum ts hts⟩
    intro hall
    exact congrArg List.sum (List.map_congr_left (fun t ht => by
      rw [Token.u64_char_cnt_eq_count t (hall t ht)]))
  · intro r hr
    rw [hr] at hmain
    cases hts : stream_tokens past x.length x with
    | none => rw [hts] at hmain; simp at hmain
    | some ts =>
      rw [hts] at hmain
      simp only [Option.map_some', Option.some.injEq, Prod.mk.injEq] at hmain
      obtain ⟨e1, e2, e3, -⟩ := hmain
      refine ⟨e1, ts.flatMap Token.copies, e2, ?_, ?_⟩
      · rw [e3, length_flatMap_copies]
      · rw [length_flatMap_copies]; exact hsum ts hts

/-- The decoder on the stream made of a backslash and the letter n, then `a0`, `b2`
and a closing backslash, with a chunk of 4096 bytes, as an instance of the statement
on the tokens it delimits.  The
decoder delimits four tokens, the first and the last without digits and the second
with the count 0, and writes the five bytes newline, a, b, b, backslash. -/
theorem missing_count_one_copy_witness :
    (∀ k, (fun _ : Nat => true) k = true) ∧ 1 ≤ 4096 ∧ Buffer.fresh 1 ≠ Buffer.null ∧
    ([92, 110, 97, 48, 98, 50, 92] : List Nat) ≠ [] ∧
    stream_tokens [] 7 [92, 110, 97, 48, 98, 50, 92]
      = some [⟨true, 110, []⟩, ⟨false, 97, [48]⟩, ⟨false, 98, [50]⟩, ⟨false, 92, []⟩] ∧
    s32_rle_decompress 4096 (fun _ => true) [] (some [92, 110, 97, 48, 98, 50, 92])
        (Buffer.fresh 1) (some 1)
      = some ⟨SUCCESS_STATUS, Buffer.data [10, 97, 98, 98, 92], some 5, 2, false⟩ ∧
    ((s32_rle_decompress 4096 (fun _ => true) [] (some [92, 110, 97, 48, 98, 50, 92])
        (Buffer.fresh 1) (some 1)).map (fun r => (r.status, r.buffer, r.size, r.oob))
      = (stream_tokens [] ([92, 110, 97, 48, 98, 50, 92] : List Nat).length
          [92, 110, 97, 48, 98, 50, 92]).map (fun ts =>
          (SUCCESS_STATUS, Buffer.data (ts.flatMap Token.copies),
            some ((ts.map (fun t => max t.u64_char_cnt 1)).sum), false)) ∧
    (∀ ts, stream_tokens [] ([92, 110, 97, 48, 98, 50, 92] : List Nat).length
        [92, 110, 97, 48, 98, 50, 92] = some ts →
      ts ≠ [] ∧
      (∃ p, p <+: scan_digits [] [] ∧
        ts.flatMap Token.bytes = [92, 110, 97, 48, 98, 50, 92] ++ p) ∧
      (∀ t ∈ ts, t.digits.length < 20 ∧ ∀ d ∈ t.digits, is_digit d = true) ∧
      (∀ t ∈ ts, t.digits = [] ∨ t.count = 0 → t.copies = [t.resolved]) ∧
      (∀ t ∈ ts, t.count ≤ 2 ^ 31 - 1 → t.u64_char_cnt = t.count) ∧
      ((∀ t ∈ ts, t.count ≤ 2 ^ 31 - 1) →
        (ts.map (fun t => max t.u64_char_cnt 1)).sum
          = (ts.map (fun t => max t.count 1)).sum) ∧
      1 ≤ (ts.map (fun t => max t.u64_char_cnt 1)).sum) ∧
    (no_long_digit_run ([92, 110, 97, 48, 98, 50, 92] ++ []) →
      ∃ ts, stream_tokens [] ([92, 110, 97, 48, 98, 50, 92] : List Nat).length
        [92, 110, 97, 48, 98, 50, 92] = some ts) ∧
    (∀ r, s32_rle_decompress 4096 (fun _ => true) [] (some [92, 110, 97, 48, 98, 50, 92])
        (Buffer.fresh 1) (some 1) = some r →
      r.status = SUCCESS_STATUS ∧
      ∃ out, r.buffer = Buffer.data out ∧ r.size = some out.length ∧ 1 ≤ out.length)) :=
  ⟨fun _ => rfl, by decide, by decide, by decide, by decide, by decide,
    missing_count_one_copy 4096 (fun _ => true) [] [92, 110, 97, 48, 98, 50, 92]
      (Buffer.fresh 1) 1 (fun _ => rfl) (by decide) (by decide) (by decide)⟩

/-- C21 (zero or missing count yields one copy), evaluated on the stream
`a4294967297`.  The stream is one token, the letter a with a suffix of 10 digits whose
decimal value is `2 ^ 32 + 1`, so the sum over the tokens of the larger of the count
and 1 is 4294967297; the decoder takes the count through `atoi` (decompress.c 91),
uses the run count 1, and returns `SUCCESS_STATUS` with the single byte a and the
size 1. -/
theorem large_count_breaks_length_sum :
    stream_tokens [] 11 [97, 52, 50, 57, 52, 57, 54, 55, 50, 57, 55]
      = some [⟨false, 97, [52, 50, 57, 52, 57, 54, 55, 50, 57, 55]⟩] ∧
    (Token.mk false 97 [52, 50, 57, 52, 57, 54, 55, 50, 57, 55]).count = 4294967297 ∧
    (([⟨false, 97, [52, 50, 57, 52, 57, 54, 55, 50, 57, 55]⟩] : List Token).map
      (fun t => max t.count 1)).sum = 4294967297 ∧
    (Token.mk false 97 [52, 50, 57, 52, 57, 54, 55, 50, 57, 55]).u64_char_cnt = 1 ∧
    s32_rle_decompress 4096 (fun _ => true) []
        (some [97, 52, 50, 57, 52, 57, 54, 55, 50, 57, 55]) (Buffer.fresh 5) (some 5)
      = some ⟨SUCCESS_STATUS, Buffer.data [97], some 1, 1, false⟩ := by
  have hc : (Token.mk false 97 [52, 50, 57, 52, 57, 54, 55, 50, 57, 55]).count
      = 4294967297 := by
    rw [Token.count_eq_decimal_value]; decide
  refine ⟨by decide, hc, ?_, by decide, by decide⟩
  rw [List.map_cons, List.map_nil, List.sum_cons, List.sum_nil, hc]
  decide

end RLE
